import Mathlib

/-!
Verification of the `dict` (incrementally rehashed hash table) and `ziplist`
(compact byte-encoded sequence) data structures of the repository, as a shallow
embedding in Lean.

Conventions of the embedding:
* C machine integers become `Nat` with explicit `% 2 ^ w` where wrap-around
  matters; signed quantities are represented in two's complement inside a
  64-bit `Nat` window.
* Keys and values of the hash table, which are opaque `void *` in the source
  compared by the pluggable comparator, are represented as `Nat`; the pluggable
  hash function of the type descriptor is an explicit parameter `f : Nat → Nat`
  of every operation (the source reads it from `d->type->hashFunction`).
* A bucket array `dictEntry **table` becomes `List (List (Nat × Nat))`; the
  `size` field, which always equals the allocation length, is the list length,
  and `sizemask` is `size - 1` (`Nat` subtraction gives `0` for `size = 0`,
  exactly the value `_dictReset` stores).
* The table pointer itself (used by `dictFingerprint`) is kept as a `Nat`
  address field `addr`; `0` plays the role of `NULL`.  Fresh addresses produced
  by the allocator are passed in as parameters.
* Fallible code returns `Option`: `none` models a run into undefined behaviour
  (a read outside the bounds of an allocated array / through a `NULL` table
  pointer), everything else is `some`.
-/

/-- DICT_HT_INITIAL_SIZE from dict.h. -/
def DICT_HT_INITIAL_SIZE : Nat := 4

/-- The static `dict_force_resize_ratio = 5` from dict.c. -/
def dict_force_resize_ratio : Nat := 5

/-- One hash table (`dictht`): bucket array, its allocation address, and the
`used` entry counter.  `size`/`sizemask` are derived below. -/
structure dictht where
  addr : Nat
  table : List (List (Nat × Nat))
  used : Nat
deriving DecidableEq, Repr

/-- The `size` field of a `dictht`: the length of the allocated bucket array. -/
def dictht.size (h : dictht) : Nat := h.table.length

/-- The `sizemask` field: always `size - 1` (`0` when unallocated, as stored by
`_dictReset`). -/
def dictht.sizemask (h : dictht) : Nat := h.size - 1

/-- The dictionary: two hash tables, the rehash index (`none` models the
sentinel `-1`) and the outstanding safe-iterator count. -/
structure dict where
  ht0 : dictht
  ht1 : dictht
  rehashidx : Option Nat
  iterators : Nat
deriving DecidableEq, Repr

/-- `_dictReset`: a zeroed `dictht` (NULL table). -/
def dictReset : dictht := ⟨0, [], 0⟩

/-- `dictCreate` / `_dictInit`: both tables reset, `rehashidx = -1`, no
iterators. -/
def dictCreate : dict := ⟨dictReset, dictReset, none, 0⟩

/-- `dictIsRehashing`: whether `rehashidx != -1`. -/
def dictIsRehashing (d : dict) : Bool := d.rehashidx.isSome

/-- `dictSize` macro: total number of stored entries. -/
def dictSize (d : dict) : Nat := d.ht0.used + d.ht1.used

/-- `dictSlots` macro: total number of buckets of both tables. -/
def dictSlots (d : dict) : Nat := d.ht0.size + d.ht1.size

/-- Loop of `_dictNextPower`: starting from `i`, double until `i ≥ size`.
The structural `gas` argument only bounds the recursion so that the kernel can
evaluate it; `dictNextPower` passes enough gas that it never runs out (the
doubling reaches any `size` within `size` rounds). -/
def dictNextPowerLoop (size : Nat) : Nat → Nat → Nat
  | i, 0 => i
  | i, gas + 1 => if size ≤ i then i else dictNextPowerLoop size (i * 2) gas

/-- `_dictNextPower`: the first power of two `≥ size` starting at 4, with the
source's `LONG_MAX` clamp (`unsigned long` build, `LONG_MAX = 2^63 - 1`). -/
def dictNextPower (size : Nat) : Nat :=
  if 2 ^ 63 - 1 ≤ size then 2 ^ 63 - 1
  else dictNextPowerLoop size DICT_HT_INITIAL_SIZE size

/-- `dictExpand`: allocate a bucket array of `dictNextPower size` empty chains
at fresh address `a`; it becomes table 0 if table 0 was never allocated,
otherwise table 1 with `rehashidx = 0`.  `none` is `DICT_ERR` (the dictionary
is unchanged in that case). -/
def dictExpand (d : dict) (a : Nat) (size : Nat) : Option dict :=
  let realsize := dictNextPower size
  if dictIsRehashing d ∨ size < d.ht0.used then none
  else
    let n : dictht := ⟨a, List.replicate realsize [], 0⟩
    if d.ht0.table = [] then some { d with ht0 := n }
    else some { d with ht1 := n, rehashidx := some 0 }

/-- Structural worker for `findNonEmptyFrom` (`gas` bounds the recursion so
that the kernel can evaluate it). -/
def findNonEmptyFromAux (t : List (List (Nat × Nat))) : Nat → Nat → Option Nat
  | 0, _ => none
  | gas + 1, i =>
    if h : i < t.length then
      if t[i] = [] then findNonEmptyFromAux t gas (i + 1) else some i
    else none

/-- First index `j ≥ i` of a non-empty bucket, `none` if the scan of
`dictRehash` would run off the end of the table. -/
def findNonEmptyFrom (t : List (List (Nat × Nat))) (i : Nat) : Option Nat :=
  findNonEmptyFromAux t (t.length - i) i

/-- Migration loop of `dictRehash`: walk `de` down the chain, inserting every
entry at the head of its home bucket in table 1 (`h = hash & ht[1].sizemask`).
`none` models writing through an out-of-range bucket. -/
def rehashMoveChain (f : Nat → Nat) (m1 : Nat) :
    List (Nat × Nat) → List (List (Nat × Nat)) → Option (List (List (Nat × Nat)))
  | [], t => some t
  | e :: rest, t =>
    let h := f e.1 &&& m1
    match t[h]? with
    | none => none
    | some b => rehashMoveChain f m1 rest (t.set h (e :: b))

/-- Body of `dictRehash`'s `while (n--)` loop.  Each round either finishes the
rehash (table 0 drained: table 0 takes over table 1's array, table 1 is reset,
`rehashidx = -1`, result flag 0) or migrates the next non-empty bucket of
table 0 into table 1.  `none` models the failed `assert`/out-of-bounds scan. -/
def dictRehashLoop (f : Nat → Nat) (d : dict) : Nat → Option (dict × Bool)
  | 0 => some (d, true)
  | n + 1 =>
    if d.ht0.used = 0 then
      some (⟨d.ht1, dictReset, none, d.iterators⟩, false)
    else
      match d.rehashidx with
      | none => none
      | some ridx =>
        match findNonEmptyFrom d.ht0.table ridx with
        | none => none
        | some j =>
          match d.ht0.table[j]? with
          | none => none
          | some chain =>
            match rehashMoveChain f d.ht1.sizemask chain d.ht1.table with
            | none => none
            | some t1 =>
              dictRehashLoop f
                ⟨⟨d.ht0.addr, d.ht0.table.set j [], d.ht0.used - chain.length⟩,
                 ⟨d.ht1.addr, t1, d.ht1.used + chain.length⟩,
                 some (j + 1), d.iterators⟩ n

/-- `dictRehash(d, n)`: returns the updated dictionary and the C result
(`true` = 1, more work remains; `false` = 0, done or not rehashing). -/
def dictRehash (f : Nat → Nat) (d : dict) (n : Nat) : Option (dict × Bool) :=
  if ¬ dictIsRehashing d then some (d, false)
  else dictRehashLoop f d n

/-- `_dictRehashStep`: a single rehash step, suppressed while safe iterators
are outstanding. -/
def dictRehashStep (f : Nat → Nat) (d : dict) : Option dict :=
  if d.iterators = 0 then (dictRehash f d 1).map Prod.fst else some d

/-- `_dictExpandIfNeeded`: initialize table 0 to size 4 if unallocated, expand
to `2 * used` when `used ≥ size` and resizing is enabled or the 1:5 forced
ratio is exceeded.  `cr` is the global `dict_can_resize` flag, `a` the address
the allocator would return.  `Except.error` is `DICT_ERR` (state unchanged). -/
def dictExpandIfNeeded (cr : Bool) (a : Nat) (d : dict) : Except Unit dict :=
  if dictIsRehashing d then .ok d
  else if d.ht0.size = 0 then
    match dictExpand d a DICT_HT_INITIAL_SIZE with
    | some d1 => .ok d1
    | none => .error ()
  else if d.ht0.size ≤ d.ht0.used ∧
      (cr ∨ dict_force_resize_ratio < d.ht0.used / d.ht0.size) then
    match dictExpand d a (d.ht0.used * 2) with
    | some d1 => .ok d1
    | none => .error ()
  else .ok d

/-- `_dictKeyIndex`: runs the expand check, then searches the key in table 0
and (while rehashing) table 1.  Result `(d', none)` is the C `-1` (key present
or expand error); `(d', some idx)` is the insertion index, computed against
the last table searched (table 1 while rehashing). -/
def dictKeyIndex (f : Nat → Nat) (cr : Bool) (a : Nat) (d : dict) (key : Nat) :
    Option (dict × Option Nat) :=
  match dictExpandIfNeeded cr a d with
  | .error _ => some (d, none)
  | .ok d1 =>
    let h := f key
    let idx0 := h &&& d1.ht0.sizemask
    match d1.ht0.table[idx0]? with
    | none => none
    | some b0 =>
      if (b0.find? (fun e => e.1 = key)).isSome then some (d1, none)
      else if ¬ dictIsRehashing d1 then some (d1, some idx0)
      else
        let idx1 := h &&& d1.ht1.sizemask
        match d1.ht1.table[idx1]? with
        | none => none
        | some b1 =>
          if (b1.find? (fun e => e.1 = key)).isSome then some (d1, none)
          else some (d1, some idx1)

/-- `dictAdd` (= `dictAddRaw` + `dictSetVal`): one opportunistic rehash step,
key-index computation (with expand check), then insertion of `(key, val)` at
the head of the target bucket of the receiving table (table 1 while
rehashing).  Result flag `true` is `DICT_OK`, `false` is `DICT_ERR` (key
already present). -/
def dictAdd (f : Nat → Nat) (cr : Bool) (a : Nat) (d0 : dict)
    (key val : Nat) : Option (dict × Bool) :=
  match (if dictIsRehashing d0 then dictRehashStep f d0 else some d0) with
  | none => none
  | some d1 =>
    match dictKeyIndex f cr a d1 key with
    | none => none
    | some (d2, none) => some (d2, false)
    | some (d2, some idx) =>
      if dictIsRehashing d2 then
        match d2.ht1.table[idx]? with
        | none => none
        | some b =>
          some ({ d2 with
            ht1 := ⟨d2.ht1.addr, d2.ht1.table.set idx ((key, val) :: b),
                    d2.ht1.used + 1⟩ }, true)
      else
        match d2.ht0.table[idx]? with
        | none => none
        | some b =>
          some ({ d2 with
            ht0 := ⟨d2.ht0.addr, d2.ht0.table.set idx ((key, val) :: b),
                    d2.ht0.used + 1⟩ }, true)

/-- `dictFind`: `NULL` at once if table 0 is unallocated, otherwise one
opportunistic rehash step, then chain search of table 0 and (while rehashing)
table 1.  Returns the found entry. -/
def dictFind (f : Nat → Nat) (d0 : dict) (key : Nat) :
    Option (dict × Option (Nat × Nat)) :=
  if d0.ht0.size = 0 then some (d0, none)
  else
    match (if dictIsRehashing d0 then dictRehashStep f d0 else some d0) with
    | none => none
    | some d1 =>
      let h := f key
      match d1.ht0.table[h &&& d1.ht0.sizemask]? with
      | none => none
      | some b0 =>
        match b0.find? (fun e => e.1 = key) with
        | some e => some (d1, some e)
        | none =>
          if ¬ dictIsRehashing d1 then some (d1, none)
          else
            match d1.ht1.table[h &&& d1.ht1.sizemask]? with
            | none => none
            | some b1 => some (d1, b1.find? (fun e => e.1 = key))

/-- Chain unlinking of `dictGenericDelete`: remove the first entry with the
given key, `none` when the chain holds no such entry. -/
def chainDelete (key : Nat) : List (Nat × Nat) → Option (List (Nat × Nat))
  | [] => none
  | e :: rest =>
    if e.1 = key then some rest
    else (chainDelete key rest).map (e :: ·)

/-- `dictGenericDelete` / `dictDelete`.  NOTE (faithful to this copy of the
source): there is no `ht[0].size == 0` guard and no opportunistic rehash step,
so on a dictionary whose table 0 was never allocated the very first bucket
read `d->ht[0].table[h & 0]` goes through the `NULL` table pointer — modelled
by the `none` result.  Flag `true` is `DICT_OK`, `false` is `DICT_ERR`. -/
def dictGenericDelete (f : Nat → Nat) (d : dict) (key : Nat) :
    Option (dict × Bool) :=
  let h := f key
  let idx0 := h &&& d.ht0.sizemask
  match d.ht0.table[idx0]? with
  | none => none
  | some b0 =>
    match chainDelete key b0 with
    | some b0' =>
      some ({ d with ht0 := ⟨d.ht0.addr, d.ht0.table.set idx0 b0',
                             d.ht0.used - 1⟩ }, true)
    | none =>
      if ¬ dictIsRehashing d then some (d, false)
      else
        let idx1 := h &&& d.ht1.sizemask
        match d.ht1.table[idx1]? with
        | none => none
        | some b1 =>
          match chainDelete key b1 with
          | some b1' =>
            some ({ d with ht1 := ⟨d.ht1.addr, d.ht1.table.set idx1 b1',
                                   d.ht1.used - 1⟩ }, true)
          | none => some (d, false)

/-- `dictDelete`: `dictGenericDelete` with destructors enabled (which the
embedding does not observe). -/
def dictDelete (f : Nat → Nat) (d : dict) (key : Nat) : Option (dict × Bool) :=
  dictGenericDelete f d key

/-- One client operation on the dictionary (the operation set of the claims). -/
inductive DOp where
  | add (k v : Nat)
  | del (k : Nat)
  | find (k : Nat)
deriving DecidableEq, Repr

/-- The externally observable result of one operation: the `DICT_OK`/`DICT_ERR`
flag of add/delete, the entry returned by find. -/
inductive DRes where
  | addR (ok : Bool)
  | delR (ok : Bool)
  | findR (e : Option (Nat × Nat))
deriving DecidableEq, Repr

/-- An item of an interleaved run: a client operation or one `dictRehash(d,1)`
call. -/
inductive DItem where
  | op (o : DOp)
  | reh
deriving DecidableEq, Repr

/-- Execute one client operation.  `a` is the address a table allocation made
by this operation would get. -/
def stepOp (f : Nat → Nat) (cr : Bool) (a : Nat) (d : dict) :
    DOp → Option (dict × DRes)
  | .add k v => (dictAdd f cr a d k v).map (fun p => (p.1, .addR p.2))
  | .del k => (dictDelete f d k).map (fun p => (p.1, .delR p.2))
  | .find k => (dictFind f d k).map (fun p => (p.1, .findR p.2))

/-- Run a list of items.  Returns the observable results of the client
operations in order together with the final state; a crash (undefined
behaviour) stops the run with `none` as final state. -/
def runItems (f : Nat → Nat) (cr : Bool) (a : Nat) (d : dict) :
    List DItem → List DRes × Option dict
  | [] => ([], some d)
  | .reh :: rest =>
    match dictRehash f d 1 with
    | none => ([], none)
    | some (d1, _) => runItems f cr a d1 rest
  | .op o :: rest =>
    match stepOp f cr a d o with
    | none => ([], none)
    | some (d1, r) =>
      let p := runItems f cr a d1 rest
      (r :: p.1, p.2)

/-- Run a plain list of client operations (no interleaved rehash calls). -/
def runOps (f : Nat → Nat) (cr : Bool) (a : Nat) (d : dict)
    (l : List DOp) : List DRes × Option dict :=
  runItems f cr a d (l.map .op)

/-- The client operations contained in an interleaved item list. -/
def itemsOps (l : List DItem) : List DOp :=
  l.filterMap (fun i => match i with | .op o => some o | .reh => none)

/-- Specification-side map semantics: a successful `dictAdd` binds the key if
it is absent (an add of a present key fails and changes nothing), a delete
removes it, a find changes nothing. -/
def specStep (m : Nat → Option Nat) : DOp → Nat → Option Nat
  | .add k v => if (m k).isSome then m else fun x => if x = k then some v else m x
  | .del k => fun x => if x = k then none else m x
  | .find _ => m

/-- Map semantics of a whole operation sequence, starting from the empty map. -/
def specMap (l : List DOp) : Nat → Option Nat :=
  l.foldl specStep (fun _ => none)

/-- All entries stored in the dictionary, in table/bucket/chain order. -/
def dictEntries (d : dict) : List (Nat × Nat) :=
  d.ht0.table.flatten ++ d.ht1.table.flatten

/-- Abstraction function: the key → value map represented by the dictionary. -/
def dictModel (d : dict) (k : Nat) : Option Nat :=
  ((dictEntries d).find? (fun e => e.1 = k)).map (fun e => e.2)

/-! ### Generic list lemmas -/

theorem flatten_decomp {α : Type} (t : List (List α)) (i : Nat) (h : i < t.length) :
    t.flatten = (t.take i).flatten ++ t[i] ++ (t.drop (i + 1)).flatten := by
  conv_lhs => rw [← List.take_append_drop i t]
  rw [List.flatten_append, List.drop_eq_getElem_cons h, List.flatten_cons,
    List.append_assoc]

theorem flatten_set {α : Type} (t : List (List α)) (i : Nat) (h : i < t.length)
    (b : List α) :
    (t.set i b).flatten = (t.take i).flatten ++ b ++ (t.drop (i + 1)).flatten := by
  rw [List.set_eq_take_append_cons_drop, if_pos h, List.flatten_append,
    List.flatten_cons, List.append_assoc]

theorem mem_flatten_take {α : Type} {t : List (List α)} {i : Nat} {x : α}
    (h : x ∈ (t.take i).flatten) :
    ∃ j, ∃ hj : j < t.length, j < i ∧ x ∈ t[j] := by
  rcases List.mem_flatten.1 h with ⟨l, hl, hx⟩
  rcases List.mem_iff_getElem.1 hl with ⟨j, hj, rfl⟩
  have hj2 : j < t.length := lt_of_lt_of_le hj (by simp [List.length_take])
  have hj3 : j < i := lt_of_lt_of_le hj (by simp [List.length_take])
  exact ⟨j, hj2, hj3, by rwa [List.getElem_take] at hx⟩

theorem mem_flatten_drop {α : Type} {t : List (List α)} {i : Nat} {x : α}
    (h : x ∈ (t.drop i).flatten) :
    ∃ j, ∃ hj : j < t.length, i ≤ j ∧ x ∈ t[j] := by
  rcases List.mem_flatten.1 h with ⟨l, hl, hx⟩
  rcases List.mem_iff_getElem.1 hl with ⟨j, hj, rfl⟩
  have hj2 : i + j < t.length := by
    have := hj; simp [List.length_drop] at this; omega
  refine ⟨i + j, hj2, by omega, ?_⟩
  rwa [List.getElem_drop] at hx

/-- With pairwise distinct keys, `find?` by key returns exactly the member
with that key. -/
theorem find?_key_of_mem_nodup {l : List (Nat × Nat)}
    (hnd : (l.map Prod.fst).Nodup) {k v : Nat} (hm : (k, v) ∈ l) :
    l.find? (fun e => e.1 = k) = some (k, v) := by
  induction l with
  | nil => cases hm
  | cons e rest ih =>
    rw [List.map_cons, List.nodup_cons] at hnd
    rcases List.mem_cons.1 hm with heq | hmem
    · subst heq; simp [List.find?_cons]
    · have hne : e.1 ≠ k := by
        intro hk
        exact hnd.1 (hk ▸ (List.mem_map.2 ⟨(k, v), hmem, rfl⟩))
      rw [List.find?_cons, decide_eq_false hne]
      exact ih hnd.2 hmem

/-! ### The well-formedness invariant of the dictionary -/

/-- Every entry of every bucket is stored in its home bucket
`hash & sizemask`. -/
def tableWF (f : Nat → Nat) (t : List (List (Nat × Nat))) : Prop :=
  ∀ i, ∀ hi : i < t.length, ∀ e ∈ t[i], f e.1 &&& (t.length - 1) = i

/-- Well-formedness of a dictionary state, as maintained by every operation of
dict.c: home-bucket placement in both tables, globally distinct keys, accurate
`used` counters, a valid rehash cursor with all buckets below it drained, a
reset table 1 while idle, and (for the runs considered here) no outstanding
safe iterators. -/
structure dictWF (f : Nat → Nat) (d : dict) : Prop where
  wf0 : tableWF f d.ht0.table
  wf1 : tableWF f d.ht1.table
  nodup : ((dictEntries d).map Prod.fst).Nodup
  used0 : d.ht0.used = d.ht0.table.flatten.length
  used1 : d.ht1.used = d.ht1.table.flatten.length
  rehash_bounds : ∀ r, d.rehashidx = some r →
    0 < d.ht0.size ∧ 0 < d.ht1.size ∧ r ≤ d.ht0.size
  rehash_drained : ∀ r, d.rehashidx = some r →
    ∀ i, ∀ hi : i < d.ht0.table.length, i < r → d.ht0.table[i] = []
  idle : d.rehashidx = none → d.ht1 = dictReset
  iter : d.iterators = 0

theorem mask_lt {n : Nat} (h : 0 < n) (x : Nat) : x &&& (n - 1) < n :=
  lt_of_le_of_lt (Nat.and_le_right) (by omega)

/-- In a well-formed table, looking for a key anywhere is the same as looking
in its home bucket. -/
theorem table_home_find (f : Nat → Nat) {t : List (List (Nat × Nat))}
    (hw : tableWF f t) (ht : 0 < t.length) (k : Nat) :
    t.flatten.find? (fun e => e.1 = k)
      = (t.get ⟨f k &&& (t.length - 1), mask_lt ht _⟩).find? (fun e => e.1 = k) := by
  have hmask : f k &&& (t.length - 1) < t.length := mask_lt ht _
  rw [flatten_decomp t _ hmask, List.find?_append, List.find?_append]
  have hA : (t.take (f k &&& (t.length - 1))).flatten.find?
      (fun e => e.1 = k) = none := by
    rw [List.find?_eq_none]
    intro x hx
    rcases mem_flatten_take hx with ⟨j, hj, hlt, hxj⟩
    simp only [decide_eq_true_eq]
    intro hk
    exact absurd (hw j hj x hxj) (by rw [hk]; omega)
  have hC : (t.drop ((f k &&& (t.length - 1)) + 1)).flatten.find?
      (fun e => e.1 = k) = none := by
    rw [List.find?_eq_none]
    intro x hx
    rcases mem_flatten_drop hx with ⟨j, hj, hge, hxj⟩
    simp only [decide_eq_true_eq]
    intro hk
    exact absurd (hw j hj x hxj) (by rw [hk]; omega)
  rw [hA, hC, Option.none_or, Option.or_none]
  rfl

/-- Characterization of the abstract map: `some v` exactly for stored
entries (given distinct keys). -/
theorem model_some_iff {f : Nat → Nat} {d : dict} (hw : dictWF f d)
    {k v : Nat} : dictModel d k = some v ↔ (k, v) ∈ dictEntries d := by
  constructor
  · intro h
    rcases Option.map_eq_some'.1 h with ⟨e, he, hev⟩
    have hmem := List.mem_of_find?_eq_some he
    have hk := List.find?_some he
    simp only [decide_eq_true_eq] at hk
    have : e = (k, v) := by
      cases e; simp only at hk hev; simp [hk, hev]
    exact this ▸ hmem
  · intro h
    unfold dictModel
    rw [find?_key_of_mem_nodup hw.nodup h]
    rfl

theorem model_none_iff {d : dict} {k : Nat} :
    dictModel d k = none ↔ ∀ v, (k, v) ∉ dictEntries d := by
  unfold dictModel
  rw [Option.map_eq_none', List.find?_eq_none]
  constructor
  · intro h v hv
    have := h _ hv
    simp at this
  · intro h e he
    simp only [decide_eq_true_eq]
    intro hk
    exact h e.2 (by cases e; simp only at hk; rwa [hk] at he)

/-! ### Correctness of the incremental rehash step -/

theorem model_eq_of_perm {f : Nat → Nat} {d d' : dict} (hw : dictWF f d)
    (hw' : dictWF f d') (hp : (dictEntries d').Perm (dictEntries d)) :
    dictModel d' = dictModel d := by
  funext k
  cases hm : dictModel d k with
  | some v =>
    exact (model_some_iff hw').2 (hp.mem_iff.2 ((model_some_iff hw).1 hm))
  | none =>
    rcases ho : dictModel d' k with _ | v
    · rfl
    · have hmem : (k, v) ∈ dictEntries d :=
        hp.mem_iff.1 ((model_some_iff hw').1 ho)
      have hsome : dictModel d k = some v := (model_some_iff hw).2 hmem
      rw [hm] at hsome
      cases hsome

theorem perm_shuffle {α : Type} (A C ch D : List α) :
    ((A ++ C) ++ (ch ++ D)).Perm ((A ++ ch ++ C) ++ D) := by
  have h1 : ((A ++ C) ++ (ch ++ D)) = A ++ (C ++ (ch ++ D)) := by
    simp [List.append_assoc]
  have h2 : ((A ++ ch ++ C) ++ D) = A ++ (ch ++ (C ++ D)) := by
    simp [List.append_assoc]
  rw [h1, h2]
  refine List.Perm.append_left A ?_
  have h3 : C ++ (ch ++ D) = (C ++ ch) ++ D := by rw [List.append_assoc]
  have h4 : ch ++ (C ++ D) = (ch ++ C) ++ D := by rw [List.append_assoc]
  rw [h3, h4]
  exact List.Perm.append_right D List.perm_append_comm

theorem findNonEmptyFromAux_spec {t : List (List (Nat × Nat))} :
    ∀ gas i, t.length ≤ i + gas →
    (∃ j, ∃ hj : j < t.length, i ≤ j ∧ t[j] ≠ []) →
    ∃ j, ∃ hj : j < t.length, findNonEmptyFromAux t gas i = some j ∧ i ≤ j ∧
      t[j] ≠ [] ∧ ∀ m, ∀ hm : m < t.length, i ≤ m → m < j → t[m] = [] := by
  intro gas
  induction gas with
  | zero =>
    intro i hle hex
    rcases hex with ⟨j, hj, hij, _⟩
    omega
  | succ n ih =>
    intro i hle hex
    rcases hex with ⟨j, hj, hij, hne⟩
    have hi : i < t.length := lt_of_le_of_lt hij hj
    rw [findNonEmptyFromAux, dif_pos hi]
    by_cases hb : t[i] = []
    · rw [if_pos hb]
      have hij2 : i + 1 ≤ j := by
        rcases Nat.eq_or_lt_of_le hij with rfl | h
        · exact absurd hb hne
        · omega
      obtain ⟨j', hj', heq, hge, hne', hemp⟩ :=
        ih (i + 1) (by omega) ⟨j, hj, hij2, hne⟩
      refine ⟨j', hj', heq, by omega, hne', fun m hm h1 h2 => ?_⟩
      rcases Nat.eq_or_lt_of_le h1 with rfl | h
      · exact hb
      · exact hemp m hm h h2
    · rw [if_neg hb]
      exact ⟨i, hi, rfl, le_refl _, hb, fun m hm h1 h2 => by omega⟩

theorem findNonEmptyFrom_spec {t : List (List (Nat × Nat))} :
    ∀ n i, t.length - i ≤ n →
    (∃ j, ∃ hj : j < t.length, i ≤ j ∧ t[j] ≠ []) →
    ∃ j, ∃ hj : j < t.length, findNonEmptyFrom t i = some j ∧ i ≤ j ∧
      t[j] ≠ [] ∧ ∀ m, ∀ hm : m < t.length, i ≤ m → m < j → t[m] = [] := by
  intro n i _ hex
  exact findNonEmptyFromAux_spec (t.length - i) i (by omega) hex

theorem rehashMoveChain_spec (f : Nat → Nat) :
    ∀ (chain : List (Nat × Nat)) (t : List (List (Nat × Nat))),
    0 < t.length → tableWF f t →
    ∃ t', rehashMoveChain f (t.length - 1) chain t = some t' ∧
      t'.length = t.length ∧ tableWF f t' ∧
      t'.flatten.Perm (chain ++ t.flatten) := by
  intro chain
  induction chain with
  | nil =>
    intro t htl hw
    exact ⟨t, rfl, rfl, hw, by simp⟩
  | cons e rest ih =>
    intro t htl hw
    have hidx : f e.1 &&& (t.length - 1) < t.length := mask_lt htl _
    have hget : t[f e.1 &&& (t.length - 1)]? = some (t[f e.1 &&& (t.length - 1)]) :=
      List.getElem?_eq_getElem hidx
    have hw1 : tableWF f (t.set (f e.1 &&& (t.length - 1)) (e :: t[f e.1 &&& (t.length - 1)])) := by
      intro j hj x hx
      rw [List.length_set] at hj
      by_cases hij : (f e.1 &&& (t.length - 1)) = j
      · subst hij
        rw [List.getElem_set_self] at hx
        rcases List.mem_cons.1 hx with rfl | hx2
        · rw [List.length_set]
        · rw [List.length_set]
          exact hw _ hj x hx2
      · rw [List.getElem_set_ne hij] at hx
        rw [List.length_set]
        exact hw j hj x hx
    have hperm1 : (t.set (f e.1 &&& (t.length - 1))
        (e :: t[f e.1 &&& (t.length - 1)])).flatten.Perm (e :: t.flatten) := by
      rw [flatten_set t _ hidx, flatten_decomp t _ hidx]
      have hh1 : (t.take (f e.1 &&& (t.length - 1))).flatten
          ++ (e :: t[f e.1 &&& (t.length - 1)])
          ++ (t.drop ((f e.1 &&& (t.length - 1)) + 1)).flatten
          = (t.take (f e.1 &&& (t.length - 1))).flatten
          ++ (e :: (t[f e.1 &&& (t.length - 1)]
              ++ (t.drop ((f e.1 &&& (t.length - 1)) + 1)).flatten)) := by
        simp [List.append_assoc]
      have hh2 : e :: ((t.take (f e.1 &&& (t.length - 1))).flatten
          ++ (t[f e.1 &&& (t.length - 1)]
              ++ (t.drop ((f e.1 &&& (t.length - 1)) + 1)).flatten))
          = e :: ((t.take (f e.1 &&& (t.length - 1))).flatten
          ++ t[f e.1 &&& (t.length - 1)]
          ++ (t.drop ((f e.1 &&& (t.length - 1)) + 1)).flatten) := by
        simp [List.append_assoc]
      rw [hh1, ← hh2]
      exact List.perm_middle
    obtain ⟨t', heq, hlen, hw', hperm⟩ :=
      ih (t.set (f e.1 &&& (t.length - 1)) (e :: t[f e.1 &&& (t.length - 1)]))
        (by rw [List.length_set]; omega) hw1
    rw [List.length_set] at hlen
    refine ⟨t', ?_, hlen, hw', ?_⟩
    · rw [rehashMoveChain, hget]
      rw [show (t.set (f e.1 &&& (t.length - 1))
          (e :: t[f e.1 &&& (t.length - 1)])).length - 1 = t.length - 1 by
        rw [List.length_set]] at heq
      exact heq
    · refine hperm.trans ?_
      refine (List.Perm.append_left rest hperm1).trans ?_
      exact List.perm_middle

/-- Correctness of one `dictRehash(d, 1)` call from a well-formed state: it
cannot crash, preserves well-formedness and the stored entries up to
permutation (hence the key→value map), and keeps table 0 allocated. -/
theorem dictRehash_one (f : Nat → Nat) {d : dict} (hw : dictWF f d) :
    ∃ d1 b, dictRehash f d 1 = some (d1, b) ∧ dictWF f d1 ∧
      (dictEntries d1).Perm (dictEntries d) ∧
      (0 < d1.ht0.size ↔ 0 < d.ht0.size) := by
  rcases hrx : d.rehashidx with _ | r
  · refine ⟨d, false, ?_, hw, List.Perm.refl _, Iff.rfl⟩
    unfold dictRehash
    rw [if_pos (by simp [dictIsRehashing, hrx])]
  · have hreh : dictIsRehashing d = true := by simp [dictIsRehashing, hrx]
    obtain ⟨hs0, hs1, hrle⟩ := hw.rehash_bounds r hrx
    have hloop : dictRehash f d 1 = dictRehashLoop f d 1 := by
      unfold dictRehash
      rw [if_neg (by simp [hreh])]
    by_cases hu : d.ht0.used = 0
    · -- table 0 drained: the step finishes the rehash
      have hstep : dictRehashLoop f d 1
          = some (⟨d.ht1, dictReset, none, d.iterators⟩, false) := by
        show dictRehashLoop f d (0 + 1) = _
        rw [dictRehashLoop, if_pos hu]
      have hflat0 : d.ht0.table.flatten = [] := by
        have := hw.used0
        rw [hu] at this
        exact List.eq_nil_of_length_eq_zero this.symm
      have hperm : (dictEntries ⟨d.ht1, dictReset, none, d.iterators⟩).Perm
          (dictEntries d) := by
        show (d.ht1.table.flatten ++ dictReset.table.flatten).Perm
          (d.ht0.table.flatten ++ d.ht1.table.flatten)
        rw [hflat0]
        simp [dictReset]
      refine ⟨_, _, hloop.trans hstep, ?_, hperm, ?_⟩
      · refine ⟨hw.wf1, ?_, ?_, hw.used1, rfl, ?_, ?_, fun _ => rfl, hw.iter⟩
        · intro i hi x hx
          simp [dictReset] at hi
        · have := hw.nodup
          exact ((hperm.map Prod.fst).nodup_iff).2 this
        · intro r' hr'; cases hr'
        · intro r' hr'; cases hr'
      · show 0 < d.ht1.size ↔ 0 < d.ht0.size
        constructor <;> intro <;> [exact hs0; exact hs1]
    · -- migrate the next non-empty bucket of table 0
      have hex : ∃ j, ∃ hj : j < d.ht0.table.length, r ≤ j ∧
          d.ht0.table[j] ≠ [] := by
        by_contra hno
        push_neg at hno
        have hall : ∀ j, ∀ hj : j < d.ht0.table.length, d.ht0.table[j] = [] := by
          intro j hj
          by_cases hjr : j < r
          · exact hw.rehash_drained r hrx j hj hjr
          · exact hno j hj (by omega)
        have hflat : d.ht0.table.flatten = [] := by
          rw [List.eq_nil_iff_forall_not_mem]
          intro x hx
          rcases List.mem_flatten.1 hx with ⟨l, hl, hxl⟩
          rcases List.mem_iff_getElem.1 hl with ⟨j, hj, rfl⟩
          rw [hall j hj] at hxl
          cases hxl
        rw [hw.used0, hflat] at hu
        exact hu rfl
      obtain ⟨j, hj, hfind, hrj, hjne, hemp⟩ :=
        findNonEmptyFrom_spec d.ht0.table.length r (by omega) hex
      obtain ⟨t1', hmove, hlen1, hw1', hperm1⟩ :=
        rehashMoveChain_spec f (d.ht0.table[j]) d.ht1.table hs1 hw.wf1
      have hgetj : d.ht0.table[j]? = some (d.ht0.table[j]) :=
        List.getElem?_eq_getElem hj
      have hstep : dictRehashLoop f d 1 = some
          (⟨⟨d.ht0.addr, d.ht0.table.set j [],
              d.ht0.used - (d.ht0.table[j]).length⟩,
            ⟨d.ht1.addr, t1', d.ht1.used + (d.ht0.table[j]).length⟩,
            some (j + 1), d.iterators⟩, true) := by
        show dictRehashLoop f d (0 + 1) = _
        rw [dictRehashLoop, if_neg hu]
        simp only [hrx, hfind, hgetj]
        have hm1 : d.ht1.sizemask = d.ht1.table.length - 1 := rfl
        rw [hm1, hmove]
        rfl
      have hflat0d : d.ht0.table.flatten
          = (d.ht0.table.take j).flatten ++ d.ht0.table[j]
            ++ (d.ht0.table.drop (j + 1)).flatten := flatten_decomp _ j hj
      have hflatset : (d.ht0.table.set j []).flatten
          = (d.ht0.table.take j).flatten ++ (d.ht0.table.drop (j + 1)).flatten := by
        rw [flatten_set _ j hj]
        simp
      have hperm : ((d.ht0.table.set j []).flatten ++ t1'.flatten).Perm
          (d.ht0.table.flatten ++ d.ht1.table.flatten) := by
        rw [hflatset, hflat0d]
        refine (List.Perm.append_left _ hperm1).trans ?_
        exact perm_shuffle _ _ _ _
      refine ⟨_, _, hloop.trans hstep, ?_, hperm, ?_⟩
      · refine ⟨?_, hw1', ?_, ?_, ?_, ?_, ?_, ?_, hw.iter⟩
        · -- home-bucket property of table 0 after clearing bucket j
          intro i hi x hx
          rw [List.length_set] at hi
          by_cases hij : j = i
          · subst hij
            rw [List.getElem_set_self] at hx
            cases hx
          · rw [List.getElem_set_ne hij] at hx
            rw [List.length_set]
            exact hw.wf0 i hi x hx
        · exact ((hperm.map Prod.fst).nodup_iff).2 hw.nodup
        · show d.ht0.used - (d.ht0.table[j]).length
            = (d.ht0.table.set j []).flatten.length
          rw [hflatset]
          have h0 := hw.used0
          rw [hflat0d] at h0
          simp only [List.length_append] at h0 ⊢
          omega
        · show d.ht1.used + (d.ht0.table[j]).length = t1'.flatten.length
          have hl := hperm1.length_eq
          simp only [List.length_append] at hl
          rw [hl, hw.used1]
          omega
        · intro r' hr'
          injection hr' with hr'
          subst hr'
          refine ⟨?_, ?_, ?_⟩
          · show 0 < (d.ht0.table.set j []).length
            rw [List.length_set]; exact hs0
          · show 0 < t1'.length
            rw [hlen1]; exact hs1
          · show j + 1 ≤ (d.ht0.table.set j []).length
            rw [List.length_set]; omega
        · intro r' hr' i hi hir
          injection hr' with hr'
          subst hr'
          rw [List.length_set] at hi
          by_cases hij : j = i
          · subst hij
            rw [List.getElem_set_self]
          · rw [List.getElem_set_ne hij]
            by_cases hirr : i < r
            · exact hw.rehash_drained r hrx i hi hirr
            · exact hemp i hi (by omega) (by omega)
        · intro habs; cases habs
      · show 0 < (d.ht0.table.set j []).length ↔ 0 < d.ht0.table.length
        rw [List.length_set]

theorem condStep_spec (f : Nat → Nat) {d : dict} (hw : dictWF f d) :
    ∃ d1, (if dictIsRehashing d then dictRehashStep f d else some d) = some d1 ∧
      dictWF f d1 ∧ (dictEntries d1).Perm (dictEntries d) ∧
      (0 < d1.ht0.size ↔ 0 < d.ht0.size) := by
  by_cases h : dictIsRehashing d
  · obtain ⟨d1, b, heq, hw1, hp, hiff⟩ := dictRehash_one f hw
    refine ⟨d1, ?_, hw1, hp, hiff⟩
    rw [if_pos h]
    unfold dictRehashStep
    rw [if_pos hw.iter, heq]
    rfl
  · exact ⟨d, by rw [if_neg h], hw, List.Perm.refl _, Iff.rfl⟩

theorem entries_find?_split (d : dict) (k : Nat) :
    (dictEntries d).find? (fun e => e.1 = k)
      = ((d.ht0.table.flatten.find? (fun e => e.1 = k)).or
         (d.ht1.table.flatten.find? (fun e => e.1 = k))) := by
  rw [dictEntries, List.find?_append]

/-- A dictionary with table 0 unallocated holds nothing (its rehash state must
be idle, so table 1 is reset as well). -/
theorem model_empty_of_size0 {f : Nat → Nat} {d : dict} (hw : dictWF f d)
    (hs : d.ht0.size = 0) : d.rehashidx = none ∧ d.ht1 = dictReset ∧
      dictModel d = fun _ => none := by
  have hni : d.rehashidx = none := by
    rcases hrx : d.rehashidx with _ | r
    · rfl
    · have := (hw.rehash_bounds r hrx).1
      rw [dictht.size] at hs this
      omega
  have ht1 : d.ht1 = dictReset := hw.idle hni
  have h0 : d.ht0.table = [] := by
    rw [dictht.size] at hs
    exact List.eq_nil_of_length_eq_zero hs
  refine ⟨hni, ht1, ?_⟩
  funext k
  rw [dictModel, dictEntries, h0, ht1]
  rfl

theorem find?_map_snd_eq (l : List (Nat × Nat)) (k : Nat) :
    (l.find? (fun e => e.1 = k)).map (fun e => (k, e.2))
      = ((l.find? (fun e => e.1 = k)).map (fun e => e.2)).map
          (fun v => (k, v)) := by
  cases h : l.find? (fun e => e.1 = k) <;> rfl

theorem find?_key_entry {l : List (Nat × Nat)} {k : Nat} {e : Nat × Nat}
    (h : l.find? (fun x => x.1 = k) = some e) : (k, e.2) = e := by
  have hk := List.find?_some h
  simp only [decide_eq_true_eq] at hk
  cases e
  simp only at hk
  rw [hk]

/-- Correctness of `dictFind`: it returns the entry of the abstract map (the
pair `(k, v)` when `k ↦ v`, `NULL` when absent), cannot crash, and the
opportunistic rehash step does not change the map. -/
theorem dictFind_spec (f : Nat → Nat) {d : dict} (hw : dictWF f d) (k : Nat) :
    ∃ d1, dictFind f d k = some (d1, (dictModel d k).map (fun v => (k, v))) ∧
      dictWF f d1 ∧ dictModel d1 = dictModel d ∧
      (0 < d1.ht0.size ↔ 0 < d.ht0.size) := by
  by_cases hs : d.ht0.size = 0
  · obtain ⟨hni, ht1, hmod⟩ := model_empty_of_size0 hw hs
    refine ⟨d, ?_, hw, rfl, Iff.rfl⟩
    unfold dictFind
    rw [if_pos hs, hmod]
    rfl
  · replace hs : 0 < d.ht0.size := Nat.pos_of_ne_zero hs
    obtain ⟨d1, hstep, hw1, hperm, hiff⟩ := condStep_spec f hw
    have hm1 : dictModel d1 = dictModel d := model_eq_of_perm hw hw1 hperm
    have hs1 : 0 < d1.ht0.size := hiff.2 hs
    have hmask0 : f k &&& d1.ht0.sizemask < d1.ht0.table.length := mask_lt hs1 _
    have hget0 : d1.ht0.table[f k &&& d1.ht0.sizemask]?
        = some (d1.ht0.table[f k &&& d1.ht0.sizemask]) :=
      List.getElem?_eq_getElem hmask0
    have hhome0 : d1.ht0.table.flatten.find? (fun e => e.1 = k)
        = (d1.ht0.table[f k &&& d1.ht0.sizemask]).find?
            (fun e => e.1 = k) :=
      table_home_find f hw1.wf0 hs1 k
    have hout : dictFind f d k = some (d1,
        ((dictEntries d1).find? (fun e => e.1 = k)).map (fun e => (k, e.2))) := by
      unfold dictFind
      rw [if_neg (by omega), hstep]
      simp only [hget0, entries_find?_split, hhome0]
      rcases hf0 : (d1.ht0.table[f k &&& d1.ht0.sizemask]).find?
          (fun e => e.1 = k) with _ | e
      · simp only [hf0, Option.none_or]
        by_cases hreh : dictIsRehashing d1
        · have hs1' : 0 < d1.ht1.size := by
            rcases hrx : d1.rehashidx with _ | r
            · rw [dictIsRehashing, hrx] at hreh; cases hreh
            · exact (hw1.rehash_bounds r hrx).2.1
          have hmask1 : f k &&& d1.ht1.sizemask < d1.ht1.table.length :=
            mask_lt hs1' _
          have hget1 : d1.ht1.table[f k &&& d1.ht1.sizemask]?
              = some (d1.ht1.table[f k &&& d1.ht1.sizemask]) :=
            List.getElem?_eq_getElem hmask1
          have hhome1 : d1.ht1.table.flatten.find? (fun e => e.1 = k)
              = (d1.ht1.table[f k &&& d1.ht1.sizemask]).find?
                  (fun e => e.1 = k) :=
            table_home_find f hw1.wf1 hs1' k
          simp only [hreh, not_true, if_false, hget1, hhome1]
          rcases hf1 : (d1.ht1.table[f k &&& d1.ht1.sizemask]).find?
              (fun e => e.1 = k) with _ | e
          · rw [hf1]; rfl
          · rw [hf1]
            show some (d1, some e) = some (d1, some (k, e.2))
            rw [find?_key_entry hf1]
        · have hni : d1.rehashidx = none := by
            rcases hrx : d1.rehashidx with _ | r
            · rfl
            · rw [dictIsRehashing, hrx] at hreh; simp at hreh
          have hflat1 : d1.ht1.table.flatten = [] := by
            rw [hw1.idle hni]
            rfl
          simp only [hreh, not_false_eq_true, if_true, hflat1]
          rfl
      · simp only [hf0]
        show some (d1, some e) = some (d1, some (k, e.2))
        rw [find?_key_entry hf0]
    refine ⟨d1, ?_, hw1, hm1, hiff⟩
    rw [hout, ← hm1]
    rw [dictModel, find?_map_snd_eq]

/-! ### Correctness of the expand check and of insertion -/

theorem flatten_replicate_nil {α : Type} (n : Nat) :
    (List.replicate n ([] : List α)).flatten = [] := by
  induction n with
  | zero => rfl
  | succ n ih => rw [List.replicate_succ, List.flatten_cons, ih]; rfl

theorem tableWF_replicate (f : Nat → Nat) (n : Nat) :
    tableWF f (List.replicate n ([] : List (Nat × Nat))) := by
  intro i hi x hx
  rw [List.getElem_replicate] at hx
  cases hx

theorem dictNextPowerLoop_pos (size : Nat) :
    ∀ gas i, 0 < i → 0 < dictNextPowerLoop size i gas := by
  intro gas
  induction gas with
  | zero => intro i hi; exact hi
  | succ gas ih =>
    intro i hi
    rw [dictNextPowerLoop]
    by_cases h : size ≤ i
    · rw [if_pos h]; exact hi
    · rw [if_neg h]; exact ih (i * 2) (by omega)

theorem dictNextPower_pos (size : Nat) : 0 < dictNextPower size := by
  rw [dictNextPower]
  by_cases h : 2 ^ 63 - 1 ≤ size
  · rw [if_pos h]; norm_num
  · rw [if_neg h]
    exact dictNextPowerLoop_pos size size DICT_HT_INITIAL_SIZE (by decide)

theorem flatten_set_cons_perm {α : Type} (t : List (List α)) (i : Nat)
    (hi : i < t.length) (e : α) :
    (t.set i (e :: t[i])).flatten.Perm (e :: t.flatten) := by
  rw [flatten_set t i hi, flatten_decomp t i hi]
  have hh1 : (t.take i).flatten ++ (e :: t[i]) ++ (t.drop (i + 1)).flatten
      = (t.take i).flatten ++ (e :: (t[i] ++ (t.drop (i + 1)).flatten)) := by
    simp [List.append_assoc]
  have hh2 : e :: ((t.take i).flatten ++ (t[i] ++ (t.drop (i + 1)).flatten))
      = e :: ((t.take i).flatten ++ t[i] ++ (t.drop (i + 1)).flatten) := by
    simp [List.append_assoc]
  rw [hh1, ← hh2]
  exact List.perm_middle

theorem tableWF_set_cons {f : Nat → Nat} {t : List (List (Nat × Nat))}
    (hw : tableWF f t) {i : Nat} (hi : i < t.length) {e : Nat × Nat}
    (he : f e.1 &&& (t.length - 1) = i) :
    tableWF f (t.set i (e :: t[i])) := by
  intro j hj x hx
  rw [List.length_set] at hj
  rw [List.length_set]
  by_cases hij : i = j
  · subst hij
    rw [List.getElem_set_self] at hx
    rcases List.mem_cons.1 hx with rfl | hx2
    · exact he
    · exact hw i hj x hx2
  · rw [List.getElem_set_ne hij] at hx
    exact hw j hj x hx

theorem key_not_mem_of_model_none {d : dict} {k : Nat}
    (hm : dictModel d k = none) : k ∉ (dictEntries d).map Prod.fst := by
  intro hk
  rcases List.mem_map.1 hk with ⟨e, he, hke⟩
  have : (k, e.2) ∈ dictEntries d := by
    cases e
    simp only at hke
    rwa [hke] at he
  exact model_none_iff.1 hm e.2 this

/-- Correctness of `_dictExpandIfNeeded`: under the invariant it never reports
`DICT_ERR`, it preserves the stored entries exactly, and afterwards table 0 is
allocated. -/
theorem dictExpandIfNeeded_spec (f : Nat → Nat) (cr : Bool) (a : Nat) {d : dict}
    (hw : dictWF f d) :
    ∃ d2, dictExpandIfNeeded cr a d = .ok d2 ∧ dictWF f d2 ∧
      dictEntries d2 = dictEntries d ∧ 0 < d2.ht0.size := by
  rcases hrx : d.rehashidx with _ | r
  · have hreh : dictIsRehashing d = false := by simp [dictIsRehashing, hrx]
    have hidle : d.ht1 = dictReset := hw.idle hrx
    by_cases hs : d.ht0.size = 0
    · -- initialization to the initial size 4
      have htab : d.ht0.table = [] := by
        rw [dictht.size] at hs
        exact List.eq_nil_of_length_eq_zero hs
      have hu0 : d.ht0.used = 0 := by
        rw [hw.used0, htab]; rfl
      have hexp : dictExpand d a DICT_HT_INITIAL_SIZE
          = some { d with ht0 := ⟨a,
              List.replicate (dictNextPower DICT_HT_INITIAL_SIZE) [], 0⟩ } := by
        unfold dictExpand
        rw [if_neg (by simp [hreh, hu0, DICT_HT_INITIAL_SIZE]), if_pos htab]
      refine ⟨{ d with ht0 := ⟨a,
          List.replicate (dictNextPower DICT_HT_INITIAL_SIZE) [], 0⟩ },
        ?_, ?_, ?_, ?_⟩
      · unfold dictExpandIfNeeded
        rw [if_neg (by simp [hreh]), if_pos hs, hexp]
      · refine ⟨tableWF_replicate f _, hw.wf1, ?_, ?_, hw.used1, ?_, ?_, ?_, hw.iter⟩
        · show ((List.replicate (dictNextPower DICT_HT_INITIAL_SIZE)
              ([] : List (Nat × Nat))).flatten ++ d.ht1.table.flatten).map
              Prod.fst |>.Nodup
          rw [flatten_replicate_nil]
          have := hw.nodup
          rwa [dictEntries, htab] at this
        · show (0 : Nat) = _
          rw [flatten_replicate_nil]; rfl
        · intro r' hr'; simp only [hrx] at hr'; cases hr'
        · intro r' hr' i hi hir; simp only [hrx] at hr'; cases hr'
        · intro _; exact hidle
      · show (List.replicate (dictNextPower DICT_HT_INITIAL_SIZE)
            ([] : List (Nat × Nat))).flatten ++ d.ht1.table.flatten
            = d.ht0.table.flatten ++ d.ht1.table.flatten
        rw [flatten_replicate_nil, htab]
        rfl
      · show 0 < (List.replicate (dictNextPower DICT_HT_INITIAL_SIZE)
            ([] : List (Nat × Nat))).length
        rw [List.length_replicate]
        exact dictNextPower_pos _
    · replace hs : 0 < d.ht0.size := Nat.pos_of_ne_zero hs
      by_cases hcond : d.ht0.size ≤ d.ht0.used ∧
          (cr ∨ dict_force_resize_ratio < d.ht0.used / d.ht0.size)
      · -- expansion to twice the used count, starting the rehash
        have htab : d.ht0.table ≠ [] := by
          intro h
          rw [dictht.size, h] at hs
          cases hs
        have hexp : dictExpand d a (d.ht0.used * 2)
            = some { d with
                ht1 := ⟨a, List.replicate (dictNextPower (d.ht0.used * 2)) [], 0⟩,
                rehashidx := some 0 } := by
          unfold dictExpand
          rw [if_neg (by simp [hreh]; omega), if_neg htab]
        have hflat1 : d.ht1.table.flatten = [] := by rw [hidle]; rfl
        refine ⟨{ d with
            ht1 := ⟨a, List.replicate (dictNextPower (d.ht0.used * 2)) [], 0⟩,
            rehashidx := some 0 },
          ?_, ?_, ?_, hs⟩
        · unfold dictExpandIfNeeded
          rw [if_neg (by simp [hreh]), if_neg (by omega), if_pos hcond, hexp]
        · refine ⟨hw.wf0, tableWF_replicate f _, ?_, hw.used0, ?_, ?_, ?_, ?_, hw.iter⟩
          · show (d.ht0.table.flatten
                ++ (List.replicate (dictNextPower (d.ht0.used * 2))
                  ([] : List (Nat × Nat))).flatten).map Prod.fst |>.Nodup
            rw [flatten_replicate_nil]
            have := hw.nodup
            rwa [dictEntries, hflat1] at this
          · show (0 : Nat) = _
            rw [flatten_replicate_nil]; rfl
          · intro r' hr'
            injection hr' with hr'
            subst hr'
            refine ⟨hs, ?_, by omega⟩
            show 0 < (List.replicate (dictNextPower (d.ht0.used * 2))
              ([] : List (Nat × Nat))).length
            rw [List.length_replicate]
            exact dictNextPower_pos _
          · intro r' hr' i hi hir
            injection hr' with hr'
            omega
          · intro h; cases h
        · show d.ht0.table.flatten
              ++ (List.replicate (dictNextPower (d.ht0.used * 2))
                ([] : List (Nat × Nat))).flatten
              = d.ht0.table.flatten ++ d.ht1.table.flatten
          rw [flatten_replicate_nil, hflat1]
      · refine ⟨d, ?_, hw, rfl, hs⟩
        unfold dictExpandIfNeeded
        rw [if_neg (by simp [hreh]), if_neg (by omega), if_neg hcond]
  · have hreh : dictIsRehashing d = true := by simp [dictIsRehashing, hrx]
    refine ⟨d, ?_, hw, rfl, (hw.rehash_bounds r hrx).1⟩
    unfold dictExpandIfNeeded
    rw [if_pos (by simp [hreh])]

/-- Correctness of `_dictKeyIndex`: the expand check succeeds, the search
reports `-1` exactly when the key is stored, and otherwise the returned index
is the key's home bucket of the receiving table (table 1 while rehashing). -/
theorem dictKeyIndex_spec (f : Nat → Nat) (cr : Bool) (a : Nat) {d : dict}
    (hw : dictWF f d) (k : Nat) :
    ∃ d2, dictWF f d2 ∧ dictEntries d2 = dictEntries d ∧ 0 < d2.ht0.size ∧
      ((dictModel d k).isSome = true →
        dictKeyIndex f cr a d k = some (d2, none)) ∧
      ((dictModel d k) = none →
        (dictIsRehashing d2 = true →
          dictKeyIndex f cr a d k = some (d2, some (f k &&& d2.ht1.sizemask)) ∧
          f k &&& d2.ht1.sizemask < d2.ht1.table.length) ∧
        (dictIsRehashing d2 = false →
          dictKeyIndex f cr a d k = some (d2, some (f k &&& d2.ht0.sizemask)) ∧
          f k &&& d2.ht0.sizemask < d2.ht0.table.length)) := by
  obtain ⟨d2, heif, hw2, hent, hs2⟩ := dictExpandIfNeeded_spec f cr a hw
  have hmeq : dictModel d2 = dictModel d := by
    funext x
    rw [dictModel, dictModel, hent]
  have hmask0 : f k &&& d2.ht0.sizemask < d2.ht0.table.length := mask_lt hs2 _
  have hget0 : d2.ht0.table[f k &&& d2.ht0.sizemask]?
      = some (d2.ht0.table[f k &&& d2.ht0.sizemask]) :=
    List.getElem?_eq_getElem hmask0
  have hhome0 : d2.ht0.table.flatten.find? (fun e => e.1 = k)
      = (d2.ht0.table[f k &&& d2.ht0.sizemask]).find?
          (fun e => e.1 = k) :=
    table_home_find f hw2.wf0 hs2 k
  have hred : dictKeyIndex f cr a d k
      = (let b0 := d2.ht0.table[f k &&& d2.ht0.sizemask]
        if (b0.find? (fun e => e.1 = k)).isSome then some (d2, none)
        else if ¬ dictIsRehashing d2 then some (d2, some (f k &&& d2.ht0.sizemask))
        else
          match d2.ht1.table[f k &&& d2.ht1.sizemask]? with
          | none => none
          | some b1 =>
            if (b1.find? (fun e => e.1 = k)).isSome then some (d2, none)
            else some (d2, some (f k &&& d2.ht1.sizemask))) := by
    unfold dictKeyIndex
    rw [heif]
    simp only [hget0]
  rcases hf0 : (d2.ht0.table[f k &&& d2.ht0.sizemask]).find?
      (fun e => e.1 = k) with _ | e
  · by_cases hreh : dictIsRehashing d2
    · have hs1' : 0 < d2.ht1.size := by
        rcases hrx : d2.rehashidx with _ | r
        · rw [dictIsRehashing, hrx] at hreh; cases hreh
        · exact (hw2.rehash_bounds r hrx).2.1
      have hmask1 : f k &&& d2.ht1.sizemask < d2.ht1.table.length :=
        mask_lt hs1' _
      have hget1 : d2.ht1.table[f k &&& d2.ht1.sizemask]?
          = some (d2.ht1.table[f k &&& d2.ht1.sizemask]) :=
        List.getElem?_eq_getElem hmask1
      have hhome1 : d2.ht1.table.flatten.find? (fun e => e.1 = k)
          = (d2.ht1.table[f k &&& d2.ht1.sizemask]).find?
              (fun e => e.1 = k) :=
        table_home_find f hw2.wf1 hs1' k
      rcases hf1 : (d2.ht1.table[f k &&& d2.ht1.sizemask]).find?
          (fun e => e.1 = k) with _ | e
      · have hm : dictModel d k = none := by
          rw [← hmeq, dictModel, entries_find?_split, hhome0, hf0, hhome1, hf1]
          rfl
        refine ⟨d2, hw2, hent, hs2, ?_, ?_⟩
        · intro habs
          rw [hm] at habs
          cases habs
        · intro _
          refine ⟨fun _ => ⟨?_, hmask1⟩, fun hneg => by rw [hreh] at hneg; cases hneg⟩
          rw [hred]
          simp only [hf0, Option.isSome_none, if_false, hreh, not_true, hget1, hf1]
          rfl
      · have hm : (dictModel d k).isSome = true := by
          rw [← hmeq, dictModel, entries_find?_split, hhome0, hf0, hhome1, hf1]
          rfl
        refine ⟨d2, hw2, hent, hs2, ?_, ?_⟩
        · intro _
          rw [hred]
          simp only [hf0, Option.isSome_none, if_false, hreh, not_true, hget1, hf1]
          rfl
        · intro habs
          rw [habs] at hm
          cases hm
    · have hni : d2.rehashidx = none := by
        rcases hrx : d2.rehashidx with _ | r
        · rfl
        · rw [dictIsRehashing, hrx] at hreh; simp at hreh
      have hflat1 : d2.ht1.table.flatten = [] := by
        rw [hw2.idle hni]
        rfl
      have hm : dictModel d k = none := by
        rw [← hmeq, dictModel, entries_find?_split, hhome0, hf0, hflat1]
        rfl
      refine ⟨d2, hw2, hent, hs2, ?_, ?_⟩
      · intro habs
        rw [hm] at habs
        cases habs
      · intro _
        refine ⟨fun hpos => absurd hpos hreh, fun _ => ⟨?_, hmask0⟩⟩
        rw [hred]
        simp only [hf0, Option.isSome_none, if_false, hreh, not_false_eq_true, if_true]
        rfl
  · have hm : (dictModel d k).isSome = true := by
      rw [← hmeq, dictModel, entries_find?_split, hhome0, hf0]
      rfl
    refine ⟨d2, hw2, hent, hs2, ?_, ?_⟩
    · intro _
      rw [hred]
      simp only [hf0, Option.isSome_some, if_true]
    · intro habs
      rw [habs] at hm
      cases hm

/-- Correctness of `dictAdd`: returns `DICT_OK` exactly when the key was
absent, in which case the new entry is linked into the receiving table; a
failed add (key present) changes nothing but the opportunistic rehash step. -/
theorem dictAdd_spec (f : Nat → Nat) (cr : Bool) (a : Nat) {d : dict}
    (hw : dictWF f d) (k v : Nat) :
    ∃ d3, dictAdd f cr a d k v = some (d3, (dictModel d k).isNone) ∧
      dictWF f d3 ∧ 0 < d3.ht0.size ∧
      ((dictModel d k).isNone = true →
        (dictEntries d3).Perm ((k, v) :: dictEntries d)) ∧
      ((dictModel d k).isNone = false →
        (dictEntries d3).Perm (dictEntries d)) := by
  obtain ⟨d1, hstep, hw1, hperm1, hiff⟩ := condStep_spec f hw
  have hm1 : dictModel d1 = dictModel d := model_eq_of_perm hw hw1 hperm1
  obtain ⟨d2, hw2, hent2, hs2, hsome, hnone⟩ := dictKeyIndex_spec f cr a hw1 k
  have hm2 : dictModel d2 = dictModel d := by
    funext x
    rw [dictModel, hent2, ← dictModel, hm1]
  rcases hmk : dictModel d k with _ | w
  · -- the key is absent: a fresh entry is inserted
    have hn1 : dictModel d1 k = none := by rw [hm1, hmk]
    obtain ⟨hcase1, hcase0⟩ := hnone hn1
    have hknotin : k ∉ (dictEntries d2).map Prod.fst :=
      key_not_mem_of_model_none (by rw [hm2, hmk])
    by_cases hreh : dictIsRehashing d2
    · obtain ⟨hki, hlt⟩ := hcase1 hreh
      have hget : d2.ht1.table[f k &&& d2.ht1.sizemask]?
          = some (d2.ht1.table[f k &&& d2.ht1.sizemask]) :=
        List.getElem?_eq_getElem hlt
      have hpermins : ((d2.ht1.table.set (f k &&& d2.ht1.sizemask)
            ((k, v) :: d2.ht1.table[f k &&& d2.ht1.sizemask])).flatten).Perm
          ((k, v) :: d2.ht1.table.flatten) :=
        flatten_set_cons_perm _ _ hlt _
      have hperm3 : (d2.ht0.table.flatten
          ++ (d2.ht1.table.set (f k &&& d2.ht1.sizemask)
            ((k, v) :: d2.ht1.table[f k &&& d2.ht1.sizemask])).flatten).Perm
          ((k, v) :: dictEntries d2) := by
        refine (List.Perm.append_left _ hpermins).trans ?_
        exact List.perm_middle
      have hperm4 : (d2.ht0.table.flatten
          ++ (d2.ht1.table.set (f k &&& d2.ht1.sizemask)
            ((k, v) :: d2.ht1.table[f k &&& d2.ht1.sizemask])).flatten).Perm
          ((k, v) :: dictEntries d) := by
        refine hperm3.trans (List.Perm.cons _ ?_)
        rw [hent2]
        exact hperm1
      rcases hrx2 : d2.rehashidx with _ | r2
      · rw [dictIsRehashing, hrx2] at hreh; cases hreh
      refine ⟨{ d2 with ht1 := ⟨d2.ht1.addr,
          d2.ht1.table.set (f k &&& d2.ht1.sizemask)
            ((k, v) :: d2.ht1.table[f k &&& d2.ht1.sizemask]),
          d2.ht1.used + 1⟩ },
        ?_, ?_, ?_, fun _ => hperm4, fun habs => by cases habs⟩
      · unfold dictAdd
        rw [hstep]
        simp only [hki, hreh, if_true, hget]
        rfl
      · refine ⟨hw2.wf0, ?_, ?_, hw2.used0, ?_, ?_, ?_, ?_, hw2.iter⟩
        · exact tableWF_set_cons hw2.wf1 hlt rfl
        · refine ((hperm4.map Prod.fst).nodup_iff).2 ?_
          rw [List.map_cons]
          exact List.Nodup.cons (key_not_mem_of_model_none hmk) hw.nodup
        · show d2.ht1.used + 1 = (d2.ht1.table.set (f k &&& d2.ht1.sizemask)
            ((k, v) :: d2.ht1.table[f k &&& d2.ht1.sizemask])).flatten.length
          rw [hw2.used1]
          have := hpermins.length_eq
          simp only [List.length_cons] at this
          omega
        · intro r' hr'
          simp only [hrx2] at hr'
          injection hr' with hr'
          subst hr'
          obtain ⟨hb0, hb1, hble⟩ := hw2.rehash_bounds r2 hrx2
          refine ⟨hb0, ?_, hble⟩
          show 0 < (d2.ht1.table.set _ _).length
          rw [List.length_set]
          exact hb1
        · intro r' hr' i hi hir
          simp only [hrx2] at hr'
          injection hr' with hr'
          subst hr'
          exact hw2.rehash_drained r2 hrx2 i hi hir
        · intro habs
          simp only [hrx2] at habs
          cases habs
      · exact hs2
    · obtain ⟨hki, hlt⟩ := hcase0 (by
        rcases hb : dictIsRehashing d2
        · rfl
        · exact absurd hb hreh)
      have hni : d2.rehashidx = none := by
        rcases hrx2 : d2.rehashidx with _ | r2
        · rfl
        · exact absurd (by simp [dictIsRehashing, hrx2]) hreh
      have hget : d2.ht0.table[f k &&& d2.ht0.sizemask]?
          = some (d2.ht0.table[f k &&& d2.ht0.sizemask]) :=
        List.getElem?_eq_getElem hlt
      have hpermins : ((d2.ht0.table.set (f k &&& d2.ht0.sizemask)
            ((k, v) :: d2.ht0.table[f k &&& d2.ht0.sizemask])).flatten).Perm
          ((k, v) :: d2.ht0.table.flatten) :=
        flatten_set_cons_perm _ _ hlt _
      have hperm3 : ((d2.ht0.table.set (f k &&& d2.ht0.sizemask)
            ((k, v) :: d2.ht0.table[f k &&& d2.ht0.sizemask])).flatten
          ++ d2.ht1.table.flatten).Perm ((k, v) :: dictEntries d2) :=
        List.Perm.append_right _ hpermins
      have hperm4 : ((d2.ht0.table.set (f k &&& d2.ht0.sizemask)
            ((k, v) :: d2.ht0.table[f k &&& d2.ht0.sizemask])).flatten
          ++ d2.ht1.table.flatten).Perm ((k, v) :: dictEntries d) := by
        refine hperm3.trans (List.Perm.cons _ ?_)
        rw [hent2]
        exact hperm1
      refine ⟨{ d2 with ht0 := ⟨d2.ht0.addr,
          d2.ht0.table.set (f k &&& d2.ht0.sizemask)
            ((k, v) :: d2.ht0.table[f k &&& d2.ht0.sizemask]),
          d2.ht0.used + 1⟩ },
        ?_, ?_, ?_, fun _ => hperm4, fun habs => by cases habs⟩
      · unfold dictAdd
        rw [hstep]
        simp only [hki, hreh, if_false, hget]
        rfl
      · refine ⟨?_, hw2.wf1, ?_, ?_, hw2.used1, ?_, ?_, ?_, hw2.iter⟩
        · exact tableWF_set_cons hw2.wf0 hlt rfl
        · refine ((hperm4.map Prod.fst).nodup_iff).2 ?_
          rw [List.map_cons]
          exact List.Nodup.cons (key_not_mem_of_model_none hmk) hw.nodup
        · show d2.ht0.used + 1 = (d2.ht0.table.set (f k &&& d2.ht0.sizemask)
            ((k, v) :: d2.ht0.table[f k &&& d2.ht0.sizemask])).flatten.length
          rw [hw2.used0]
          have := hpermins.length_eq
          simp only [List.length_cons] at this
          omega
        · intro r' hr'
          simp only [hni] at hr'
          cases hr'
        · intro r' hr' i hi hir
          simp only [hni] at hr'
          cases hr'
        · intro _
          exact hw2.idle hni
      · show 0 < (d2.ht0.table.set _ _).length
        rw [List.length_set]
        exact hs2
  · -- the key is present: DICT_ERR, nothing inserted
    have hsome1 : (dictModel d1 k).isSome = true := by rw [hm1, hmk]; rfl
    have hki := hsome hsome1
    refine ⟨d2, ?_, hw2, hs2, fun habs => by simp at habs, ?_⟩
    · unfold dictAdd
      rw [hstep]
      simp only [hki]
      rfl
    · intro _
      rw [hent2]
      exact hperm1

/-! ### Correctness of deletion -/

theorem chainDelete_none {k : Nat} : ∀ {b : List (Nat × Nat)},
    chainDelete k b = none → ∀ e ∈ b, e.1 ≠ k := by
  intro b
  induction b with
  | nil => intro _ e he; cases he
  | cons x rest ih =>
    intro h e he
    rw [chainDelete] at h
    by_cases hx : x.1 = k
    · rw [if_pos hx] at h; cases h
    · rw [if_neg hx] at h
      rcases List.mem_cons.1 he with rfl | hmem
      · exact hx
      · rcases hcd : chainDelete k rest with _ | b''
        · exact ih hcd e hmem
        · rw [hcd] at h; cases h

theorem chainDelete_split {k : Nat} : ∀ {b b' : List (Nat × Nat)},
    chainDelete k b = some b' →
    ∃ X w Y, b = X ++ (k, w) :: Y ∧ b' = X ++ Y ∧ ∀ e ∈ X, e.1 ≠ k := by
  intro b
  induction b with
  | nil => intro b' h; cases h
  | cons x rest ih =>
    intro b' h
    rw [chainDelete] at h
    by_cases hx : x.1 = k
    · rw [if_pos hx] at h
      injection h with h
      refine ⟨[], x.2, rest, ?_, by rw [← h]; rfl, fun e he => by cases he⟩
      have : x = (k, x.2) := by cases x; simp only at hx ⊢; rw [hx]
      rw [← this]
      rfl
    · rw [if_neg hx] at h
      rcases hcd : chainDelete k rest with _ | b''
      · rw [hcd] at h; cases h
      · rw [hcd] at h
        injection h with h
        obtain ⟨X, w, Y, hb, hb', hX⟩ := ih hcd
        refine ⟨x :: X, w, Y, by rw [hb]; rfl, by rw [← h, hb']; rfl, ?_⟩
        intro e he
        rcases List.mem_cons.1 he with rfl | hmem
        · exact hx
        · exact hX e hmem

theorem find?_removed {k w : Nat} {X Y : List (Nat × Nat)}
    (hX : ∀ e ∈ X, e.1 ≠ k) :
    (X ++ (k, w) :: Y).find? (fun e => e.1 = k) = some (k, w) := by
  rw [List.find?_append]
  have hnx : X.find? (fun e => e.1 = k) = none := by
    rw [List.find?_eq_none]
    intro x hx
    simp only [decide_eq_true_eq]
    exact hX x hx
  rw [hnx, Option.none_or, List.find?_cons, decide_eq_true rfl]

theorem find?_none_of_chainDelete_none {k : Nat} {b : List (Nat × Nat)}
    (h : chainDelete k b = none) : b.find? (fun e => e.1 = k) = none := by
  rw [List.find?_eq_none]
  intro x hx
  simp only [decide_eq_true_eq]
  exact chainDelete_none h x hx

theorem tableWF_set_of_subset {f : Nat → Nat} {t : List (List (Nat × Nat))}
    (hw : tableWF f t) {i : Nat} (hi : i < t.length) {b' : List (Nat × Nat)}
    (hsub : ∀ e ∈ b', e ∈ t[i]) : tableWF f (t.set i b') := by
  intro j hj x hx
  rw [List.length_set] at hj
  rw [List.length_set]
  by_cases hij : i = j
  · subst hij
    rw [List.getElem_set_self] at hx
    exact hw i hj x (hsub x hx)
  · rw [List.getElem_set_ne hij] at hx
    exact hw j hj x hx

/-- Removing one entry from a bucket: the old flatten is a permutation of the
removed entry consed onto the new flatten. -/
theorem flatten_remove_perm {α : Type} (t : List (List α)) (i : Nat)
    (hi : i < t.length) (X : List α) (e : α) (Y : List α)
    (hb : t[i] = X ++ e :: Y) :
    (e :: (t.set i (X ++ Y)).flatten).Perm t.flatten := by
  rw [flatten_set t i hi, flatten_decomp t i hi, hb]
  have h1 : (t.take i).flatten ++ (X ++ e :: Y) ++ (t.drop (i + 1)).flatten
      = ((t.take i).flatten ++ X) ++ e :: (Y ++ (t.drop (i + 1)).flatten) := by
    simp [List.append_assoc]
  have h2 : e :: ((t.take i).flatten ++ (X ++ Y) ++ (t.drop (i + 1)).flatten)
      = e :: (((t.take i).flatten ++ X) ++ (Y ++ (t.drop (i + 1)).flatten)) := by
    simp [List.append_assoc]
  rw [h1, h2]
  exact List.perm_middle.symm

/-- Correctness of `dictDelete` (= `dictGenericDelete`): on a dictionary whose
table 0 was never allocated it crashes (the missing `size == 0` guard of this
copy); otherwise it returns `DICT_OK` exactly when the key was present,
unlinking that entry, and a failed delete changes nothing at all. -/
theorem dictDelete_spec (f : Nat → Nat) {d : dict} (hw : dictWF f d) (k : Nat) :
    (d.ht0.size = 0 → dictDelete f d k = none) ∧
    (0 < d.ht0.size → ∃ d1,
      dictDelete f d k = some (d1, (dictModel d k).isSome) ∧ dictWF f d1 ∧
      d1.ht0.size = d.ht0.size ∧ d1.rehashidx = d.rehashidx ∧
      ((dictModel d k).isSome = true → ∃ w, dictModel d k = some w ∧
        ((k, w) :: dictEntries d1).Perm (dictEntries d)) ∧
      ((dictModel d k).isSome = false → d1 = d)) := by
  constructor
  · intro hs
    have htab : d.ht0.table = [] := by
      rw [dictht.size] at hs
      exact List.eq_nil_of_length_eq_zero hs
    unfold dictDelete dictGenericDelete
    rw [htab]
    rfl
  · intro hs
    have hmask0 : f k &&& d.ht0.sizemask < d.ht0.table.length := mask_lt hs _
    have hget0 : d.ht0.table[f k &&& d.ht0.sizemask]?
        = some (d.ht0.table[f k &&& d.ht0.sizemask]) :=
      List.getElem?_eq_getElem hmask0
    have hhome0 : d.ht0.table.flatten.find? (fun e => e.1 = k)
        = (d.ht0.table[f k &&& d.ht0.sizemask]).find?
            (fun e => e.1 = k) :=
      table_home_find f hw.wf0 hs k
    rcases hcd0 : chainDelete k (d.ht0.table[f k &&& d.ht0.sizemask])
        with _ | b0'
    · -- not in table 0's home bucket
      have hf0 : d.ht0.table.flatten.find? (fun e => e.1 = k) = none := by
        rw [hhome0]
        exact find?_none_of_chainDelete_none hcd0
      by_cases hreh : dictIsRehashing d
      · have hs1 : 0 < d.ht1.size := by
          rcases hrx : d.rehashidx with _ | r
          · rw [dictIsRehashing, hrx] at hreh; cases hreh
          · exact (hw.rehash_bounds r hrx).2.1
        have hmask1 : f k &&& d.ht1.sizemask < d.ht1.table.length :=
          mask_lt hs1 _
        have hget1 : d.ht1.table[f k &&& d.ht1.sizemask]?
            = some (d.ht1.table[f k &&& d.ht1.sizemask]) :=
          List.getElem?_eq_getElem hmask1
        have hhome1 : d.ht1.table.flatten.find? (fun e => e.1 = k)
            = (d.ht1.table[f k &&& d.ht1.sizemask]).find?
                (fun e => e.1 = k) :=
          table_home_find f hw.wf1 hs1 k
        rcases hcd1 : chainDelete k (d.ht1.table[f k &&& d.ht1.sizemask])
            with _ | b1'
        · -- absent everywhere: DICT_ERR, no change
          have hf1 : d.ht1.table.flatten.find? (fun e => e.1 = k) = none := by
            rw [hhome1]
            exact find?_none_of_chainDelete_none hcd1
          have hm : dictModel d k = none := by
            rw [dictModel, entries_find?_split, hf0, hf1]
            rfl
          refine ⟨d, ?_, hw, rfl, rfl, ?_, fun _ => rfl⟩
          · unfold dictDelete dictGenericDelete
            rw [hm]
            simp only [hget0, hcd0, hreh, not_true, if_false, hget1, hcd1]
            rfl
          · intro habs
            rw [hm] at habs
            cases habs
        · -- found in table 1
          obtain ⟨X, w, Y, hb, hb', hX⟩ := chainDelete_split hcd1
          have hf1 : d.ht1.table.flatten.find? (fun e => e.1 = k)
              = some (k, w) := by
            rw [hhome1, hb]
            exact find?_removed hX
          have hm : dictModel d k = some w := by
            rw [dictModel, entries_find?_split, hf0, Option.none_or, hf1]
            rfl
          have hpermrem : ((k, w) :: (d.ht1.table.set (f k &&& d.ht1.sizemask)
              (X ++ Y)).flatten).Perm d.ht1.table.flatten :=
            flatten_remove_perm _ _ hmask1 X (k, w) Y hb
          refine ⟨{ d with ht1 := ⟨d.ht1.addr,
              d.ht1.table.set (f k &&& d.ht1.sizemask) (X ++ Y),
              d.ht1.used - 1⟩ }, ?_, ?_, rfl, rfl, ?_, ?_⟩
          · unfold dictDelete dictGenericDelete
            rw [hm]
            simp only [hget0, hcd0, hreh, not_true, if_false, hget1, hcd1, hb']
            rfl
          · -- well-formedness after unlinking from table 1
            have hperme : ((k, w) :: (d.ht0.table.flatten
                ++ (d.ht1.table.set (f k &&& d.ht1.sizemask)
                  (X ++ Y)).flatten)).Perm (dictEntries d) := by
              refine List.Perm.trans ?_ (List.Perm.append_left _ hpermrem)
              exact List.perm_middle.symm
            refine ⟨hw.wf0, ?_, ?_, hw.used0, ?_, ?_, ?_, ?_, hw.iter⟩
            · refine tableWF_set_of_subset hw.wf1 hmask1 ?_
              intro e he
              rw [hb]
              rcases List.mem_append.1 he with hX' | hY'
              · exact List.mem_append.2 (Or.inl hX')
              · exact List.mem_append.2 (Or.inr (List.mem_cons_of_mem _ hY'))
            · have hnd := (hperme.map Prod.fst).nodup_iff.2 hw.nodup
              rw [List.map_cons] at hnd
              exact (List.nodup_cons.1 hnd).2
            · show d.ht1.used - 1 = (d.ht1.table.set
                  (f k &&& d.ht1.sizemask) (X ++ Y)).flatten.length
              rw [hw.used1]
              have := hpermrem.length_eq
              simp only [List.length_cons] at this
              omega
            · intro r' hr'
              obtain ⟨hb0, hb1, hble⟩ := hw.rehash_bounds r' hr'
              refine ⟨hb0, ?_, hble⟩
              show 0 < (d.ht1.table.set _ _).length
              rw [List.length_set]
              exact hb1
            · intro r' hr' i hi hir
              exact hw.rehash_drained r' hr' i hi hir
            · intro hni
              rw [dictIsRehashing, hni] at hreh
              cases hreh
          · intro _
            refine ⟨w, hm, ?_⟩
            show ((k, w) :: (d.ht0.table.flatten
                ++ (d.ht1.table.set (f k &&& d.ht1.sizemask)
                  (X ++ Y)).flatten)).Perm (dictEntries d)
            refine List.Perm.trans ?_ (List.Perm.append_left _ hpermrem)
            exact List.perm_middle.symm
          · intro habs
            rw [hm] at habs
            cases habs
      · -- not rehashing: only table 0 is searched
        have hni : d.rehashidx = none := by
          rcases hrx : d.rehashidx with _ | r
          · rfl
          · exact absurd (by simp [dictIsRehashing, hrx]) hreh
        have hflat1 : d.ht1.table.flatten = [] := by
          rw [hw.idle hni]
          rfl
        have hm : dictModel d k = none := by
          rw [dictModel, entries_find?_split, hf0, hflat1]
          rfl
        refine ⟨d, ?_, hw, rfl, rfl, ?_, fun _ => rfl⟩
        · unfold dictDelete dictGenericDelete
          rw [hm]
          simp only [hget0, hcd0, hreh, not_false_eq_true, if_true]
          rfl
        · intro habs
          rw [hm] at habs
          cases habs
    · -- found in table 0
      obtain ⟨X, w, Y, hb, hb', hX⟩ := chainDelete_split hcd0
      have hf0 : d.ht0.table.flatten.find? (fun e => e.1 = k) = some (k, w) := by
        rw [hhome0, hb]
        exact find?_removed hX
      have hm : dictModel d k = some w := by
        rw [dictModel, entries_find?_split, hf0]
        rfl
      have hpermrem : ((k, w) :: (d.ht0.table.set (f k &&& d.ht0.sizemask)
          (X ++ Y)).flatten).Perm d.ht0.table.flatten :=
        flatten_remove_perm _ _ hmask0 X (k, w) Y hb
      have hperme : ((k, w) :: ((d.ht0.table.set (f k &&& d.ht0.sizemask)
          (X ++ Y)).flatten ++ d.ht1.table.flatten)).Perm (dictEntries d) :=
        List.Perm.append_right _ hpermrem
      refine ⟨{ d with ht0 := ⟨d.ht0.addr,
          d.ht0.table.set (f k &&& d.ht0.sizemask) (X ++ Y),
          d.ht0.used - 1⟩ }, ?_, ?_, ?_, rfl, ?_, ?_⟩
      · unfold dictDelete dictGenericDelete
        rw [hm]
        simp only [hget0, hcd0, hb']
        rfl
      · refine ⟨?_, hw.wf1, ?_, ?_, hw.used1, ?_, ?_, ?_, hw.iter⟩
        · refine tableWF_set_of_subset hw.wf0 hmask0 ?_
          intro e he
          rw [hb]
          rcases List.mem_append.1 he with hX' | hY'
          · exact List.mem_append.2 (Or.inl hX')
          · exact List.mem_append.2 (Or.inr (List.mem_cons_of_mem _ hY'))
        · have hnd := (hperme.map Prod.fst).nodup_iff.2 hw.nodup
          rw [List.map_cons] at hnd
          exact (List.nodup_cons.1 hnd).2
        · show d.ht0.used - 1 = (d.ht0.table.set
              (f k &&& d.ht0.sizemask) (X ++ Y)).flatten.length
          rw [hw.used0]
          have := hpermrem.length_eq
          simp only [List.length_cons] at this
          omega
        · intro r' hr'
          obtain ⟨hb0, hb1, hble⟩ := hw.rehash_bounds r' hr'
          refine ⟨?_, hb1, ?_⟩
          · show 0 < (d.ht0.table.set _ _).length
            rw [List.length_set]
            exact hb0
          · show r' ≤ (d.ht0.table.set _ _).length
            rw [List.length_set]
            exact hble
        · intro r' hr' i hi hir
          rw [List.length_set] at hi
          by_cases hij : (f k &&& d.ht0.sizemask) = i
          · exfalso
            subst hij
            have hemp := hw.rehash_drained r' hr' _ hmask0 hir
            rw [hemp] at hb
            cases X <;> cases hb
          · rw [List.getElem_set_ne hij]
            exact hw.rehash_drained r' hr' i hi hir
        · intro hni
          exact hw.idle hni
      · show (d.ht0.table.set _ _).length = d.ht0.table.length
        rw [List.length_set]
      · intro _
        exact ⟨w, hm, hperme⟩
      · intro habs
        rw [hm] at habs
        cases habs

/-! ### From single operations to whole runs -/

/-- Specification-side result of one operation on an abstract map. -/
def specRes (m : Nat → Option Nat) : DOp → DRes
  | .add k _ => .addR (m k).isNone
  | .del k => .delR (m k).isSome
  | .find k => .findR ((m k).map (fun v => (k, v)))

/-- Specification-side crash predicate: this copy of `dictGenericDelete` reads
through the `NULL` bucket array whenever table 0 was never allocated
(`al = false`); no other operation can crash. -/
def specCrash (al : Bool) : DOp → Bool
  | .del _ => !al
  | _ => false

/-- Specification-side evolution of the "table 0 allocated" flag: any add
allocates (the expand check runs before the key search). -/
def specAlloc (al : Bool) : DOp → Bool
  | .add _ _ => true
  | _ => al

theorem model_of_insert_perm {f : Nat → Nat} {d3 d : dict} {k v : Nat}
    (hw3 : dictWF f d3) (hw : dictWF f d) (hm : dictModel d k = none)
    (hp : (dictEntries d3).Perm ((k, v) :: dictEntries d)) :
    dictModel d3 = fun x => if x = k then some v else dictModel d x := by
  funext x
  by_cases hx : x = k
  · subst hx
    rw [if_pos rfl]
    exact (model_some_iff hw3).2 (hp.mem_iff.2 (List.mem_cons_self _ _))
  · rw [if_neg hx]
    rcases hdx : dictModel d x with _ | u
    · rcases h3x : dictModel d3 x with _ | u
      · rfl
      · exfalso
        have := hp.mem_iff.1 ((model_some_iff hw3).1 h3x)
        rcases List.mem_cons.1 this with heq | hmem
        · exact hx (congrArg Prod.fst heq)
        · rw [(model_some_iff hw).2 hmem] at hdx
          cases hdx
    · exact (model_some_iff hw3).2
        (hp.mem_iff.2 (List.mem_cons_of_mem _ ((model_some_iff hw).1 hdx)))

theorem model_of_remove_perm {f : Nat → Nat} {d1 d : dict} {k w : Nat}
    (hw1 : dictWF f d1) (hw : dictWF f d)
    (hp : ((k, w) :: dictEntries d1).Perm (dictEntries d)) :
    dictModel d1 = fun x => if x = k then none else dictModel d x := by
  have hnd : ((k, w) :: dictEntries d1).map Prod.fst |>.Nodup :=
    ((hp.map Prod.fst).nodup_iff).2 hw.nodup
  rw [List.map_cons] at hnd
  have hknot : k ∉ (dictEntries d1).map Prod.fst := (List.nodup_cons.1 hnd).1
  funext x
  by_cases hx : x = k
  · subst hx
    rw [if_pos rfl]
    rcases h1x : dictModel d1 x with _ | u
    · rfl
    · exfalso
      have hmem := (model_some_iff hw1).1 h1x
      exact hknot (List.mem_map.2 ⟨(x, u), hmem, rfl⟩)
  · rw [if_neg hx]
    rcases hdx : dictModel d x with _ | u
    · rcases h1x : dictModel d1 x with _ | u
      · rfl
      · exfalso
        have hmem := (model_some_iff hw1).1 h1x
        have := hp.mem_iff.1 (List.mem_cons_of_mem _ hmem)
        rw [(model_some_iff hw).2 this] at hdx
        cases hdx
    · have hmem := (model_some_iff hw).1 hdx
      have := hp.mem_iff.2 hmem
      rcases List.mem_cons.1 this with heq | hmem1
      · exact absurd (congrArg Prod.fst heq) hx
      · exact (model_some_iff hw1).2 hmem1

/-- One client operation, summarized against the abstract map: it crashes
exactly as `specCrash` predicts, returns `specRes`, updates the map by
`specStep`, and tracks the allocation flag by `specAlloc`. -/
theorem stepOp_spec (f : Nat → Nat) (cr : Bool) (a : Nat) {d : dict}
    (hw : dictWF f d) (o : DOp) :
    (stepOp f cr a d o = none ∧ specCrash (decide (0 < d.ht0.size)) o = true) ∨
    (∃ d1, stepOp f cr a d o = some (d1, specRes (dictModel d) o) ∧
      specCrash (decide (0 < d.ht0.size)) o = false ∧ dictWF f d1 ∧
      dictModel d1 = specStep (dictModel d) o ∧
      decide (0 < d1.ht0.size) = specAlloc (decide (0 < d.ht0.size)) o) := by
  cases o with
  | add k v =>
    obtain ⟨d3, heq, hw3, hs3, hins, hkeep⟩ := dictAdd_spec f cr a hw k v
    right
    refine ⟨d3, ?_, rfl, hw3, ?_, by simp [specAlloc, hs3]⟩
    · rw [stepOp, heq]
      rfl
    · rcases hmk : dictModel d k with _ | w
      · have hmodel := model_of_insert_perm hw3 hw hmk (hins (by rw [hmk]; rfl))
        rw [hmodel]
        show _ = specStep (dictModel d) (DOp.add k v)
        rw [specStep, hmk]
        rfl
      · have hperm := hkeep (by rw [hmk]; rfl)
        rw [model_eq_of_perm hw hw3 hperm]
        show dictModel d = specStep (dictModel d) (DOp.add k v)
        rw [specStep, hmk]
        rfl
  | del k =>
    obtain ⟨hcrash, hok⟩ := dictDelete_spec f hw k
    by_cases hs : 0 < d.ht0.size
    · obtain ⟨d1, heq, hw1, hsize, hridx, hfound, hmissing⟩ := hok hs
      right
      refine ⟨d1, ?_, by simp [specCrash, hs], hw1, ?_, ?_⟩
      · rw [stepOp, heq]
        rfl
      · rcases hmk : dictModel d k with _ | w
        · rw [hmissing (by rw [hmk]; rfl)]
          funext y
          show dictModel d y = if y = k then none else dictModel d y
          by_cases hy : y = k
          · subst hy; rw [if_pos rfl, hmk]
          · rw [if_neg hy]
        · obtain ⟨w', hmw, hperm⟩ := hfound (by rw [hmk]; rfl)
          exact model_of_remove_perm hw1 hw hperm
      · show decide (0 < d1.ht0.size) = decide (0 < d.ht0.size)
        rw [hsize]
    · left
      have hs0 : d.ht0.size = 0 := by omega
      refine ⟨?_, by simp [specCrash, hs0]⟩
      rw [stepOp, hcrash hs0]
      rfl
  | find k =>
    obtain ⟨d1, heq, hw1, hmod, hiff⟩ := dictFind_spec f hw k
    right
    refine ⟨d1, ?_, rfl, hw1, hmod, ?_⟩
    · rw [stepOp, heq]
      rfl
    · show decide (0 < d1.ht0.size) = decide (0 < d.ht0.size)
      simp only [decide_eq_decide]
      exact hiff

theorem dictWF_create (f : Nat → Nat) : dictWF f dictCreate := by
  refine ⟨?_, ?_, ?_, rfl, rfl, ?_, ?_, fun _ => rfl, rfl⟩
  · intro i hi x hx; cases hi
  · intro i hi x hx; cases hi
  · exact List.nodup_nil
  · intro r hr; cases hr
  · intro r hr i hi hir; cases hr

/-- The central bisimulation: a run with interleaved `dictRehash(d,1)` calls
and the rehash-free run of the same client operations produce identical
result lists, crash at the same operation if any, and end in states with the
same key→value map. -/
theorem runItems_bisim (f : Nat → Nat) (cr : Bool) (a : Nat) :
    ∀ (items : List DItem) {d d' : dict}, dictWF f d → dictWF f d' →
    dictModel d = dictModel d' → (0 < d.ht0.size ↔ 0 < d'.ht0.size) →
    (runItems f cr a d items).1
      = (runItems f cr a d' ((itemsOps items).map .op)).1 ∧
    (((runItems f cr a d items).2 = none ∧
      (runItems f cr a d' ((itemsOps items).map .op)).2 = none) ∨
     (∃ e e', (runItems f cr a d items).2 = some e ∧
      (runItems f cr a d' ((itemsOps items).map .op)).2 = some e' ∧
      dictWF f e ∧ dictWF f e' ∧ dictModel e = dictModel e' ∧
      (0 < e.ht0.size ↔ 0 < e'.ht0.size))) := by
  intro items
  induction items with
  | nil =>
    intro d d' hwd hwd' hm hiff
    exact ⟨rfl, Or.inr ⟨d, d', rfl, rfl, hwd, hwd', hm, hiff⟩⟩
  | cons it rest ih =>
    intro d d' hwd hwd' hm hiff
    cases it with
    | reh =>
      obtain ⟨d1, b, hreh, hw1, hperm, hiff1⟩ := dictRehash_one f hwd
      have hm1 : dictModel d1 = dictModel d := model_eq_of_perm hwd hw1 hperm
      have hL : runItems f cr a d (.reh :: rest) = runItems f cr a d1 rest := by
        simp only [runItems, hreh]
      have hOps : itemsOps (.reh :: rest) = itemsOps rest := by
        simp [itemsOps]
      rw [hL, hOps]
      exact ih hw1 hwd' (by rw [hm1, hm]) (hiff1.trans hiff)
    | op o =>
      have hcr : specCrash (decide (0 < d.ht0.size)) o
          = specCrash (decide (0 < d'.ht0.size)) o := by
        have : decide (0 < d.ht0.size) = decide (0 < d'.ht0.size) := by
          simp only [decide_eq_decide]
          exact hiff
        rw [this]
      have hOps : itemsOps (.op o :: rest) = o :: itemsOps rest := by
        simp [itemsOps]
      rw [hOps]
      rcases stepOp_spec f cr a hwd o with ⟨hnoneL, hcrL⟩ |
          ⟨d1, heqL, hcrL, hw1, hm1, hal1⟩
      · -- both runs crash at this operation
        rcases stepOp_spec f cr a hwd' o with ⟨hnoneR, _⟩ |
            ⟨d1', heqR, hcrR, _, _, _⟩
        · constructor
          · show (runItems f cr a d (.op o :: rest)).1
              = (runItems f cr a d' (.op o :: (itemsOps rest).map .op)).1
            simp only [runItems, hnoneL, hnoneR]
          · left
            constructor
            · show (runItems f cr a d (.op o :: rest)).2 = none
              simp only [runItems, hnoneL]
            · show (runItems f cr a d' (.op o :: (itemsOps rest).map .op)).2 = none
              simp only [runItems, hnoneR]
        · rw [hcr, hcrR] at hcrL
          cases hcrL
      · rcases stepOp_spec f cr a hwd' o with ⟨hnoneR, hcrR⟩ |
            ⟨d1', heqR, hcrR, hw1', hm1', hal1'⟩
        · rw [hcr, hcrR] at hcrL
          cases hcrL
        · -- both runs execute the operation with the same result
          have hressame : specRes (dictModel d) o = specRes (dictModel d') o := by
            rw [hm]
          obtain ⟨ihres, ihfin⟩ := ih hw1 hw1'
            (by rw [hm1, hm1', hm]) (by
              have : decide (0 < d1.ht0.size) = decide (0 < d1'.ht0.size) := by
                rw [hal1, hal1']
                congr 1
                simp only [decide_eq_decide]
                exact hiff
              simpa only [decide_eq_decide] using this)
          constructor
          · show (runItems f cr a d (.op o :: rest)).1
              = (runItems f cr a d' (.op o :: (itemsOps rest).map .op)).1
            simp only [runItems, heqL, heqR]
            rw [← hressame]
            show specRes (dictModel d) o :: (runItems f cr a d1 rest).1
              = specRes (dictModel d) o
                :: (runItems f cr a d1' ((itemsOps rest).map .op)).1
            rw [ihres]
          · show ((runItems f cr a d (.op o :: rest)).2 = none ∧ _) ∨ _
            simp only [runItems, heqL, heqR]
            exact ihfin

theorem dictModel_create : dictModel dictCreate = fun _ => none := rfl

/-- Whole-run invariant: a run of client operations that does not crash ends
well-formed, with the abstract map obtained by folding `specStep`. -/
theorem runOps_wf (f : Nat → Nat) (cr : Bool) (a : Nat) :
    ∀ (ops : List DOp) {d : dict}, dictWF f d →
    ∀ {e : dict}, (runOps f cr a d ops).2 = some e →
    dictWF f e ∧ dictModel e = ops.foldl specStep (dictModel d) := by
  intro ops
  induction ops with
  | nil =>
    intro d hw e he
    injection he with he
    subst he
    exact ⟨hw, rfl⟩
  | cons o rest ih =>
    intro d hw e he
    rcases stepOp_spec f cr a hw o with ⟨hnone, _⟩ | ⟨d1, heq, _, hw1, hm1, _⟩
    · rw [runOps] at he
      simp only [List.map_cons, runItems, hnone] at he
      cases he
    · rw [runOps] at he
      simp only [List.map_cons, runItems, heq] at he
      obtain ⟨hwe, hme⟩ := ih hw1 he
      refine ⟨hwe, ?_⟩
      rw [hme, hm1]
      rfl

/-! ### Claims C1, C2, C7 -/

/-- C1 (counterexample to the claim as stated): applying the operation
sequence consisting of the single `dictDelete` of key 0 to a dictionary
fresh from `dictCreate` does not produce a state at all — this copy of
`dictGenericDelete` lacks the `ht[0].size == 0` guard and reads through the
`NULL` bucket array (`none`), so after this prefix `dictFind` cannot return
not-found: the program has crashed. -/
theorem claim_C1_counterexample :
    runOps (fun x => x) true 1 dictCreate [DOp.del 0] = ([], none) := by decide

/-- C1 (amended): for every finite sequence of dictAdd/dictDelete/dictFind
operations applied to a dictionary created by dictCreate *whose execution
completes* (equivalently, in which no dictDelete runs while table 0 is still
unallocated), after any prefix of the sequence dictFind(k) returns the entry
holding the value most recently associated with k by a successful dictAdd,
and NULL if k was most recently deleted or never added.  (`specMap` is
exactly that most-recent-value semantics; quantifying over `ops` covers every
prefix.) -/
theorem claim_C1 (f : Nat → Nat) (cr : Bool) (a : Nat) (ops : List DOp)
    (k : Nat) (e : dict) (hrun : (runOps f cr a dictCreate ops).2 = some e) :
    ∃ e', dictFind f e k = some (e', (specMap ops k).map (fun v => (k, v))) := by
  obtain ⟨hwe, hme⟩ := runOps_wf f cr a ops (dictWF_create f) hrun
  obtain ⟨e', heq, _, _, _⟩ := dictFind_spec f hwe k
  refine ⟨e', ?_⟩
  rw [heq, hme, dictModel_create]
  rfl

theorem claim_C1_witness :
    ∃ e', dictFind (fun x => x)
        ((runOps (fun x => x) true 1 dictCreate [DOp.add 3 7]).2.getD dictCreate) 3
      = some (e', (specMap [DOp.add 3 7] 3).map (fun v => (3, v))) :=
  claim_C1 (fun x => x) true 1 [DOp.add 3 7] 3 _ (by decide)

/-- C2: interleaving any number of `dictRehash(d, 1)` calls at any points of a
sequence of dictAdd/dictFind/dictDelete operations changes neither the result
of any operation (the two runs produce identical result traces, crashing at
the same operation if any) nor the final key-to-value mapping. -/
theorem claim_C2 (f : Nat → Nat) (cr : Bool) (a : Nat) (items : List DItem) :
    (runItems f cr a dictCreate items).1
      = (runOps f cr a dictCreate (itemsOps items)).1 ∧
    Option.map dictModel (runItems f cr a dictCreate items).2
      = Option.map dictModel (runOps f cr a dictCreate (itemsOps items)).2 ∧
    (runItems f cr a dictCreate items).2.isNone
      = (runOps f cr a dictCreate (itemsOps items)).2.isNone := by
  obtain ⟨hres, hfin⟩ := runItems_bisim f cr a items (dictWF_create f)
    (dictWF_create f) rfl Iff.rfl
  refine ⟨hres, ?_, ?_⟩
  · show Option.map dictModel (runItems f cr a dictCreate items).2
      = Option.map dictModel
        (runItems f cr a dictCreate ((itemsOps items).map .op)).2
    rcases hfin with ⟨h1, h2⟩ | ⟨e, e', h1, h2, _, _, hm, _⟩
    · rw [h1, h2]
    · rw [h1, h2]
      show some (dictModel e) = some (dictModel e')
      rw [hm]
  · show (runItems f cr a dictCreate items).2.isNone
      = (runItems f cr a dictCreate ((itemsOps items).map .op)).2.isNone
    rcases hfin with ⟨h1, h2⟩ | ⟨e, e', h1, h2, _, _, _, _⟩
    · rw [h1, h2]
    · rw [h1, h2]
      rfl

/-- C7: the claim says `dictDelete` of an absent key returns `DICT_ERR` even
on a newly created dictionary whose backing arrays were never allocated.
This theorem evaluates the code at that input: on a fresh dictionary the
delete performs the out-of-bounds read `d->ht[0].table[hash & 0]` through the
`NULL` table pointer (result `none`), for every hash function and key —
instead of returning `DICT_ERR`.  (Redis's dictGenericDelete guards this with
`if (d->ht[0].size == 0) return DICT_ERR;`; the guard is missing in this
copy, contradicting the spec's error taxonomy, so the code is at fault.) -/
theorem claim_C7 (f : Nat → Nat) (k : Nat) :
    dictDelete f dictCreate k = none := rfl

/-! ### Claim C9: the auto-expand policy -/

/-- C9 (counterexample to the "in particular" scenario as stated): sixteen
inserts into a table that started with 4 slots, with a hash function that
sends every key to bucket 0.  Rehashing is already complete (the dictionary is
not rehashing), yet `dictSlots` is 16, not the claimed next power of two
`≥ 32`: how far the table has grown by the time the sixteenth insert lands
depends on how the hash distributes the keys, because the `used/size ≥ 1`
trigger is only evaluated while no rehash is in progress. -/
theorem claim_C9_counterexample :
    ((runOps (fun _ => 0) true 1 dictCreate
        ((List.range 16).map (fun k => DOp.add (k + 1) 0))).2).map
      (fun d => (dictSlots d, dictIsRehashing d)) = some (16, false) := by
  decide

/-- C9 (amended): the auto-expand check of `_dictExpandIfNeeded`, run by every
dictAdd before inserting, behaves as claimed: (1) a dictionary whose table 0
is unallocated expands it to the initial size 4; (2) otherwise, outside a
rehash, when used/size has reached 1:1 with resizing enabled, or exceeds the
forced-resize ratio 5 regardless of the flag, it allocates a new table 1 of
`_dictNextPower(2 * used)` slots and starts rehashing; and (3) in the sixteen-
insert scenario with an evenly distributing (identity) hash, once rehashing
completes `dictSlots` is exactly 32, the next power of two ≥ 32.  (With a
skewed hash the scenario's bound fails: see the counterexample.) -/
theorem claim_C9 (f : Nat → Nat) (cr : Bool) (a : Nat) :
    (∀ d, dictWF f d → d.ht0.size = 0 →
      dictExpandIfNeeded cr a d
        = .ok { d with ht0 := ⟨a, List.replicate DICT_HT_INITIAL_SIZE [], 0⟩ }) ∧
    (∀ d, dictWF f d → d.rehashidx = none → 0 < d.ht0.size →
      d.ht0.size ≤ d.ht0.used →
      (cr ∨ dict_force_resize_ratio < d.ht0.used / d.ht0.size) →
      dictExpandIfNeeded cr a d = .ok { d with
        ht1 := ⟨a, List.replicate (dictNextPower (d.ht0.used * 2)) [], 0⟩,
        rehashidx := some 0 }) ∧
    (((runOps (fun x => x) true 1 dictCreate
        ((List.range 16).map (fun k => DOp.add k 0))).2).bind
      (fun d => (dictRehash (fun x => x) d 100).map
        (fun p => (dictSlots p.1, dictIsRehashing p.1)))) = some (32, false) := by
  refine ⟨?_, ?_, by decide⟩
  · intro d hw hs
    obtain ⟨hni, _, _⟩ := model_empty_of_size0 hw hs
    have htab : d.ht0.table = [] := by
      rw [dictht.size] at hs
      exact List.eq_nil_of_length_eq_zero hs
    have hu0 : d.ht0.used = 0 := by
      rw [hw.used0, htab]; rfl
    have hreh : dictIsRehashing d = false := by simp [dictIsRehashing, hni]
    unfold dictExpandIfNeeded
    rw [if_neg (by simp [hreh]), if_pos hs]
    unfold dictExpand
    rw [if_neg (by simp [hreh, hu0, DICT_HT_INITIAL_SIZE]), if_pos htab]
    have h4 : dictNextPower DICT_HT_INITIAL_SIZE = DICT_HT_INITIAL_SIZE := by
      decide
    rw [h4]
  · intro d hw hni hs hratio hflag
    have hreh : dictIsRehashing d = false := by simp [dictIsRehashing, hni]
    have htab : d.ht0.table ≠ [] := by
      intro h
      rw [dictht.size, h] at hs
      cases hs
    unfold dictExpandIfNeeded
    rw [if_neg (by simp [hreh]), if_neg (by omega), if_pos ⟨hratio, hflag⟩]
    unfold dictExpand
    rw [if_neg (by simp [hreh]; omega), if_neg htab]

theorem claim_C9_witness :
    (dictExpandIfNeeded true 7 dictCreate
      = .ok { dictCreate with
          ht0 := ⟨7, List.replicate DICT_HT_INITIAL_SIZE [], 0⟩ }) ∧
    (dictExpandIfNeeded true 9
        ((runOps (fun _ => 0) true 7 dictCreate
          [DOp.add 1 0, DOp.add 2 0, DOp.add 3 0, DOp.add 4 0]).2.getD dictCreate)
      = .ok { (runOps (fun _ => 0) true 7 dictCreate
            [DOp.add 1 0, DOp.add 2 0, DOp.add 3 0, DOp.add 4 0]).2.getD dictCreate
          with
          ht1 := ⟨9, List.replicate (dictNextPower
            (((runOps (fun _ => 0) true 7 dictCreate
              [DOp.add 1 0, DOp.add 2 0, DOp.add 3 0, DOp.add 4 0]).2.getD
                dictCreate).ht0.used * 2)) [], 0⟩,
          rehashidx := some 0 }) := by
  have hwf4 := (runOps_wf (fun _ => 0) true 7
    [DOp.add 1 0, DOp.add 2 0, DOp.add 3 0, DOp.add 4 0] (dictWF_create _)
    (e := (runOps (fun _ => 0) true 7 dictCreate
      [DOp.add 1 0, DOp.add 2 0, DOp.add 3 0, DOp.add 4 0]).2.getD dictCreate)
    (by decide)).1
  exact ⟨(claim_C9 (fun _ => 0) true 7).1 dictCreate (dictWF_create _) rfl,
    (claim_C9 (fun _ => 0) true 9).2.1 _ hwf4 (by decide) (by decide) (by decide)
      (Or.inl rfl)⟩

/-! ### Claim C10: dictGetRandomKey bucket indexing -/

/-- Outcome of `dictGetRandomKey` in the embedding. -/
inductive RandResult where
  | crash
  | exhausted
  | nullEmpty
  | found (e : Nat × Nat)
deriving DecidableEq, Repr

/-- The bucket-probing `do ... while (he == NULL)` loops of `dictGetRandomKey`,
driven by the successive values `rs` of `random()`.  While rehashing the
bucket is chosen by `h = random() % (size0 + size1)` and — faithfully to this
copy — the code reads `ht[1].table[h - size0]` only when `h > size0` (the
original tests `h >= size0`), and `ht[0].table[h]` otherwise, so `h = size0`
reads one past the end of table 0 (`crash`). `rc` drives the final
`random() % listlen` chain selection. -/
def dictGetRandomKeyLoop (d : dict) (rc : Nat) : List Nat → RandResult
  | [] => .exhausted
  | r :: rs =>
    let he? :=
      if dictIsRehashing d then
        let h := r % (d.ht0.size + d.ht1.size)
        if h > d.ht0.size then d.ht1.table[h - d.ht0.size]?
        else d.ht0.table[h]?
      else
        d.ht0.table[r &&& d.ht0.sizemask]?
    match he? with
    | none => .crash
    | some [] => dictGetRandomKeyLoop d rc rs
    | some chain =>
      match chain[rc % chain.length]? with
      | none => .crash
      | some e => .found e

/-- `dictGetRandomKey`: empty dictionary yields NULL; otherwise one
opportunistic rehash step, then random bucket probing until a non-empty
chain is hit, then a random entry of that chain. -/
def dictGetRandomKey (f : Nat → Nat) (d0 : dict) (rs : List Nat)
    (rc : Nat) : RandResult :=
  if dictSize d0 = 0 then .nullEmpty
  else
    match (if dictIsRehashing d0 then dictRehashStep f d0 else some d0) with
    | none => .crash
    | some d => dictGetRandomKeyLoop d rc rs

/-- C10: the claim says every bucket access of `dictGetRandomKey` stays inside
its table and the out-of-bounds branch is unreachable.  This theorem reaches
it: after ten identity-hashed inserts the dictionary is mid-rehash with
table 0 of size 8 and table 1 of size 32; the random value 8 gives
`h = 8 % 40 = 8`, the copy's test `h > size0` (instead of the original's
`h >= size0`) sends it to `ht[0].table[8]`, one past the end of table 0 —
an out-of-bounds read (`crash`), not a returned entry. -/
theorem claim_C10 :
    ((runOps (fun x => x) true 1 dictCreate
        ((List.range 10).map (fun k => DOp.add k 0))).2).map
      (fun d => dictGetRandomKey (fun x => x) d [8] 0)
      = some .crash := by decide

/-! ### Claim C8: the unsafe-iterator fingerprint -/

/-- Arithmetic (sign-extending) right shift of a 64-bit two's-complement
value held in a `Nat` (`hash >> s` on the `long long` hash). -/
def asr64 (h s : Nat) : Nat :=
  if h < 2 ^ 63 then h >>> s else (h >>> s) + (2 ^ 64 - 2 ^ (64 - s))

/-- One round of the Tomas Wang 64-bit integer mix used by
`dictFingerprint`, on 64-bit two's-complement values (all additions and
shifts wrap modulo `2^64`; `~hash` is `2^64 - 1 - hash`; `>>` is the
arithmetic shift of the signed `long long`). -/
def fpMix (h0 : Nat) : Nat :=
  let h1 := ((2 ^ 64 - 1 - h0) + ((h0 <<< 21) % 2 ^ 64)) % 2 ^ 64
  let h2 := h1 ^^^ asr64 h1 24
  let h3 := ((h2 + ((h2 <<< 3) % 2 ^ 64)) + ((h2 <<< 8) % 2 ^ 64)) % 2 ^ 64
  let h4 := h3 ^^^ asr64 h3 14
  let h5 := ((h4 + ((h4 <<< 2) % 2 ^ 64)) + ((h4 <<< 4) % 2 ^ 64)) % 2 ^ 64
  let h6 := h5 ^^^ asr64 h5 28
  (h6 + ((h6 <<< 31) % 2 ^ 64)) % 2 ^ 64

/-- The six structural integers hashed by `dictFingerprint`: both tables'
array pointers, sizes and used counts, in that order. -/
def dictHdr (d : dict) : List Nat :=
  [d.ht0.addr, d.ht0.size, d.ht0.used, d.ht1.addr, d.ht1.size, d.ht1.used]

/-- `dictFingerprint`: `Result = mix(mix(mix(int1)+int2)+int3) ...` starting
from 0, every addition wrapping modulo `2^64`. -/
def dictFingerprint (d : dict) : Nat :=
  (dictHdr d).foldl (fun hash i => fpMix ((hash + i) % 2 ^ 64)) 0

/-- The release-time check of `dictReleaseIterator` for an unsafe iterator
that has advanced at least once:
`assert(iter->fingerprint == dictFingerprint(iter->d))`. -/
def releaseAssertOk (captured : Nat) (d : dict) : Bool :=
  captured == dictFingerprint d

/-- Under the well-formedness invariant `dictSize` counts the stored entries. -/
theorem dictSize_eq_entries (f : Nat → Nat) {d : dict} (hw : dictWF f d) :
    dictSize d = (dictEntries d).length := by
  rw [dictSize, hw.used0, hw.used1, dictEntries, List.length_append]

/-- Claim C8, counterexample to "the assertion always fails if the dictionary
was modified": starting from the table allocated at address 65552 holding the
four constant-hashed keys 1..4, a successful `dictAdd` of key 5 (whose table
allocation lands at address 13198274938636512017) changes the six structural
integers, yet the fingerprint captured before the add collides with the one
computed after it, so the release-time assertion passes. -/
theorem claim_C8_counterexample :
    ((runOps (fun x => 0) true 65552 dictCreate
        [DOp.add 1 0, DOp.add 2 0, DOp.add 3 0, DOp.add 4 0]).2.bind
      (fun pre => (dictAdd (fun x => 0) true 13198274938636512017 pre 5 0).map
        (fun p => (p.2, decide (dictHdr p.1 ≠ dictHdr pre),
          releaseAssertOk (dictFingerprint pre) p.1))))
    = some (true, true, true) := by decide

/-- Claim C8 (amended): the fingerprint mechanism is sound in the absence of
mutation — releasing an unmodified dictionary always passes the assertion —
and every successful `dictAdd` or `dictDelete` on a well-formed dictionary
changes the six structural integers fed to `dictFingerprint` (the used counts
move), though distinct integer tuples may still collide on the 64-bit hash. -/
theorem claim_C8 (f : Nat → Nat) (cr : Bool) (a : Nat) {d : dict}
    (hw : dictWF f d) (k v : Nat) :
    releaseAssertOk (dictFingerprint d) d = true ∧
    (∀ d', dictAdd f cr a d k v = some (d', true) → dictHdr d' ≠ dictHdr d) ∧
    (∀ d', dictDelete f d k = some (d', true) → dictHdr d' ≠ dictHdr d) := by
  refine ⟨by simp [releaseAssertOk], ?_, ?_⟩
  · intro d' hadd heq
    obtain ⟨d3, heq3, hw3, _, hins, _⟩ := dictAdd_spec f cr a hw k v
    rw [hadd] at heq3
    injection heq3 with heq3
    injection heq3 with hd3 hflag
    subst hd3
    have hperm := hins hflag.symm
    have hlen : (dictEntries d').length = (dictEntries d).length + 1 := by
      rw [hperm.length_eq, List.length_cons]
    have hs' := dictSize_eq_entries f hw3
    have hs := dictSize_eq_entries f hw
    have hu : dictSize d' = dictSize d := by
      rw [dictHdr] at heq
      simp only [dictHdr, List.cons.injEq] at heq
      rw [dictSize, dictSize, heq.2.2.1, heq.2.2.2.2.2.1]
    omega
  · intro d' hdel heq
    rcases Nat.eq_zero_or_pos d.ht0.size with hz | hpos
    · rw [(dictDelete_spec f hw k).1 hz] at hdel
      cases hdel
    · obtain ⟨d1, heq1, hw1, _, _, hfound, _⟩ := (dictDelete_spec f hw k).2 hpos
      rw [hdel] at heq1
      injection heq1 with heq1
      injection heq1 with hd1 hflag
      subst hd1
      obtain ⟨w, _, hperm⟩ := hfound hflag.symm
      have hlen : (dictEntries d).length = (dictEntries d').length + 1 := by
        rw [← hperm.length_eq, List.length_cons]
      have hs' := dictSize_eq_entries f hw1
      have hs := dictSize_eq_entries f hw
      have hu : dictSize d' = dictSize d := by
        rw [dictHdr] at heq
        simp only [dictHdr, List.cons.injEq] at heq
        rw [dictSize, dictSize, heq.2.2.1, heq.2.2.2.2.2.1]
      omega

/-- Claim C8 witness: the amended statement instantiated on a fresh
dictionary with the identity hash. -/
theorem claim_C8_witness :
    releaseAssertOk (dictFingerprint dictCreate) dictCreate = true ∧
    (∀ d', dictAdd (fun x => x) true 1 dictCreate 3 7 = some (d', true) →
      dictHdr d' ≠ dictHdr dictCreate) ∧
    (∀ d', dictDelete (fun x => x) dictCreate 3 = some (d', true) →
      dictHdr d' ≠ dictHdr dictCreate) :=
  claim_C8 (fun x => x) true 1 (dictWF_create (fun x => x)) 3 7

/-! ### Ziplist: byte-level embedding of src/src/ziplist.c

The blob is a `List Nat` of bytes; entry positions are byte offsets
(`ZIPLIST_ENTRY_HEAD = 10`).  The machine is little-endian, so the
`intrev*ifbe` conversions of the source are identities.  Out-of-bounds
reads yield 0 (the source's undefined behaviour on corrupted blobs);
`size_t` subtractions are truncated at 0. -/

def ZIP_END : Nat := 255
def ZIP_BIGLEN : Nat := 254
def ZIP_STR_MASK : Nat := 0xc0
def ZIP_STR_06B : Nat := 0
def ZIP_STR_14B : Nat := 0x40
def ZIP_STR_32B : Nat := 0x80
def ZIP_INT_16B : Nat := 0xc0
def ZIP_INT_32B : Nat := 0xd0
def ZIP_INT_64B : Nat := 0xe0
def ZIP_INT_24B : Nat := 0xf0
def ZIP_INT_8B : Nat := 0xfe
def ZIP_INT_IMM_MASK : Nat := 0x0f
def ZIP_INT_IMM_MIN : Nat := 0xf1
def ZIP_INT_IMM_MAX : Nat := 0xfd
def INT24_MAX : Int := 0x7fffff
def INT24_MIN : Int := -INT24_MAX - 1
def ZIPLIST_HEADER_SIZE : Nat := 10

def ZIP_IS_STR (enc : Nat) : Bool := enc &&& ZIP_STR_MASK < ZIP_STR_MASK

def byteAt (zl : List Nat) (i : Nat) : Nat := zl.getD i 0

def writeBytes : List Nat → Nat → List Nat → List Nat
  | zl, _, [] => zl
  | zl, off, b :: bs => writeBytes (zl.set off b) (off + 1) bs

def leRead (zl : List Nat) (off n : Nat) : Nat :=
  (List.range n).foldl (fun a i => a + byteAt zl (off + i) * 256 ^ i) 0

def le16read (zl : List Nat) (off : Nat) : Nat := leRead zl off 2
def le32read (zl : List Nat) (off : Nat) : Nat := leRead zl off 4

def le16write (zl : List Nat) (off v : Nat) : List Nat :=
  writeBytes zl off [v % 256, v / 256 % 256]
def le32write (zl : List Nat) (off v : Nat) : List Nat :=
  writeBytes zl off [v % 256, v / 256 % 256, v / 65536 % 256, v / 16777216 % 256]

def ziplistBytes (zl : List Nat) : Nat := le32read zl 0
def ziplistTailOffset (zl : List Nat) : Nat := le32read zl 4
def ziplistLength (zl : List Nat) : Nat := le16read zl 8
def setZiplistBytes (zl : List Nat) (v : Nat) : List Nat := le32write zl 0 v
def setZiplistTailOffset (zl : List Nat) (v : Nat) : List Nat := le32write zl 4 v
def setZiplistLength (zl : List Nat) (v : Nat) : List Nat := le16write zl 8 v

-- ZIPLIST_INCR_LENGTH(zl, incr): saturating at UINT16_MAX
def ziplistIncrLength (zl : List Nat) (incr : Nat) : List Nat :=
  if ziplistLength zl < 65535 then
    setZiplistLength zl ((ziplistLength zl + incr) % 65536)
  else zl

def zipIntSize (encoding : Nat) : Nat :=
  if encoding = ZIP_INT_8B then 1
  else if encoding = ZIP_INT_16B then 2
  else if encoding = ZIP_INT_24B then 3
  else if encoding = ZIP_INT_32B then 4
  else if encoding = ZIP_INT_64B then 8
  else 0

-- zipEncodeLength with p = NULL: size only
def zipEncodeLengthSize (encoding rawlen : Nat) : Nat :=
  if ZIP_IS_STR encoding then
    if rawlen ≤ 0x3f then 1 else if rawlen ≤ 0x3fff then 2 else 5
  else 1

-- zipEncodeLength with p non-NULL: the buf bytes written
def zipEncodeLengthBytes (encoding rawlen : Nat) : List Nat :=
  if ZIP_IS_STR encoding then
    if rawlen ≤ 0x3f then [ZIP_STR_06B ||| rawlen]
    else if rawlen ≤ 0x3fff then
      [ZIP_STR_14B ||| ((rawlen >>> 8) &&& 0x3f), rawlen &&& 0xff]
    else
      [ZIP_STR_32B, (rawlen >>> 24) &&& 0xff, (rawlen >>> 16) &&& 0xff,
       (rawlen >>> 8) &&& 0xff, rawlen &&& 0xff]
  else [encoding]

def zipPrevEncodeLengthSize (len : Nat) : Nat := if len < ZIP_BIGLEN then 1 else 5

def zipPrevEncodeLengthBytes (len : Nat) : List Nat :=
  if len < ZIP_BIGLEN then [len]
  else [ZIP_BIGLEN, len % 256, len / 256 % 256, len / 65536 % 256, len / 16777216 % 256]

def zipPrevEncodeLengthForceLargeBytes (len : Nat) : List Nat :=
  [ZIP_BIGLEN, len % 256, len / 256 % 256, len / 65536 % 256, len / 16777216 % 256]

def zipDecodePrevlensize (zl : List Nat) (off : Nat) : Nat :=
  if byteAt zl off < ZIP_BIGLEN then 1 else 5

def zipDecodePrevlen (zl : List Nat) (off : Nat) : Nat :=
  if byteAt zl off < ZIP_BIGLEN then byteAt zl off else le32read zl (off + 1)

def zipEntryEncoding (zl : List Nat) (off : Nat) : Nat :=
  let e := byteAt zl off
  if e < ZIP_STR_MASK then e &&& ZIP_STR_MASK else e

-- ZIP_DECODE_LENGTH: (encoding, lensize, len)
def zipDecodeLength (zl : List Nat) (off : Nat) : Nat × Nat × Nat :=
  let encoding := zipEntryEncoding zl off
  if encoding < ZIP_STR_MASK then
    if encoding = ZIP_STR_06B then (encoding, 1, byteAt zl off &&& 0x3f)
    else if encoding = ZIP_STR_14B then
      (encoding, 2, ((byteAt zl off &&& 0x3f) <<< 8) ||| byteAt zl (off + 1))
    else if encoding = ZIP_STR_32B then
      (encoding, 5, (byteAt zl (off + 1) <<< 24) ||| (byteAt zl (off + 2) <<< 16) |||
        (byteAt zl (off + 3) <<< 8) ||| byteAt zl (off + 4))
    else (encoding, 0, 0)  -- the source's unreachable assert(NULL)
  else (encoding, 1, zipIntSize encoding)

def zipPrevLenByteDiff (zl : List Nat) (off len : Nat) : Int :=
  (zipPrevEncodeLengthSize len : Int) - (zipDecodePrevlensize zl off : Int)

def zipRawEntryLength (zl : List Nat) (off : Nat) : Nat :=
  let prevlensize := zipDecodePrevlensize zl off
  let (_, lensize, len) := zipDecodeLength zl (off + prevlensize)
  prevlensize + lensize + len

structure zlentry where
  prevrawlensize : Nat
  prevrawlen : Nat
  lensize : Nat
  len : Nat
  headersize : Nat
  encoding : Nat
  p : Nat
deriving DecidableEq

def zipEntry (zl : List Nat) (off : Nat) : zlentry :=
  let prevrawlensize := zipDecodePrevlensize zl off
  let prevrawlen := zipDecodePrevlen zl off
  let (encoding, lensize, len) := zipDecodeLength zl (off + prevrawlensize)
  ⟨prevrawlensize, prevrawlen, lensize, len, prevrawlensize + lensize, encoding, off⟩

def isDigitByte (c : Nat) : Bool := 48 ≤ c && c ≤ 57

def digitsVal (s : List Nat) : Nat := s.foldl (fun a c => a * 10 + (c - 48)) 0

/-- Modelled from the spec: `string2ll` lives in util.c, which is not part of
this repository's sources.  Per the spec, a payload qualifies when it "parses
fully as a base-10 (optionally signed) integer" into a signed 64-bit value. -/
def string2ll (s : List Nat) : Option Int :=
  match s with
  | [] => none
  | 45 :: rest =>
    if rest ≠ [] ∧ rest.all (fun c => isDigitByte c) then
      if (digitsVal rest : Int) ≤ 2 ^ 63 then some (-(digitsVal rest : Int)) else none
    else none
  | _ =>
    if s.all (fun c => isDigitByte c) then
      if (digitsVal s : Int) ≤ 2 ^ 63 - 1 then some (digitsVal s : Int) else none
    else none

-- zipTryEncoding: some (value, encoding) on success, none on failure
def zipTryEncoding (s : List Nat) : Option (Int × Nat) :=
  if 32 ≤ s.length ∨ s.length = 0 then none
  else
    match string2ll s with
    | none => none
    | some value =>
      let encoding :=
        if 0 ≤ value ∧ value ≤ 12 then ZIP_INT_IMM_MIN + value.toNat
        else if -128 ≤ value ∧ value ≤ 127 then ZIP_INT_8B
        else if -32768 ≤ value ∧ value ≤ 32767 then ZIP_INT_16B
        else if INT24_MIN ≤ value ∧ value ≤ INT24_MAX then ZIP_INT_24B
        else if -2147483648 ≤ value ∧ value ≤ 2147483647 then ZIP_INT_32B
        else ZIP_INT_64B
      some (value, encoding)

def toSigned (w u : Nat) : Int :=
  if u < 2 ^ (w - 1) then (u : Int) else (u : Int) - 2 ^ w

def intLeBytes (v : Int) (w : Nat) : List Nat :=
  let u := (v % (2 ^ (8 * w) : Int)).toNat
  (List.range w).map (fun i => u / 2 ^ (8 * i) % 256)

-- zipSaveInteger: the bytes written at p (empty for 4-bit immediates)
def zipSaveInteger (value : Int) (encoding : Nat) : List Nat :=
  if encoding = ZIP_INT_8B then intLeBytes value 1
  else if encoding = ZIP_INT_16B then intLeBytes value 2
  else if encoding = ZIP_INT_24B then intLeBytes value 3
  else if encoding = ZIP_INT_32B then intLeBytes value 4
  else if encoding = ZIP_INT_64B then intLeBytes value 8
  else []

def zipLoadInteger (zl : List Nat) (off encoding : Nat) : Int :=
  if encoding = ZIP_INT_8B then toSigned 8 (byteAt zl off)
  else if encoding = ZIP_INT_16B then toSigned 16 (le16read zl off)
  else if encoding = ZIP_INT_32B then toSigned 32 (le32read zl off)
  else if encoding = ZIP_INT_24B then
    -- the 3 bytes are placed in the top of an int32 and shifted back down
    toSigned 32 ((byteAt zl off + 256 * byteAt zl (off + 1) +
      65536 * byteAt zl (off + 2)) <<< 8) / 256
  else if encoding = ZIP_INT_64B then toSigned 64 (leRead zl off 8)
  else if ZIP_INT_IMM_MIN ≤ encoding ∧ encoding ≤ ZIP_INT_IMM_MAX then
    ((encoding &&& ZIP_INT_IMM_MASK : Nat) : Int) - 1
  else 0  -- the source's unreachable assert(NULL)

def ziplistNew : List Nat := [11, 0, 0, 0, 10, 0, 0, 0, 0, 0, 255]

def ziplistResize (zl : List Nat) (len : Nat) : List Nat :=
  let grown := if len ≤ zl.length then zl.take len else zl ++ List.replicate (len - zl.length) 0
  (setZiplistBytes grown len).set (len - 1) ZIP_END

def memmoveBytes (zl : List Nat) (dst src n : Nat) : List Nat :=
  writeBytes zl dst ((zl.drop src).take n)

inductive ZlVal where
  | str (s : List Nat)
  | int (v : Int)
deriving DecidableEq

/- __ziplistCascadeUpdate.  The fuel bounds the loop iterations (each
iteration advances p by at least 2 bytes).  The test
`next.prevrawlen < rawlensize` is the source's line 599 as written; the
original Redis code tests `next.prevrawlensize < rawlensize`. -/
def ziplistCascadeUpdateLoop (zl : List Nat) (p curlen : Nat) : Nat → List Nat
  | 0 => zl
  | fuel + 1 =>
    if byteAt zl p = ZIP_END then zl
    else
      let cur := zipEntry zl p
      let rawlen := cur.headersize + cur.len
      let rawlensize := zipPrevEncodeLengthSize rawlen
      if byteAt zl (p + rawlen) = ZIP_END then zl
      else
        let next := zipEntry zl (p + rawlen)
        if next.prevrawlen = rawlen then zl
        else if next.prevrawlen < rawlensize then
          let extra := rawlensize - next.prevrawlensize
          let zl1 := ziplistResize zl (curlen + extra)
          let np := p + rawlen
          let zl2 :=
            if ziplistTailOffset zl1 ≠ np then
              setZiplistTailOffset zl1 (ziplistTailOffset zl1 + extra)
            else zl1
          let zl3 := memmoveBytes zl2 (np + rawlensize) (np + next.prevrawlensize)
            (curlen - np - next.prevrawlensize - 1)
          let zl4 := writeBytes zl3 np (zipPrevEncodeLengthBytes rawlen)
          ziplistCascadeUpdateLoop zl4 (p + rawlen) (curlen + extra) fuel
        else
          if rawlensize < next.prevrawlensize then
            writeBytes zl (p + rawlen) (zipPrevEncodeLengthForceLargeBytes rawlen)
          else
            writeBytes zl (p + rawlen) (zipPrevEncodeLengthBytes rawlen)

def ziplistCascadeUpdate (zl : List Nat) (p : Nat) : List Nat :=
  ziplistCascadeUpdateLoop zl p (ziplistBytes zl) (zl.length + 1)

-- __ziplistInsert
def ziplistInsertAt (zl : List Nat) (p : Nat) (s : List Nat) : List Nat :=
  let curlen := ziplistBytes zl
  let prevlen :=
    if byteAt zl p ≠ ZIP_END then (zipEntry zl p).prevrawlen
    else
      let ptail := ziplistTailOffset zl
      if byteAt zl ptail ≠ ZIP_END then zipRawEntryLength zl ptail else 0
  let enc? := zipTryEncoding s
  let encoding := match enc? with | some (_, e) => e | none => 0
  let value := match enc? with | some (v, _) => v | none => 123456789
  let reqlen0 := match enc? with | some (_, e) => zipIntSize e | none => s.length
  let reqlen := reqlen0 + zipPrevEncodeLengthSize prevlen + zipEncodeLengthSize encoding s.length
  let nextdiff : Int := if byteAt zl p ≠ ZIP_END then zipPrevLenByteDiff zl p reqlen else 0
  let zl1 := ziplistResize zl (((curlen + reqlen : Nat) : Int) + nextdiff).toNat
  let zl2 :=
    if byteAt zl1 p ≠ ZIP_END then
      let z := memmoveBytes zl1 (p + reqlen) ((p : Int) - nextdiff).toNat
        (((curlen : Int) - p - 1) + nextdiff).toNat
      let z := writeBytes z (p + reqlen) (zipPrevEncodeLengthBytes reqlen)
      let z := setZiplistTailOffset z (ziplistTailOffset z + reqlen)
      let tail := zipEntry z (p + reqlen)
      if byteAt z (p + reqlen + tail.headersize + tail.len) ≠ ZIP_END then
        setZiplistTailOffset z ((ziplistTailOffset z : Int) + nextdiff).toNat
      else z
    else
      setZiplistTailOffset zl1 p
  let zl3 := if nextdiff ≠ 0 then ziplistCascadeUpdate zl2 (p + reqlen) else zl2
  let zl4 := writeBytes zl3 p (zipPrevEncodeLengthBytes prevlen)
  let q := p + zipPrevEncodeLengthSize prevlen
  let zl5 := writeBytes zl4 q (zipEncodeLengthBytes encoding s.length)
  let q := q + zipEncodeLengthSize encoding s.length
  let zl6 :=
    if ZIP_IS_STR encoding then writeBytes zl5 q s
    else writeBytes zl5 q (zipSaveInteger value encoding)
  ziplistIncrLength zl6 1

/- ziplistPush; `atHead = true` plays the role of where == ZIPLIST_HEAD
(the constant lives in the absent ziplist.h header). -/
def ziplistPush (zl s : List Nat) (atHead : Bool) : List Nat :=
  let p := if atHead then ZIPLIST_HEADER_SIZE else ziplistBytes zl - 1
  ziplistInsertAt zl p s

def ziplistIndexFwdLoop (zl : List Nat) : Nat → Nat → Option Nat
  | p, 0 => if byteAt zl p = ZIP_END then none else some p
  | p, i + 1 =>
    if byteAt zl p = ZIP_END then none
    else ziplistIndexFwdLoop zl (p + zipRawEntryLength zl p) i

def ziplistIndexBackLoop (zl : List Nat) : Nat → Nat → Option Nat
  | p, 0 => some p
  | p, i + 1 =>
    if 0 < (zipEntry zl p).prevrawlen then
      ziplistIndexBackLoop zl (p - (zipEntry zl p).prevrawlen) i
    else none

def ziplistIndex (zl : List Nat) (index : Int) : Option Nat :=
  if index < 0 then
    let p := ziplistTailOffset zl
    if byteAt zl p ≠ ZIP_END then
      match ziplistIndexBackLoop zl p ((-index) - 1).toNat with
      | none => none
      | some q => if byteAt zl q = ZIP_END then none else some q
    else none
  else ziplistIndexFwdLoop zl ZIPLIST_HEADER_SIZE index.toNat

def ziplistGet (zl : List Nat) (p : Nat) : Option ZlVal :=
  if byteAt zl p = ZIP_END then none
  else
    let e := zipEntry zl p
    if ZIP_IS_STR e.encoding then some (.str ((zl.drop (p + e.headersize)).take e.len))
    else some (.int (zipLoadInteger zl (p + e.headersize) e.encoding))

/- ziplistFind, fueled; `none` = fuel exhausted, `some none` = NULL,
`some (some p)` = found at offset p.  The statement `skip = skip;` after a
failed comparison is the source's line 998 as written (the original Redis
code reloads `skipcnt = skip;` there), so `skipcnt` never becomes positive
again once it reaches 0. -/
def ziplistFindLoop (zl vstr : List Nat) (skip : Nat) :
    Nat → Nat → Nat → Int → Nat → Option (Option Nat)
  | _, _, _, _, 0 => none
  | p, skipcnt, vencoding, vll, fuel + 1 =>
    if byteAt zl p = ZIP_END then some none
    else
      let prevlensize := zipDecodePrevlensize zl p
      let (encoding, lensize, len) := zipDecodeLength zl (p + prevlensize)
      let q := p + prevlensize + lensize
      if skipcnt = 0 then
        if ZIP_IS_STR encoding then
          if len = vstr.length ∧ (zl.drop q).take len = vstr then some (some p)
          else ziplistFindLoop zl vstr skip (q + len) skipcnt vencoding vll fuel
        else
          let ev :=
            if vencoding = 0 then
              match zipTryEncoding vstr with
              | some (v, e) => (e, v)
              | none => (255, vll)
            else (vencoding, vll)
          if ev.1 ≠ 255 ∧ zipLoadInteger zl q encoding = ev.2 then some (some p)
          else ziplistFindLoop zl vstr skip (q + len) skipcnt ev.1 ev.2 fuel
      else
        ziplistFindLoop zl vstr skip (q + len) (skipcnt - 1) vencoding vll fuel

def ziplistFind (zl : List Nat) (p : Nat) (vstr : List Nat) (skip : Nat) :
    Option (Option Nat) :=
  ziplistFindLoop zl vstr skip p 0 0 0 (zl.length + 1)

-- reading the whole list back through ziplistIndex/ziplistGet
def ziplistToList (zl : List Nat) (n : Nat) : List (Option ZlVal) :=
  (List.range n).map (fun i =>
    match ziplistIndex zl (i : Int) with
    | none => none
    | some p => ziplistGet zl p)

def strA : List Nat := List.replicate 247 97
def strN : List Nat := List.replicate 252 98
def strHello : List Nat := [104, 101, 108, 108, 111]

-- push a 247-byte string, then "hello", then a 252-byte string at the head
def zlC3 : List Nat :=
  ziplistPush (ziplistPush (ziplistPush ziplistNew strA false) strHello false) strN true

set_option maxRecDepth 40000

/-- Claim C3: refuted on the three-push sequence above.  The head insertion
grows the 247-byte entry's previous-length header from 1 to 5 bytes, so its
raw length becomes 254 and the following "hello" entry's 1-byte
previous-length field (holding 250) must grow to 5 bytes.  Because line 599
of ziplist.c tests `next.prevrawlen < rawlensize` instead of the original
`next.prevrawlensize < rawlensize`, the cascade skips the growth and
`zipPrevEncodeLength` writes 5 bytes over the 1-byte slot, destroying the
"hello" entry's header and content: reading the list back through
ziplistIndex/ziplistGet no longer yields the stored values. -/
theorem claim_C3 :
    ziplistLength zlC3 = 3 ∧
    ziplistToList zlC3 3 = [some (.str strN), some (.str strA), some (.str [255])] ∧
    ziplistToList zlC3 3 ≠ [some (.str strN), some (.str strA), some (.str strHello)] := by
  refine ⟨by decide, by decide, ?_⟩
  decide

def c5cases : List (List Nat × Int × Nat) := [
  ([48], 0, 0xf1),
  ([49, 50], 12, 0xfd),
  ([49, 51], 13, 0xfe),
  ([45, 49], -1, 0xfe),
  ([49, 50, 55], 127, 0xfe),
  ([49, 50, 56], 128, 0xc0),
  ([45, 49, 50, 56], -128, 0xfe),
  ([51, 50, 55, 54, 55], 32767, 0xc0),
  ([51, 50, 55, 54, 56], 32768, 0xf0),
  ([56, 51, 56, 56, 54, 48, 55], 8388607, 0xf0),
  ([56, 51, 56, 56, 54, 48, 56], 8388608, 0xd0),
  ([50, 49, 52, 55, 52, 56, 51, 54, 52, 55], 2147483647, 0xd0),
  ([50, 49, 52, 55, 52, 56, 51, 54, 52, 56], 2147483648, 0xe0),
  ([45, 57, 50, 50, 51, 51, 55, 50, 48, 51, 54, 56, 53, 52, 55, 55, 53, 56, 48, 56],
    -9223372036854775808, 0xe0)]

/-- Claim C5: for each boundary value, pushing its decimal ASCII string onto a
fresh ziplist stores it under the claimed smallest integer encoding (4-bit
immediate 0xf1..0xfd, then 8/16/24/32/64-bit), and ziplistGet returns the
value itself as a signed 64-bit integer. -/
theorem claim_C5 :
    c5cases.all (fun c =>
      let zl := ziplistPush ziplistNew c.1 false
      ((zipEntry zl ZIPLIST_HEADER_SIZE).encoding = c.2.2 : Bool) &&
      !ZIP_IS_STR c.2.2 &&
      (ziplistGet zl ZIPLIST_HEADER_SIZE = some (ZlVal.int c.2.1) : Bool)) = true := by
  decide

-- a ziplist holding the string "x" at position 0 and the integer 5 at position 1
def zlC6 : List Nat := ziplistPush (ziplistPush ziplistNew [120] false) [53] false

/-- Claim C6: refuted.  Scanning from the head entry (offset 10) for "5" with
skip = 1 should compare only positions 0, 2, 4, ... and hence return NULL,
since the only match sits at position 1; because line 998 of ziplist.c reads
`skip = skip;` instead of the original `skipcnt = skip;`, no entry is ever
skipped and the scan returns the entry at position 1 (offset 13). -/
theorem claim_C6 :
    ziplistIndex zlC6 1 = some 13 ∧
    ziplistGet zlC6 13 = some (ZlVal.int 5) ∧
    ziplistFind zlC6 ZIPLIST_HEADER_SIZE [53] 1 = some (some 13) := by decide
set_option maxHeartbeats 1000000

/-! Bit-reversal theory for the dictScan cursor. -/

-- width-w bit reversal of the low w bits of x
def bitRev : Nat → Nat → Nat
  | 0, _ => 0
  | w + 1, x => 2 ^ w * (x % 2) + bitRev w (x / 2)

theorem bitRev_lt (w x : Nat) : bitRev w x < 2 ^ w := by
  induction w generalizing x with
  | zero => simp [bitRev]
  | succ w ih =>
    have h2 : x % 2 ≤ 1 := Nat.le_of_lt_succ (Nat.mod_lt _ (by norm_num))
    have hle : 2 ^ w * (x % 2) ≤ 2 ^ w := by
      have := Nat.mul_le_mul_left (2 ^ w) h2
      simpa using this
    have hb := ih (x / 2)
    have hp : 2 ^ (w + 1) = 2 ^ w + 2 ^ w := by rw [pow_succ]; omega
    have : 2 ^ w * (x % 2) + bitRev w (x / 2) < 2 ^ (w + 1) := by omega
    simpa [bitRev] using this

theorem bitRev_zero (w : Nat) : bitRev w 0 = 0 := by
  induction w with
  | zero => rfl
  | succ w ih => simp [bitRev, ih]

theorem testBit_div_two' (x i : Nat) : (x / 2).testBit i = x.testBit (i + 1) := by
  simp [Nat.testBit_to_div_mod, Nat.div_div_eq_div_mul, pow_succ]
  ring_nf

theorem testBit_bitRev (w : Nat) : ∀ (x i : Nat),
    (bitRev w x).testBit i = (decide (i < w) && x.testBit (w - 1 - i)) := by
  induction w with
  | zero => intro x i; simp [bitRev]
  | succ w ih =>
    intro x i
    have hlt : bitRev w (x / 2) < 2 ^ w := bitRev_lt w (x / 2)
    rw [show bitRev (w + 1) x = 2 ^ w * (x % 2) + bitRev w (x / 2) from rfl]
    rw [Nat.testBit_mul_pow_two_add _ hlt]
    by_cases hi : i < w
    · rw [if_pos hi, ih, testBit_div_two']
      have hd1 : decide (i < w) = true := by simp [hi]
      have hd2 : decide (i < w + 1) = true := by simp [Nat.lt_succ_of_lt hi]
      rw [hd1, hd2, Bool.true_and, Bool.true_and]
      congr 1
      omega
    · rw [if_neg hi]
      by_cases hiw : i = w
      · subst hiw
        have h2 : (x % 2) % 2 = x % 2 := Nat.mod_mod_of_dvd x dvd_rfl
        have hd : decide (i < i + 1) = true := by simp
        rw [Nat.sub_self, Nat.testBit_zero, h2, hd, Bool.true_and,
          show i + 1 - 1 - i = 0 from by omega, Nat.testBit_zero]
      · have h1 : ¬ i < w + 1 := by omega
        have h2 : 1 ≤ i - w := by omega
        have h3 : x % 2 < 2 ^ (i - w) := by
          have : (2 : Nat) ≤ 2 ^ (i - w) := by
            calc (2 : Nat) = 2 ^ 1 := by norm_num
            _ ≤ 2 ^ (i - w) := Nat.pow_le_pow_right (by norm_num) h2
          omega
        have h4 : (x % 2).testBit (i - w) = false := Nat.testBit_lt_two_pow h3
        simp [h4, h1]

theorem bitRev_bitRev (w x : Nat) (hx : x < 2 ^ w) : bitRev w (bitRev w x) = x := by
  apply Nat.eq_of_testBit_eq
  intro i
  rw [testBit_bitRev]
  by_cases hi : i < w
  · rw [testBit_bitRev]
    have h1 : w - 1 - i < w := by omega
    have h2 : w - 1 - (w - 1 - i) = i := by omega
    simp [hi, h1, h2]
  · have : x.testBit i = false :=
      Nat.testBit_lt_two_pow (lt_of_lt_of_le hx (Nat.pow_le_pow_right (by norm_num) (by omega)))
    simp [hi, this]

theorem bitRev_eq_zero (w x : Nat) (hx : x < 2 ^ w) (h : bitRev w x = 0) : x = 0 := by
  have := bitRev_bitRev w x hx
  rw [h, bitRev_zero] at this
  omega

theorem bitRev_inj (w x y : Nat) (hx : x < 2 ^ w) (hy : y < 2 ^ w)
    (h : bitRev w x = bitRev w y) : x = y := by
  have h1 := bitRev_bitRev w x hx
  have h2 := bitRev_bitRev w y hy
  rw [← h1, ← h2, h]

theorem bitRev_pow_sub_one (w : Nat) : bitRev w (2 ^ w - 1) = 2 ^ w - 1 := by
  apply Nat.eq_of_testBit_eq
  intro i
  rw [testBit_bitRev, Nat.testBit_two_pow_sub_one]
  by_cases hi : i < w
  · have h1 : w - 1 - i < w := by omega
    simp [hi, Nat.testBit_two_pow_sub_one, h1]
  · simp [hi, Nat.testBit_two_pow_sub_one]

theorem bitRev_max (w x : Nat) (hx : x < 2 ^ w) (h : bitRev w x = 2 ^ w - 1) :
    x = 2 ^ w - 1 := by
  have h2 := bitRev_bitRev w x hx
  rw [h, bitRev_pow_sub_one] at h2
  omega

-- scaling: reversing c < 2^w at a wider width shifts the result up
theorem bitRev_shift (w d x : Nat) (hx : x < 2 ^ w) :
    bitRev (w + d) x = bitRev w x * 2 ^ d := by
  apply Nat.eq_of_testBit_eq
  intro i
  rw [testBit_bitRev, show bitRev w x * 2 ^ d = bitRev w x <<< d from by
    rw [Nat.shiftLeft_eq], Nat.testBit_shiftLeft, testBit_bitRev]
  by_cases hd : d ≤ i
  · by_cases hi : i < w + d
    · have h1 : i - d < w := by omega
      have h2 : w - 1 - (i - d) = w + d - 1 - i := by omega
      simp [hi, hd, h1, h2]
    · have h1 : ¬ i - d < w := by omega
      simp [hi, hd, h1]
  · have h1 : x.testBit (w + d - 1 - i) = false := by
      apply Nat.testBit_lt_two_pow
      exact lt_of_lt_of_le hx (Nat.pow_le_pow_right (by norm_num) (by omega))
    simp [hd, h1]

/-! The source's rev() (dict.c lines 643-651): reverse the bits of a
64-bit unsigned long by masked swaps. -/

def revLoop : Nat → Nat → Nat → Nat → Nat
  | 0, v, _, _ => v
  | fuel + 1, v, mask, s =>
    let s1 := s >>> 1
    if s1 = 0 then v
    else
      let mask1 := mask ^^^ ((mask <<< s1) % 2 ^ 64)
      let v1 := ((v >>> s1) &&& mask1) ||| (((v <<< s1) % 2 ^ 64) &&& ((2 ^ 64 - 1) ^^^ mask1))
      revLoop fuel v1 mask1 s1

def rev (v : Nat) : Nat := revLoop 64 v (2 ^ 64 - 1) 64

-- one masked-swap round, with the mod already absorbed into the mask
def revRound (s m n v : Nat) : Nat := ((v >>> s) &&& m) ||| (((v <<< s) % 2 ^ 64) &&& n)

theorem rev_eq_rounds (v : Nat) : rev v =
    revRound 1 0x5555555555555555 0xAAAAAAAAAAAAAAAA
      (revRound 2 0x3333333333333333 0xCCCCCCCCCCCCCCCC
        (revRound 4 0x0F0F0F0F0F0F0F0F 0xF0F0F0F0F0F0F0F0
          (revRound 8 0x00FF00FF00FF00FF 0xFF00FF00FF00FF00
            (revRound 16 0x0000FFFF0000FFFF 0xFFFF0000FFFF0000
              (revRound 32 0x00000000FFFFFFFF 0xFFFFFFFF00000000 v))))) := by
  rfl

theorem revRound_testBit (s m n v i : Nat) :
    (revRound s m n v).testBit i =
      ((v.testBit (s + i) && m.testBit i) ||
        ((decide (i < 64) && (decide (i ≥ s) && v.testBit (i - s))) && n.testBit i)) := by
  simp only [revRound, Nat.testBit_or, Nat.testBit_and, Nat.testBit_mod_two_pow,
    Nat.testBit_shiftLeft, Nat.testBit_shiftRight]

theorem revRound_lt (s m n v : Nat) (hm : m < 2 ^ 64) (hn : n < 2 ^ 64) :
    revRound s m n v < 2 ^ 64 := by
  apply Nat.lt_pow_two_of_testBit
  intro i hi
  rw [revRound_testBit]
  have h1 : m.testBit i = false :=
    Nat.testBit_lt_two_pow (lt_of_lt_of_le hm (Nat.pow_le_pow_right (by norm_num) hi))
  have h2 : n.testBit i = false :=
    Nat.testBit_lt_two_pow (lt_of_lt_of_le hn (Nat.pow_le_pow_right (by norm_num) hi))
  simp [h1, h2]

theorem rev_lt (v : Nat) : rev v < 2 ^ 64 := by
  rw [rev_eq_rounds]
  exact revRound_lt _ _ _ _ (by norm_num) (by norm_num)

-- periodic mask with k blocks of width 2*s, low half of each block set
def genMask (s : Nat) : Nat → Nat
  | 0 => 0
  | k + 1 => genMask s k * 2 ^ (2 * s) + (2 ^ s - 1)

theorem genMask_testBit (s : Nat) (hs : 0 < s) : ∀ (k i : Nat),
    (genMask s k).testBit i = (decide (i < 2 * s * k) && decide (i % (2 * s) < s)) := by
  intro k
  induction k with
  | zero =>
    intro i
    simp [genMask]
  | succ k ih =>
    intro i
    have hb : 2 ^ s - 1 < 2 ^ (2 * s) := by
      have h1 : (2 : Nat) ^ s ≤ 2 ^ (2 * s) := Nat.pow_le_pow_right (by norm_num) (by omega)
      have h2 : (0 : Nat) < 2 ^ s := pow_pos (by norm_num) s
      omega
    have hms : 2 * s * (k + 1) = 2 * s * k + 2 * s := by ring
    rw [show genMask s (k + 1) = genMask s k * 2 ^ (2 * s) + (2 ^ s - 1) from rfl,
      mul_comm (genMask s k), Nat.testBit_mul_pow_two_add _ hb]
    by_cases hi : i < 2 * s
    · rw [if_pos hi, Nat.testBit_two_pow_sub_one]
      have h1 : i % (2 * s) = i := Nat.mod_eq_of_lt hi
      have h2 : i < 2 * s * (k + 1) := by omega
      simp [h1, h2]
    · rw [if_neg hi, ih]
      have h1 : i - 2 * s < 2 * s * k ↔ i < 2 * s * (k + 1) := by omega
      have h2 : (i - 2 * s) % (2 * s) = i % (2 * s) := by
        rcases Nat.exists_eq_add_of_le (Nat.le_of_not_lt hi) with ⟨t, ht⟩
        subst ht
        rw [Nat.add_sub_cancel_left, Nat.add_mod_left]
      rw [h2]
      by_cases h3 : i < 2 * s * (k + 1)
      · have h4 : i - 2 * s < 2 * s * k := h1.mpr h3
        simp [h3, h4]
      · have h4 : ¬ i - 2 * s < 2 * s * k := fun hh => h3 (h1.mp hh)
        simp [h3, h4]

theorem revRound32_testBit (v i : Nat) :
    (revRound 32 0x00000000FFFFFFFF 0xFFFFFFFF00000000 v).testBit i =
      (decide (i < 64) && (if i % 64 < 32 then v.testBit (i + 32) else v.testBit (i - 32))) := by
  have hM : (0x00000000FFFFFFFF : Nat) = genMask 32 1 := by decide
  have hN : (0xFFFFFFFF00000000 : Nat) = genMask 32 1 <<< 32 := by decide
  rw [revRound_testBit, hM, hN, Nat.testBit_shiftLeft,
    genMask_testBit 32 (by norm_num), genMask_testBit 32 (by norm_num)]
  by_cases h64 : i < 64
  · by_cases hlo : i % 64 < 32
    · have h1 : i < 2 * 32 * 1 := by omega
      have h2 : ¬ 32 ≤ i := by omega
      simp [hlo, h1, h2, h64, Nat.add_comm]
    · have h2 : 32 ≤ i := by omega
      have h3 : i - 32 < 2 * 32 * 1 := by omega
      have h4 : (i - 32) % 64 < 32 := by omega
      simp [hlo, h2, h3, h4, h64, Nat.add_comm]
  · have h1 : ¬ i < 2 * 32 * 1 := by omega
    by_cases hc : (i - 32) % 64 < 32
    · have h4 : ¬ i - 32 < 2 * 32 * 1 := by omega
      simp [h1, h4, h64]
    · simp [h1, hc, h64]

theorem revRound16_testBit (v i : Nat) :
    (revRound 16 0x0000FFFF0000FFFF 0xFFFF0000FFFF0000 v).testBit i =
      (decide (i < 64) && (if i % 32 < 16 then v.testBit (i + 16) else v.testBit (i - 16))) := by
  have hM : (0x0000FFFF0000FFFF : Nat) = genMask 16 2 := by decide
  have hN : (0xFFFF0000FFFF0000 : Nat) = genMask 16 2 <<< 16 := by decide
  rw [revRound_testBit, hM, hN, Nat.testBit_shiftLeft,
    genMask_testBit 16 (by norm_num), genMask_testBit 16 (by norm_num)]
  by_cases h64 : i < 64
  · by_cases hlo : i % 32 < 16
    · have h1 : i < 2 * 16 * 2 := by omega
      have h2 : ¬ ((i - 16) % 32 < 16 ∧ 16 ≤ i) := by omega
      by_cases h3 : 16 ≤ i
      · have h4 : ¬ (i - 16) % 32 < 16 := by omega
        simp [hlo, h1, h4, h64, Nat.add_comm]
      · simp [hlo, h1, h3, h64, Nat.add_comm]
    · have h2 : 16 ≤ i := by omega
      have h3 : i - 16 < 2 * 16 * 2 := by omega
      have h4 : (i - 16) % 32 < 16 := by omega
      have h5 : ¬ i % 32 < 16 := hlo
      simp [h5, h2, h3, h4, h64, Nat.add_comm]
  · have h1 : ¬ i < 2 * 16 * 2 := by omega
    by_cases hc : (i - 16) % 32 < 16
    · have h4 : ¬ i - 16 < 2 * 16 * 2 := by omega
      simp [h1, h4, h64]
    · simp [h1, hc, h64]

theorem revRound8_testBit (v i : Nat) :
    (revRound 8 0x00FF00FF00FF00FF 0xFF00FF00FF00FF00 v).testBit i =
      (decide (i < 64) && (if i % 16 < 8 then v.testBit (i + 8) else v.testBit (i - 8))) := by
  have hM : (0x00FF00FF00FF00FF : Nat) = genMask 8 4 := by decide
  have hN : (0xFF00FF00FF00FF00 : Nat) = genMask 8 4 <<< 8 := by decide
  rw [revRound_testBit, hM, hN, Nat.testBit_shiftLeft,
    genMask_testBit 8 (by norm_num), genMask_testBit 8 (by norm_num)]
  by_cases h64 : i < 64
  · by_cases hlo : i % 16 < 8
    · have h1 : i < 2 * 8 * 4 := by omega
      by_cases h3 : 8 ≤ i
      · have h4 : ¬ (i - 8) % 16 < 8 := by omega
        simp [hlo, h1, h4, h64, Nat.add_comm]
      · simp [hlo, h1, h3, h64, Nat.add_comm]
    · have h2 : 8 ≤ i := by omega
      have h3 : i - 8 < 2 * 8 * 4 := by omega
      have h4 : (i - 8) % 16 < 8 := by omega
      simp [hlo, h2, h3, h4, h64, Nat.add_comm]
  · have h1 : ¬ i < 2 * 8 * 4 := by omega
    by_cases hc : (i - 8) % 16 < 8
    · have h4 : ¬ i - 8 < 2 * 8 * 4 := by omega
      simp [h1, h4, h64]
    · simp [h1, hc, h64]

theorem revRound4_testBit (v i : Nat) :
    (revRound 4 0x0F0F0F0F0F0F0F0F 0xF0F0F0F0F0F0F0F0 v).testBit i =
      (decide (i < 64) && (if i % 8 < 4 then v.testBit (i + 4) else v.testBit (i - 4))) := by
  have hM : (0x0F0F0F0F0F0F0F0F : Nat) = genMask 4 8 := by decide
  have hN : (0xF0F0F0F0F0F0F0F0 : Nat) = genMask 4 8 <<< 4 := by decide
  rw [revRound_testBit, hM, hN, Nat.testBit_shiftLeft,
    genMask_testBit 4 (by norm_num), genMask_testBit 4 (by norm_num)]
  by_cases h64 : i < 64
  · by_cases hlo : i % 8 < 4
    · have h1 : i < 2 * 4 * 8 := by omega
      by_cases h3 : 4 ≤ i
      · have h4 : ¬ (i - 4) % 8 < 4 := by omega
        simp [hlo, h1, h4, h64, Nat.add_comm]
      · simp [hlo, h1, h3, h64, Nat.add_comm]
    · have h2 : 4 ≤ i := by omega
      have h3 : i - 4 < 2 * 4 * 8 := by omega
      have h4 : (i - 4) % 8 < 4 := by omega
      simp [hlo, h2, h3, h4, h64, Nat.add_comm]
  · have h1 : ¬ i < 2 * 4 * 8 := by omega
    by_cases hc : (i - 4) % 8 < 4
    · have h4 : ¬ i - 4 < 2 * 4 * 8 := by omega
      simp [h1, h4, h64]
    · simp [h1, hc, h64]

theorem revRound2_testBit (v i : Nat) :
    (revRound 2 0x3333333333333333 0xCCCCCCCCCCCCCCCC v).testBit i =
      (decide (i < 64) && (if i % 4 < 2 then v.testBit (i + 2) else v.testBit (i - 2))) := by
  have hM : (0x3333333333333333 : Nat) = genMask 2 16 := by decide
  have hN : (0xCCCCCCCCCCCCCCCC : Nat) = genMask 2 16 <<< 2 := by decide
  rw [revRound_testBit, hM, hN, Nat.testBit_shiftLeft,
    genMask_testBit 2 (by norm_num), genMask_testBit 2 (by norm_num)]
  by_cases h64 : i < 64
  · by_cases hlo : i % 4 < 2
    · have h1 : i < 2 * 2 * 16 := by omega
      by_cases h3 : 2 ≤ i
      · have h4 : ¬ (i - 2) % 4 < 2 := by omega
        simp [hlo, h1, h4, h64, Nat.add_comm]
      · simp [hlo, h1, h3, h64, Nat.add_comm]
    · have h2 : 2 ≤ i := by omega
      have h3 : i - 2 < 2 * 2 * 16 := by omega
      have h4 : (i - 2) % 4 < 2 := by omega
      simp [hlo, h2, h3, h4, h64, Nat.add_comm]
  · have h1 : ¬ i < 2 * 2 * 16 := by omega
    by_cases hc : (i - 2) % 4 < 2
    · have h4 : ¬ i - 2 < 2 * 2 * 16 := by omega
      simp [h1, h4, h64]
    · simp [h1, hc, h64]

theorem revRound1_testBit (v i : Nat) :
    (revRound 1 0x5555555555555555 0xAAAAAAAAAAAAAAAA v).testBit i =
      (decide (i < 64) && (if i % 2 < 1 then v.testBit (i + 1) else v.testBit (i - 1))) := by
  have hM : (0x5555555555555555 : Nat) = genMask 1 32 := by decide
  have hN : (0xAAAAAAAAAAAAAAAA : Nat) = genMask 1 32 <<< 1 := by decide
  rw [revRound_testBit, hM, hN, Nat.testBit_shiftLeft,
    genMask_testBit 1 (by norm_num), genMask_testBit 1 (by norm_num)]
  by_cases h64 : i < 64
  · by_cases hlo : i % 2 < 1
    · have h1 : i < 2 * 1 * 32 := by omega
      by_cases h3 : 1 ≤ i
      · have h4 : ¬ (i - 1) % 2 < 1 := by omega
        simp [hlo, h1, h4, h64, Nat.add_comm]
      · simp [hlo, h1, h3, h64, Nat.add_comm]
    · have h2 : 1 ≤ i := by omega
      have h3 : i - 1 < 2 * 1 * 32 := by omega
      have h4 : (i - 1) % 2 < 1 := by omega
      simp [hlo, h2, h3, h4, h64, Nat.add_comm]
  · have h1 : ¬ i < 2 * 1 * 32 := by omega
    by_cases hc : (i - 1) % 2 < 1
    · have h4 : ¬ i - 1 < 2 * 1 * 32 := by omega
      simp [h1, h4, h64]
    · simp [h1, hc, h64]

theorem rev_testBit (v i : Nat) :
    (rev v).testBit i = (decide (i < 64) && v.testBit (63 - i)) := by
  by_cases hi : i < 64
  · rw [rev_eq_rounds]
    simp only [revRound1_testBit, revRound2_testBit, revRound4_testBit, revRound8_testBit,
      revRound16_testBit, revRound32_testBit]
    interval_cases i <;> simp
  · have h1 : (rev v).testBit i = false :=
      Nat.testBit_lt_two_pow (lt_of_lt_of_le (rev_lt v)
        (Nat.pow_le_pow_right (by norm_num) (by omega)))
    simp [h1, hi]

theorem testBit_mul_pow (a w i : Nat) :
    (2 ^ w * a).testBit i = (decide (w ≤ i) && a.testBit (i - w)) := by
  rw [show 2 ^ w * a = 2 ^ w * a + 0 from (Nat.add_zero _).symm,
    Nat.testBit_mul_pow_two_add a (pow_pos (by norm_num) w)]
  by_cases hi : i < w
  · simp [hi, show ¬ w ≤ i from by omega]
  · simp [hi, Nat.le_of_not_lt hi]

theorem mul_pow_or_of_lt (a c w : Nat) (hc : c < 2 ^ w) :
    (2 ^ w * a) ||| c = 2 ^ w * a + c := by
  apply Nat.eq_of_testBit_eq
  intro i
  rw [Nat.testBit_or, Nat.testBit_mul_pow_two_add a hc, testBit_mul_pow]
  by_cases hi : i < w
  · simp [hi, show ¬ w ≤ i from by omega]
  · have h1 : c.testBit i = false :=
      Nat.testBit_lt_two_pow (lt_of_lt_of_le hc (Nat.pow_le_pow_right (by norm_num) (by omega)))
    simp [hi, h1, Nat.le_of_not_lt hi]

theorem two_pow_sub_two_pow (w n : Nat) (h : w ≤ n) :
    2 ^ n - 2 ^ w = 2 ^ w * (2 ^ (n - w) - 1) := by
  have h1 : 2 ^ w * 2 ^ (n - w) = 2 ^ n := by
    rw [← pow_add]
    congr 1
    omega
  have h2 : (0 : Nat) < 2 ^ (n - w) := pow_pos (by norm_num) _
  rw [Nat.mul_sub, mul_one, h1]

theorem xor_masks (w n : Nat) (h : w ≤ n) :
    (2 ^ n - 1) ^^^ (2 ^ w - 1) = 2 ^ n - 2 ^ w := by
  apply Nat.eq_of_testBit_eq
  intro i
  rw [Nat.testBit_xor, Nat.testBit_two_pow_sub_one, Nat.testBit_two_pow_sub_one,
    two_pow_sub_two_pow w n h, testBit_mul_pow, Nat.testBit_two_pow_sub_one]
  by_cases h1 : i < w
  · simp [h1, show i < n from by omega, show ¬ w ≤ i from by omega]
  · by_cases h2 : i < n
    · simp [h1, h2, show w ≤ i from by omega, show i - w < n - w from by omega]
    · simp [h1, h2, show ¬ i - w < n - w from by omega]

theorem rev_or_high (w c : Nat) (hw : w ≤ 64) (hc : c < 2 ^ w) :
    rev (c + (2 ^ 64 - 2 ^ w)) = 2 ^ (64 - w) * bitRev w c + (2 ^ (64 - w) - 1) := by
  have hin : c + (2 ^ 64 - 2 ^ w) = 2 ^ w * (2 ^ (64 - w) - 1) + c := by
    rw [two_pow_sub_two_pow w 64 hw]
    omega
  apply Nat.eq_of_testBit_eq
  intro i
  rw [rev_testBit, hin, Nat.testBit_mul_pow_two_add _ hc,
    Nat.testBit_mul_pow_two_add _ (show 2 ^ (64 - w) - 1 < 2 ^ (64 - w) from by
      have := pow_pos (show (0:Nat) < 2 from by norm_num) (64 - w); omega),
    testBit_bitRev]
  by_cases h1 : i < 64 - w
  · have h2 : ¬ 63 - i < w := by omega
    have h3 : 63 - i - w < 64 - w := by omega
    have h4 : i < 64 := by omega
    simp [h1, h2, h4, Nat.testBit_two_pow_sub_one, h3]
  · by_cases h2 : i < 64
    · have h3 : 63 - i < w := by omega
      have h4 : i - (64 - w) < w := by omega
      have h5 : w - 1 - (i - (64 - w)) = 63 - i := by omega
      simp [h1, h2, h3, h4, h5]
    · have h4 : ¬ i - (64 - w) < w := by omega
      simp [h1, h2, h4]

theorem rev_mul_pow (w m : Nat) (hw : w ≤ 64) (hm : m < 2 ^ w) :
    rev (2 ^ (64 - w) * m) = bitRev w m := by
  apply Nat.eq_of_testBit_eq
  intro i
  rw [rev_testBit, testBit_mul_pow, testBit_bitRev]
  by_cases h1 : i < w
  · have h2 : 64 - w ≤ 63 - i := by omega
    have h3 : 63 - i - (64 - w) = w - 1 - i := by omega
    have h4 : i < 64 := by omega
    simp [h1, h2, h3, h4]
  · by_cases h2 : i < 64
    · have h3 : ¬ 64 - w ≤ 63 - i := by omega
      simp [h1, h2, h3]
    · simp [h1, h2]

theorem rev_zero : rev 0 = 0 := by decide

theorem nextCursor_eq (w c : Nat) (hw : w ≤ 64) (hc : c < 2 ^ w) :
    rev ((rev (c + (2 ^ 64 - 2 ^ w)) + 1) % 2 ^ 64) =
      bitRev w ((bitRev w c + 1) % 2 ^ w) := by
  rw [rev_or_high w c hw hc]
  have hpos : (0 : Nat) < 2 ^ (64 - w) := pow_pos (by norm_num) _
  have hstep : 2 ^ (64 - w) * bitRev w c + (2 ^ (64 - w) - 1) + 1 =
      2 ^ (64 - w) * (bitRev w c + 1) := by
    rw [Nat.mul_add, mul_one]
    omega
  rw [hstep]
  have hn := bitRev_lt w c
  by_cases hwrap : bitRev w c + 1 = 2 ^ w
  · rw [hwrap]
    have h64 : 2 ^ (64 - w) * 2 ^ w = 2 ^ 64 := by
      rw [← pow_add]
      congr 1
      omega
    rw [h64, Nat.mod_self, rev_zero, Nat.mod_self, bitRev_zero]
  · have hlt : bitRev w c + 1 < 2 ^ w := by omega
    have hv : 2 ^ (64 - w) * (bitRev w c + 1) < 2 ^ 64 := by
      have h1 : 2 ^ (64 - w) * (bitRev w c + 1) ≤ 2 ^ (64 - w) * 2 ^ w :=
        Nat.mul_le_mul_left _ (by omega)
      have h64 : 2 ^ (64 - w) * 2 ^ w = 2 ^ 64 := by
        rw [← pow_add]
        congr 1
        omega
      have h2 : 2 ^ (64 - w) * (bitRev w c + 1) ≠ 2 ^ 64 := by
        rw [← h64]
        intro hh
        have := Nat.eq_of_mul_eq_mul_left hpos hh
        omega
      omega
    rw [Nat.mod_eq_of_lt hv, rev_mul_pow w _ hw hlt, Nat.mod_eq_of_lt hlt]

theorem or_not_mask (w c : Nat) (hw : w ≤ 64) (hc : c < 2 ^ w) :
    c ||| ((2 ^ 64 - 1) ^^^ (2 ^ w - 1)) = c + (2 ^ 64 - 2 ^ w) := by
  rw [xor_masks w 64 hw, two_pow_sub_two_pow w 64 hw, Nat.or_comm, mul_pow_or_of_lt _ _ _ hc]
  omega

theorem or_not_mask_high (a b c : Nat) (hab : a ≤ b) (hb : b < 64) (hc : c < 2 ^ a) :
    (c + 2 ^ b) ||| ((2 ^ 64 - 1) ^^^ (2 ^ a - 1)) = c + (2 ^ 64 - 2 ^ a) := by
  rw [xor_masks a 64 (by omega)]
  have hrhs : c + (2 ^ 64 - 2 ^ a) = 2 ^ a * (2 ^ (64 - a) - 1) + c := by
    rw [two_pow_sub_two_pow a 64 (by omega)]
    omega
  have hlhs : c + 2 ^ b = 2 ^ b * 1 + c := by omega
  have hcb : c < 2 ^ b := lt_of_lt_of_le hc (Nat.pow_le_pow_right (by norm_num) hab)
  apply Nat.eq_of_testBit_eq
  intro i
  rw [Nat.testBit_or, hlhs, Nat.testBit_mul_pow_two_add _ hcb, hrhs,
    Nat.testBit_mul_pow_two_add _ hc, two_pow_sub_two_pow a 64 (by omega), testBit_mul_pow,
    Nat.testBit_two_pow_sub_one]
  by_cases h1 : i < a
  · simp [h1, show i < b from by omega, show ¬ a ≤ i from by omega]
  · by_cases h2 : i < 64
    · simp [h1, h2, show a ≤ i from by omega, show i - a < 64 - a from by omega]
    · have h3 : ¬ i < b := by omega
      have h4 : ¬ i - a < 64 - a := by omega
      have h5 : i - b ≠ 0 := by omega
      rcases Nat.exists_eq_succ_of_ne_zero h5 with ⟨j, hj⟩
      simp [h1, h2, h3, h4, show a ≤ i from by omega, hj]
      have : (1 : Nat) < 2 ^ (j + 1) := by
        have : (2 : Nat) ≤ 2 ^ (j + 1) := by
          calc (2 : Nat) = 2 ^ 1 := by norm_num
          _ ≤ 2 ^ (j + 1) := Nat.pow_le_pow_right (by norm_num) (by omega)
        omega
      exact Nat.testBit_lt_two_pow this

theorem or_fill_low (m c w : Nat) (hc : c < 2 ^ w) :
    (2 ^ w * m + c) ||| (2 ^ w - 1) = 2 ^ w * m + (2 ^ w - 1) := by
  have hb : 2 ^ w - 1 < 2 ^ w := by
    have := pow_pos (show (0:Nat) < 2 from by norm_num) w
    omega
  apply Nat.eq_of_testBit_eq
  intro i
  rw [Nat.testBit_or, Nat.testBit_mul_pow_two_add _ hc, Nat.testBit_mul_pow_two_add _ hb,
    Nat.testBit_two_pow_sub_one]
  by_cases h1 : i < w
  · simp [h1]
  · simp [h1]

theorem and_high_mask (m w n : Nat) (hw : w ≤ n) (hm : m < 2 ^ (n - w)) :
    (2 ^ w * m) &&& (2 ^ n - 2 ^ w) = 2 ^ w * m := by
  apply Nat.eq_of_testBit_eq
  intro i
  rw [Nat.testBit_and, two_pow_sub_two_pow w n hw, testBit_mul_pow, testBit_mul_pow,
    Nat.testBit_two_pow_sub_one]
  by_cases h1 : w ≤ i
  · by_cases h2 : i - w < n - w
    · simp [h1, h2]
    · have h3 : m.testBit (i - w) = false :=
        Nat.testBit_lt_two_pow (lt_of_lt_of_le hm (Nat.pow_le_pow_right (by norm_num) (by omega)))
      simp [h1, h2, h3]
  · simp [h1]

theorem and_low_mask (low m a : Nat) (hlow : low < 2 ^ a) :
    (low + m * 2 ^ a) &&& (2 ^ a - 1) = low := by
  rw [Nat.and_pow_two_sub_one_eq_mod, Nat.add_mul_mod_self_right, Nat.mod_eq_of_lt hlow]

theorem and_mid_mask (a b low m : Nat) (hab : a ≤ b) (hlow : low < 2 ^ a) :
    (low + m * 2 ^ a) &&& (2 ^ b - 2 ^ a) = 2 ^ a * (m % 2 ^ (b - a)) := by
  have hin : low + m * 2 ^ a = 2 ^ a * m + low := by ring
  apply Nat.eq_of_testBit_eq
  intro i
  rw [Nat.testBit_and, hin, Nat.testBit_mul_pow_two_add _ hlow,
    two_pow_sub_two_pow a b hab, testBit_mul_pow, testBit_mul_pow,
    Nat.testBit_two_pow_sub_one, ← Nat.and_pow_two_sub_one_eq_mod, Nat.testBit_and,
    Nat.testBit_two_pow_sub_one]
  by_cases h1 : i < a
  · simp [h1, show ¬ a ≤ i from by omega]
  · simp [h1, show a ≤ i from by omega, Bool.and_comm]

theorem scanStep_mid (a b low mid : Nat) (hab : a < b) (hb : b ≤ 63) (hlow : low < 2 ^ a)
    (hmid : mid + 1 ≤ 2 ^ (b - a)) :
    (((((low + mid * 2 ^ a) ||| (2 ^ a - 1)) + 1) % 2 ^ 64) &&&
      ((2 ^ 64 - 1) ^^^ (2 ^ a - 1))) ||| ((low + mid * 2 ^ a) &&& (2 ^ a - 1)) =
    low + (mid + 1) * 2 ^ a := by
  have hpos : (0 : Nat) < 2 ^ a := pow_pos (by norm_num) a
  have hin : low + mid * 2 ^ a = 2 ^ a * mid + low := by ring
  rw [hin, or_fill_low _ _ _ hlow]
  have hstep : 2 ^ a * mid + (2 ^ a - 1) + 1 = 2 ^ a * (mid + 1) := by
    rw [Nat.mul_add, mul_one]
    omega
  rw [hstep]
  have hbound : 2 ^ a * (mid + 1) < 2 ^ 64 := by
    have h1 : 2 ^ a * (mid + 1) ≤ 2 ^ a * 2 ^ (b - a) := Nat.mul_le_mul_left _ hmid
    have h2 : 2 ^ a * 2 ^ (b - a) = 2 ^ b := by
      rw [← pow_add]
      congr 1
      omega
    have h3 : (2 : Nat) ^ b < 2 ^ 64 := Nat.pow_lt_pow_right (by norm_num) (by omega)
    omega
  rw [Nat.mod_eq_of_lt hbound, xor_masks a 64 (by omega),
    and_high_mask _ _ _ (by omega) (by
      have h2 : 2 ^ a * 2 ^ (b - a) = 2 ^ b := by
        rw [← pow_add]
        congr 1
        omega
      have h3 : (2 : Nat) ^ (b - a) < 2 ^ (64 - a) := Nat.pow_lt_pow_right (by norm_num) (by omega)
      omega),
    ← hin, and_low_mask _ _ _ hlow, mul_pow_or_of_lt _ _ _ hlow]
  ring

theorem scanTest_mid (a b low mid : Nat) (hab : a < b) (hlow : low < 2 ^ a)
    (hmid1 : 1 ≤ mid) (hmid : mid ≤ 2 ^ (b - a)) :
    ((low + mid * 2 ^ a) &&& ((2 ^ a - 1) ^^^ (2 ^ b - 1)) = 0) ↔ mid = 2 ^ (b - a) := by
  rw [Nat.xor_comm, xor_masks a b (by omega), and_mid_mask a b low mid (by omega) hlow]
  have hpos : (0 : Nat) < 2 ^ a := pow_pos (by norm_num) a
  constructor
  · intro h
    have h1 : mid % 2 ^ (b - a) = 0 := by
      rcases Nat.mul_eq_zero.mp h with h | h
      · omega
      · exact h
    have h2 := Nat.dvd_of_mod_eq_zero h1
    have h3 := Nat.le_of_dvd (by omega) h2
    omega
  · intro h
    rw [h, Nat.mod_self, Nat.mul_zero]

theorem bitRev_high_lt (w d hi : Nat) : bitRev (w + d) (2 ^ w * hi) < 2 ^ d := by
  apply Nat.lt_pow_two_of_testBit
  intro i hi2
  rw [testBit_bitRev]
  by_cases h1 : i < w + d
  · have h2 : (2 ^ w * hi).testBit (w + d - 1 - i) = false := by
      rw [testBit_mul_pow]
      simp [show ¬ w ≤ w + d - 1 - i from by omega]
    simp [h1, h2]
  · simp [h1]

theorem bitRev_split (w d hi lo : Nat) (hlo : lo < 2 ^ w) :
    bitRev (w + d) (2 ^ w * hi + lo) =
      2 ^ d * bitRev w lo + bitRev (w + d) (2 ^ w * hi) := by
  apply Nat.eq_of_testBit_eq
  intro i
  rw [testBit_bitRev, Nat.testBit_mul_pow_two_add _ hlo,
    Nat.testBit_mul_pow_two_add _ (bitRev_high_lt w d hi)]
  by_cases h1 : i < d
  · rw [if_pos h1, testBit_bitRev]
    by_cases h2 : i < w + d
    · have h3 : ¬ w + d - 1 - i < w := by omega
      simp [h2, h3, testBit_mul_pow, show w ≤ w + d - 1 - i from by omega]
    · simp [h2]
  · rw [if_neg h1, testBit_bitRev]
    by_cases h2 : i < w + d
    · have h3 : w + d - 1 - i < w := by omega
      have h4 : i - d < w := by omega
      have h5 : w - 1 - (i - d) = w + d - 1 - i := by omega
      simp [h2, h3, h4, h5, testBit_mul_pow, show ¬ w ≤ w + d - 1 - i from by omega]
    · have h4 : ¬ i - d < w := by omega
      simp [h2, h4]

theorem bitRev_le_scale (w d c h : Nat) (hc : c < 2 ^ w)
    (hle : bitRev w c ≤ bitRev w (h % 2 ^ w)) :
    bitRev (w + d) c ≤ bitRev (w + d) h := by
  have hdecomp : h = 2 ^ w * (h / 2 ^ w) + h % 2 ^ w := (Nat.div_add_mod _ _).symm
  rw [bitRev_shift w d c hc, hdecomp, bitRev_split w d _ _ (Nat.mod_lt _ (pow_pos (by norm_num) w))]
  calc bitRev w c * 2 ^ d ≤ bitRev w (h % 2 ^ w) * 2 ^ d := Nat.mul_le_mul_right _ hle
  _ = 2 ^ d * bitRev w (h % 2 ^ w) := by ring
  _ ≤ _ := Nat.le_add_right _ _

/-! ### dictScan: the reverse-binary-cursor iterator -/

/-- Do-while loop of the rehashing branch of `dictScan`: visit the buckets of
the larger table that expand the cursor's bucket of the smaller one, stepping
the bits above the small mask.  The fuel only bounds the iteration count so
the kernel can evaluate; `dictScan` passes more than the loop can use. -/
def dictScanLoopT1 (t1 : dictht) (m0 m1 : Nat) :
    Nat → Nat → List (Nat × Nat) → (List (Nat × Nat) × Nat)
  | v, 0, acc => (acc, v)
  | v, fuel + 1, acc =>
    let acc1 := acc ++ t1.table.getD (v &&& m1) []
    let v1 := ((((v ||| m0) + 1) % 2 ^ 64) &&& ((2 ^ 64 - 1) ^^^ m0)) ||| (v &&& m0)
    if v1 &&& (m0 ^^^ m1) ≠ 0 then dictScanLoopT1 t1 m0 m1 v1 fuel acc1 else (acc1, v1)

/-- `dictScan`: returns the list of entries passed to the callback `fn` in
order, and the next cursor.  The hash function plays no role in the scan
itself (the callback only receives entries). -/
def dictScan (d : dict) (v : Nat) : List (Nat × Nat) × Nat :=
  if dictSize d = 0 then ([], 0)
  else if ¬ dictIsRehashing d then
    let m0 := d.ht0.sizemask
    let em := d.ht0.table.getD (v &&& m0) []
    (em, rev ((rev (v ||| ((2 ^ 64 - 1) ^^^ m0)) + 1) % 2 ^ 64))
  else
    let p := if d.ht1.size < d.ht0.size then (d.ht1, d.ht0) else (d.ht0, d.ht1)
    let m0 := p.1.sizemask
    let m1 := p.2.sizemask
    let em0 := p.1.table.getD (v &&& m0) []
    let r := dictScanLoopT1 p.2 m0 m1 v (p.2.size + 1) []
    (em0 ++ r.1, rev ((rev (r.2 ||| ((2 ^ 64 - 1) ^^^ m0)) + 1) % 2 ^ 64))

/-- Power-of-two size discipline maintained by dict.c: an allocated table 0
has size `2^i` (`i ≤ 61` for every state reachable within the entry budget of
the claims), and while rehashing, table 1 is a strictly larger power of two. -/
structure dictWFS (d : dict) : Prop where
  pow0 : d.ht0.size = 0 ∨ ∃ i, i ≤ 61 ∧ d.ht0.size = 2 ^ i
  pow1 : ∀ r, d.rehashidx = some r →
    (∃ i, i ≤ 61 ∧ d.ht1.size = 2 ^ i) ∧ d.ht0.size < d.ht1.size

/-- Full invariant: structural well-formedness plus the size discipline. -/
def dictWFP (f : Nat → Nat) (d : dict) : Prop := dictWF f d ∧ dictWFS d

/-- Size of the smaller table (the granularity at which `dictScan` advances
its cursor). -/
def smallN (d : dict) : Nat :=
  if dictIsRehashing d then min d.ht0.size d.ht1.size else d.ht0.size

theorem dictNextPowerLoop_pow (size : Nat) :
    ∀ gas j, size ≤ 2 ^ j * 2 ^ gas →
    ∃ t, t ≤ gas ∧ dictNextPowerLoop size (2 ^ j) gas = 2 ^ (j + t) ∧
      size ≤ 2 ^ (j + t) ∧ (t = 0 ∨ 2 ^ (j + t - 1) < size) := by
  intro gas
  induction gas with
  | zero =>
    intro j h
    refine ⟨0, le_refl _, rfl, ?_, Or.inl rfl⟩
    simpa using h
  | succ gas ih =>
    intro j h
    by_cases hle : size ≤ 2 ^ j
    · refine ⟨0, by omega, ?_, by simpa using hle, Or.inl rfl⟩
      rw [dictNextPowerLoop, if_pos hle]
      simp
    · have h2 : size ≤ 2 ^ (j + 1) * 2 ^ gas := by
        have : 2 ^ j * 2 ^ (gas + 1) = 2 ^ (j + 1) * 2 ^ gas := by ring
        omega
      obtain ⟨t, htg, heq, hge, hmin⟩ := ih (j + 1) h2
      refine ⟨t + 1, by omega, ?_, ?_, ?_⟩
      · rw [dictNextPowerLoop, if_neg hle,
          show 2 ^ j * 2 = 2 ^ (j + 1) from by ring, heq]
        congr 1
        omega
      · rw [show j + (t + 1) = j + 1 + t from by ring]
        exact hge
      · right
        rcases hmin with h0 | hlt
        · subst h0
          simpa using Nat.lt_of_not_le hle
        · rw [show j + (t + 1) - 1 = j + 1 + t - 1 from by omega]
          exact hlt

theorem dictNextPower_pow (size : Nat) (hs : size ≤ 2 ^ 61) :
    ∃ b, 2 ≤ b ∧ b ≤ 61 ∧ dictNextPower size = 2 ^ b ∧ size ≤ 2 ^ b := by
  have hclamp : ¬ 2 ^ 63 - 1 ≤ size := by
    have : (2 : Nat) ^ 61 < 2 ^ 63 - 1 := by norm_num
    omega
  have hgas : size ≤ 2 ^ 2 * 2 ^ size := by
    have h1 := Nat.lt_two_pow size
    have h2 : (1 : Nat) * 2 ^ size ≤ 2 ^ 2 * 2 ^ size :=
      Nat.mul_le_mul_right _ (by norm_num)
    omega
  obtain ⟨t, _, heq, hge, hmin⟩ := dictNextPowerLoop_pow size size 2 hgas
  refine ⟨2 + t, by omega, ?_, ?_, hge⟩
  · rcases hmin with h0 | hlt
    · omega
    · have h2 : (2 : Nat) ^ (2 + t - 1) < 2 ^ 61 := lt_of_lt_of_le hlt hs
      have h3 : 2 + t - 1 < 61 := by
        by_contra hc
        have : (2 : Nat) ^ 61 ≤ 2 ^ (2 + t - 1) :=
          Nat.pow_le_pow_right (by norm_num) (by omega)
        omega
      omega
  · rw [dictNextPower, if_neg hclamp]
    exact (show DICT_HT_INITIAL_SIZE = 2 ^ 2 from rfl) ▸ heq

theorem rehashMoveChain_length (f : Nat → Nat) (m1 : Nat) :
    ∀ (chain : List (Nat × Nat)) (t t' : List (List (Nat × Nat))),
    rehashMoveChain f m1 chain t = some t' → t'.length = t.length := by
  intro chain
  induction chain with
  | nil =>
    intro t t' h
    injection h with h
    rw [← h]
  | cons e rest ih =>
    intro t t' h
    rw [rehashMoveChain] at h
    rcases hg : t[f e.1 &&& m1]? with _ | b
    · rw [hg] at h
      cases h
    · rw [hg] at h
      have := ih _ _ h
      rw [this, List.length_set]

/-- The three possible shapes of a single `dictRehash(d, 1)` call: no-op,
rehash completion, or one-bucket migration (which preserves the sizes and
keeps the dictionary rehashing). -/
theorem dictRehash_one_shape (f : Nat → Nat) {d d1 : dict} {b : Bool}
    (h : dictRehash f d 1 = some (d1, b)) :
    d1 = d ∨
    (dictIsRehashing d = true ∧ d.ht0.used = 0 ∧
      d1 = ⟨d.ht1, dictReset, none, d.iterators⟩) ∨
    (dictIsRehashing d = true ∧ d1.rehashidx.isSome = true ∧
      d1.ht0.size = d.ht0.size ∧ d1.ht1.size = d.ht1.size) := by
  rw [dictRehash] at h
  split at h
  · injection h with h
    injection h with h _
    exact Or.inl h.symm
  · rename_i hreh
    have hreh' : dictIsRehashing d = true := by
      by_cases hh : dictIsRehashing d
      · exact hh
      · exact absurd hh (by simpa using hreh)
    rw [show (1 : Nat) = 0 + 1 from rfl, dictRehashLoop] at h
    split at h
    · rename_i hu
      injection h with h
      injection h with h _
      exact Or.inr (Or.inl ⟨hreh', hu, h.symm⟩)
    · rename_i hu
      split at h
      · cases h
      · rename_i ridx hrx
        split at h
        · cases h
        · rename_i j hfind
          split at h
          · cases h
          · rename_i chain hget
            split at h
            · cases h
            · rename_i t1 hmove
              rw [dictRehashLoop] at h
              injection h with h
              injection h with h _
              refine Or.inr (Or.inr ⟨hreh', ?_, ?_, ?_⟩)
              · rw [← h]
                rfl
              · rw [← h]
                show (d.ht0.table.set j []).length = _
                rw [List.length_set]
                rfl
              · rw [← h]
                show t1.length = _
                rw [rehashMoveChain_length f _ chain _ _ hmove]
                rfl

/-- The three possible shapes of `_dictExpandIfNeeded` on success: no change,
initial allocation of table 0, or the start of an expansion into table 1. -/
theorem dictExpandIfNeeded_cases (f : Nat → Nat) (cr : Bool) (a : Nat) {d d1 : dict}
    (hw : dictWF f d) (h : dictExpandIfNeeded cr a d = .ok d1) :
    d1 = d ∨
    (d.ht0.size = 0 ∧ d.rehashidx = none ∧
      d1 = { d with ht0 := ⟨a, List.replicate (dictNextPower DICT_HT_INITIAL_SIZE) [], 0⟩ }) ∨
    (d.rehashidx = none ∧ 0 < d.ht0.size ∧ d.ht0.size ≤ d.ht0.used ∧
      d1 = { d with
        ht1 := ⟨a, List.replicate (dictNextPower (d.ht0.used * 2)) [], 0⟩,
        rehashidx := some 0 }) := by
  rw [dictExpandIfNeeded] at h
  split at h
  · injection h with h
    exact Or.inl h.symm
  · rename_i hreh
    have hrxn : d.rehashidx = none := by
      rcases hrx : d.rehashidx with _ | r
      · rfl
      · exact absurd (by rw [dictIsRehashing, hrx]; rfl) hreh
    split at h
    · rename_i hs0
      have htab : d.ht0.table = [] := List.eq_nil_of_length_eq_zero hs0
      have hused : d.ht0.used = 0 := by
        rw [hw.used0, htab]
        rfl
      rw [dictExpand, if_neg (by
        intro hc
        rcases hc with hc | hc
        · exact hreh hc
        · rw [hused] at hc
          omega)] at h
      rw [if_pos htab] at h
      injection h with h
      exact Or.inr (Or.inl ⟨hs0, hrxn, h.symm⟩)
    · rename_i hs0
      split at h
      · rename_i htrig
        have htab : ¬ d.ht0.table = [] := by
          intro hc
          apply hs0
          rw [dictht.size, hc]
          rfl
        rw [dictExpand, if_neg (by
          intro hc
          rcases hc with hc | hc
          · exact hreh hc
          · omega)] at h
        rw [if_neg htab] at h
        injection h with h
        refine Or.inr (Or.inr ⟨hrxn, by omega, htrig.1, h.symm⟩)
      · injection h with h
        exact Or.inl h.symm

/-- The opportunistic rehash step taken at the top of add/find: the state is
unchanged or stepped by one `dictRehash(d, 1)` call. -/
theorem condStep_shape (f : Nat → Nat) {d dA : dict} (hw : dictWF f d)
    (hcond : (if dictIsRehashing d then dictRehashStep f d else some d) = some dA) :
    dA = d ∨ ∃ b, dictRehash f d 1 = some (dA, b) := by
  by_cases hreh : dictIsRehashing d
  · rw [if_pos hreh, dictRehashStep, if_pos hw.iter] at hcond
    rcases Option.map_eq_some'.mp hcond with ⟨p, hp, hpa⟩
    right
    exact ⟨p.2, by rw [hp, ← hpa]⟩
  · rw [if_neg hreh] at hcond
    injection hcond with hcond
    exact Or.inl hcond.symm

/-- State shape of `dictFind`: the returned state is the input or the result
of the opportunistic rehash step. -/
theorem dictFind_shape (f : Nat → Nat) {d d1 : dict} {k : Nat}
    {r : Option (Nat × Nat)} (hw : dictWF f d) (h : dictFind f d k = some (d1, r)) :
    d1 = d ∨ ∃ b, dictRehash f d 1 = some (d1, b) := by
  rw [dictFind] at h
  split at h
  · injection h with h
    injection h with h _
    exact Or.inl h.symm
  · split at h
    · cases h
    · rename_i dA hcond
      have hd1 : d1 = dA := by
        dsimp only at h
        repeat' split at h
        all_goals try cases h
        all_goals first
          | rfl
          | (injection h with h1; injection h1 with h2 h3; exact h2.symm)
      subst hd1
      exact condStep_shape f hw hcond

/-- State shape of `_dictKeyIndex`: the returned state is the input or the
result of the expand check. -/
theorem dictKeyIndex_shape (f : Nat → Nat) (cr : Bool) (a : Nat) {d1 d2 : dict}
    {k : Nat} {io : Option Nat} (h : dictKeyIndex f cr a d1 k = some (d2, io)) :
    d2 = d1 ∨ dictExpandIfNeeded cr a d1 = .ok d2 := by
  rw [dictKeyIndex] at h
  split at h
  · injection h with h
    injection h with h _
    exact Or.inl h.symm
  · rename_i e hexp
    have hd2 : d2 = e := by
      dsimp only at h
      repeat' split at h
      all_goals try cases h
      all_goals first
        | rfl
        | (injection h with h1; injection h1 with h2 h3; exact h2.symm)
    subst hd2
    exact Or.inr hexp

/-- State shape of `dictAdd`: a rehash step, then possibly an expansion, then
an insertion that changes no table size and no rehash index. -/
theorem dictAdd_shape (f : Nat → Nat) (cr : Bool) (a : Nat) {d d3 : dict}
    {k v : Nat} {ok : Bool} (hw : dictWF f d)
    (h : dictAdd f cr a d k v = some (d3, ok)) :
    ∃ d1 d2, (d1 = d ∨ ∃ b, dictRehash f d 1 = some (d1, b)) ∧
      (d2 = d1 ∨ dictExpandIfNeeded cr a d1 = .ok d2) ∧
      d3.ht0.size = d2.ht0.size ∧ d3.ht1.size = d2.ht1.size ∧
      d3.rehashidx = d2.rehashidx := by
  rw [dictAdd] at h
  split at h
  · cases h
  · rename_i d1 hcond
    split at h
    · cases h
    · rename_i d2 hki
      refine ⟨d1, d2, condStep_shape f hw hcond, dictKeyIndex_shape f cr a hki, ?_⟩
      injection h with h1
      injection h1 with h2 h3
      subst h2
      exact ⟨rfl, rfl, rfl⟩
    · rename_i d2 idx hki
      refine ⟨d1, d2, condStep_shape f hw hcond, dictKeyIndex_shape f cr a hki, ?_⟩
      repeat' split at h
      all_goals try cases h
      all_goals try (injection h with h1; injection h1 with h2 h3; subst h2)
      all_goals (refine ⟨?_, ?_, ?_⟩ <;> simp [dictht.size, List.length_set])

/-- State shape of `dictDelete`: sizes and rehash index are never changed. -/
theorem dictDelete_shape (f : Nat → Nat) {d d1 : dict} {k : Nat} {ok : Bool}
    (h : dictDelete f d k = some (d1, ok)) :
    d1.ht0.size = d.ht0.size ∧ d1.ht1.size = d.ht1.size ∧
      d1.rehashidx = d.rehashidx := by
  rw [dictDelete, dictGenericDelete] at h
  dsimp only at h
  repeat' split at h
  all_goals try cases h
  all_goals try (injection h with h1; injection h1 with h2 h3; subst h2)
  all_goals (refine ⟨?_, ?_, ?_⟩ <;> simp [dictht.size, List.length_set])

theorem wfs_rehash (f : Nat → Nat) {d d1 : dict} {b : Bool} (hs : dictWFS d)
    (h : dictRehash f d 1 = some (d1, b)) : dictWFS d1 ∧ smallN d ≤ smallN d1 := by
  rcases dictRehash_one_shape f h with heq | ⟨hreh, hu, heq⟩ | ⟨hreh, hreh1, hs0, hs1⟩
  · subst heq
    exact ⟨hs, le_refl _⟩
  · subst heq
    obtain ⟨r, hr⟩ := Option.isSome_iff_exists.mp hreh
    obtain ⟨⟨i, hi, hsz⟩, hlt⟩ := hs.pow1 r hr
    refine ⟨⟨Or.inr ⟨i, hi, hsz⟩, ?_⟩, ?_⟩
    · intro r' hr'
      cases hr'
    · rw [smallN, smallN]
      simp only [dictIsRehashing, hr, Option.isSome_some, if_pos]
      show min d.ht0.size d.ht1.size ≤ _
      simp only [Option.isSome_none]
      show min d.ht0.size d.ht1.size ≤ d.ht1.size
      exact Nat.min_le_right _ _
  · obtain ⟨r, hr⟩ := Option.isSome_iff_exists.mp hreh
    obtain ⟨r1, hr1⟩ := Option.isSome_iff_exists.mp hreh1
    refine ⟨⟨?_, ?_⟩, ?_⟩
    · rw [hs0]
      exact hs.pow0
    · intro r' hr'
      rw [hs0, hs1]
      exact hs.pow1 r hr
    · rw [smallN, smallN, dictIsRehashing, dictIsRehashing, hr, hr1, hs0, hs1]
      simp

theorem wfs_expand (f : Nat → Nat) (cr : Bool) (a : Nat) {d d1 : dict}
    (hw : dictWF f d) (hs : dictWFS d) (hbound : dictSize d ≤ 2 ^ 60)
    (h : dictExpandIfNeeded cr a d = .ok d1) :
    dictWFS d1 ∧ smallN d ≤ smallN d1 := by
  rcases dictExpandIfNeeded_cases f cr a hw h with heq | ⟨hs0, hrx, heq⟩ |
    ⟨hrx, hpos, htrig, heq⟩
  · subst heq
    exact ⟨hs, le_refl _⟩
  · subst heq
    have h4 : dictNextPower DICT_HT_INITIAL_SIZE = 4 := by decide
    refine ⟨⟨Or.inr ⟨2, by omega, ?_⟩, ?_⟩, ?_⟩
    · show (List.replicate (dictNextPower DICT_HT_INITIAL_SIZE) []).length = 2 ^ 2
      rw [List.length_replicate, h4]
      rfl
    · intro r' hr'
      rw [show ({ d with ht0 := ⟨a, List.replicate (dictNextPower DICT_HT_INITIAL_SIZE) [], 0⟩
          } : dict).rehashidx = d.rehashidx from rfl, hrx] at hr'
      cases hr'
    · rw [smallN, smallN]
      simp only [dictIsRehashing, hrx, Option.isSome_none]
      show d.ht0.size ≤ (List.replicate (dictNextPower DICT_HT_INITIAL_SIZE) []).length
      rw [List.length_replicate, h4]
      omega
  · subst heq
    have hub : d.ht0.used * 2 ≤ 2 ^ 61 := by
      have h1 : d.ht0.used ≤ dictSize d := by
        rw [dictSize]
        omega
      have h2 : (2 : Nat) ^ 60 * 2 = 2 ^ 61 := by norm_num
      omega
    obtain ⟨bb, hb2, hb61, hbeq, hbge⟩ := dictNextPower_pow _ hub
    refine ⟨⟨hs.pow0, ?_⟩, ?_⟩
    · intro r' hr'
      have hsz1 : ({ d with
          ht1 := ⟨a, List.replicate (dictNextPower (d.ht0.used * 2)) [], 0⟩,
          rehashidx := some 0 } : dict).ht1.size = 2 ^ bb := by
        show (List.replicate (dictNextPower (d.ht0.used * 2)) []).length = 2 ^ bb
        rw [List.length_replicate, hbeq]
      refine ⟨⟨bb, hb61, hsz1⟩, ?_⟩
      show d.ht0.size < (List.replicate (dictNextPower (d.ht0.used * 2)) []).length
      rw [List.length_replicate, hbeq]
      omega
    · rw [smallN, smallN]
      simp only [dictIsRehashing, hrx, Option.isSome_none, Option.isSome_some]
      show d.ht0.size ≤ min _ _
      refine le_min (le_refl _) ?_
      show d.ht0.size ≤ (List.replicate (dictNextPower (d.ht0.used * 2)) []).length
      rw [List.length_replicate, hbeq]
      omega

theorem dictRehash_wfp (f : Nat → Nat) {d d1 : dict} {b : Bool} (hwp : dictWFP f d)
    (h : dictRehash f d 1 = some (d1, b)) :
    dictWFP f d1 ∧ smallN d ≤ smallN d1 ∧ (dictEntries d1).Perm (dictEntries d) := by
  obtain ⟨d1', b', heq, hw1, hperm, _⟩ := dictRehash_one f hwp.1
  rw [heq] at h
  injection h with h
  injection h with h2 h3
  subst h2
  obtain ⟨hwfs, hsm⟩ := wfs_rehash f hwp.2 heq
  exact ⟨⟨hw1, hwfs⟩, hsm, hperm⟩

theorem smallN_congr {x y : dict} (h0 : x.ht0.size = y.ht0.size)
    (h1 : x.ht1.size = y.ht1.size) (hr : x.rehashidx = y.rehashidx) :
    smallN x = smallN y := by
  rw [smallN, smallN, dictIsRehashing, dictIsRehashing, h0, h1, hr]

theorem stepOp_size (f : Nat → Nat) (cr : Bool) (a : Nat) {d d1 : dict}
    {o : DOp} {res : DRes} (hw : dictWF f d) (hw1 : dictWF f d1)
    (h : stepOp f cr a d o = some (d1, res)) : dictSize d1 ≤ dictSize d + 1 := by
  cases o with
  | add k v =>
    rw [stepOp] at h
    rcases Option.map_eq_some'.mp h with ⟨p, hp, hpq⟩
    injection hpq with hq1 hq2
    obtain ⟨d3, heq, hw3, hpos3, hins, hkeep⟩ := dictAdd_spec f cr a hw k v
    rw [heq] at hp
    injection hp with hp
    have hd13 : d1 = d3 := by rw [← hq1, ← hp]
    subst hd13
    rcases hmk : (dictModel d k).isNone with _ | _
    · have hperm := hkeep hmk
      rw [dictSize_eq_entries f hw3, dictSize_eq_entries f hw, hperm.length_eq]
      omega
    · have hperm := hins hmk
      rw [dictSize_eq_entries f hw3, dictSize_eq_entries f hw, hperm.length_eq,
        List.length_cons]
  | del k =>
    rw [stepOp] at h
    rcases Option.map_eq_some'.mp h with ⟨p, hp, hpq⟩
    injection hpq with hq1 hq2
    by_cases hs0 : d.ht0.size = 0
    · rw [(dictDelete_spec f hw k).1 hs0] at hp
      cases hp
    · obtain ⟨dd, heq, hwd, _, _, hfound, hmiss⟩ :=
        (dictDelete_spec f hw k).2 (by omega)
      rw [heq] at hp
      injection hp with hp
      have hd1d : d1 = dd := by rw [← hq1, ← hp]
      subst hd1d
      rcases hmk : (dictModel d k).isSome with _ | _
      · rw [hmiss hmk]
        omega
      · obtain ⟨w, _, hperm⟩ := hfound hmk
        have hl := hperm.length_eq
        rw [List.length_cons] at hl
        rw [dictSize_eq_entries f hwd, dictSize_eq_entries f hw]
        omega
  | find k =>
    rw [stepOp] at h
    rcases Option.map_eq_some'.mp h with ⟨p, hp, hpq⟩
    injection hpq with hq1 hq2
    rw [show p = (p.1, p.2) from rfl] at hp
    rcases dictFind_shape f hw hp with hpd | ⟨b, hb⟩
    · rw [← hq1, hpd]
      omega
    · obtain ⟨d1', b', heq, hw1', hperm, _⟩ := dictRehash_one f hw
      rw [heq] at hb
      injection hb with hb
      injection hb with hb2 _
      rw [← hq1, ← hb2, dictSize_eq_entries f hw1', dictSize_eq_entries f hw,
        hperm.length_eq]
      omega

theorem stepOp_wfp (f : Nat → Nat) (cr : Bool) (a : Nat) {d d1 : dict}
    {o : DOp} {res : DRes} (hwp : dictWFP f d) (hbound : dictSize d ≤ 2 ^ 60)
    (h : stepOp f cr a d o = some (d1, res)) :
    dictWFP f d1 ∧ smallN d ≤ smallN d1 ∧ dictSize d1 ≤ dictSize d + 1 := by
  have hw1 : dictWF f d1 := by
    rcases stepOp_spec f cr a hwp.1 o with ⟨hnone, _⟩ | ⟨d1', heq, _, hw1, _, _⟩
    · rw [h] at hnone
      cases hnone
    · rw [heq] at h
      injection h with h
      injection h with h2 _
      rw [← h2]
      exact hw1
  have hsize := stepOp_size f cr a hwp.1 hw1 h
  suffices hh : dictWFS d1 ∧ smallN d ≤ smallN d1 from ⟨⟨hw1, hh.1⟩, hh.2, hsize⟩
  cases o with
  | add k v =>
    rw [stepOp] at h
    rcases Option.map_eq_some'.mp h with ⟨p, hp, hpq⟩
    injection hpq with hq1 hq2
    rw [show p = (p.1, p.2) from rfl] at hp
    obtain ⟨dA, dB, hA, hB, hsz0, hsz1, hrx⟩ := dictAdd_shape f cr a hwp.1 hp
    have hAfacts : dictWFP f dA ∧ smallN d ≤ smallN dA ∧ dictSize dA = dictSize d := by
      rcases hA with rfl | ⟨b, hb⟩
      · exact ⟨hwp, le_refl _, rfl⟩
      · obtain ⟨hwpA, hsm, hperm⟩ := dictRehash_wfp f hwp hb
        refine ⟨hwpA, hsm, ?_⟩
        rw [dictSize_eq_entries f hwpA.1, dictSize_eq_entries f hwp.1, hperm.length_eq]
    have hBfacts : dictWFS dB ∧ smallN dA ≤ smallN dB := by
      rcases hB with rfl | hexp
      · exact ⟨hAfacts.1.2, le_refl _⟩
      · exact wfs_expand f cr a hAfacts.1.1 hAfacts.1.2 (by
          have := hAfacts.2.2
          omega) hexp
    have hsmeq : smallN p.1 = smallN dB := smallN_congr hsz0 hsz1 hrx
    constructor
    · refine ⟨?_, ?_⟩
      · rw [← hq1, hsz0]
        exact hBfacts.1.pow0
      · intro r' hr'
        rw [← hq1, hsz0, hsz1]
        refine hBfacts.1.pow1 r' ?_
        rw [← hrx]
        rw [← hq1] at hr'
        exact hr'
    · rw [← hq1]
      have h1 := hAfacts.2.1
      have h2 := hBfacts.2
      omega
  | del k =>
    rw [stepOp] at h
    rcases Option.map_eq_some'.mp h with ⟨p, hp, hpq⟩
    injection hpq with hq1 hq2
    rw [show p = (p.1, p.2) from rfl] at hp
    obtain ⟨hsz0, hsz1, hrx⟩ := dictDelete_shape f hp
    have hsmeq : smallN p.1 = smallN d := smallN_congr hsz0 hsz1 hrx
    constructor
    · refine ⟨?_, ?_⟩
      · rw [← hq1, hsz0]
        exact hwp.2.pow0
      · intro r' hr'
        rw [← hq1, hsz0, hsz1]
        refine hwp.2.pow1 r' ?_
        rw [← hrx]
        rw [← hq1] at hr'
        exact hr'
    · rw [← hq1]
      omega
  | find k =>
    rw [stepOp] at h
    rcases Option.map_eq_some'.mp h with ⟨p, hp, hpq⟩
    injection hpq with hq1 hq2
    rw [show p = (p.1, p.2) from rfl] at hp
    rcases dictFind_shape f hwp.1 hp with hpd | ⟨b, hb⟩
    · rw [← hq1, hpd]
      exact ⟨hwp.2, le_refl _⟩
    · obtain ⟨hwp1, hsm, _⟩ := dictRehash_wfp f hwp hb
      rw [← hq1]
      exact ⟨hwp1.2, hsm⟩

theorem runItems_wfp (f : Nat → Nat) (cr : Bool) (a : Nat) :
    ∀ (its : List DItem) {d : dict}, dictWFP f d →
    dictSize d + its.length ≤ 2 ^ 60 →
    ∀ {e : dict}, (runItems f cr a d its).2 = some e →
    dictWFP f e ∧ smallN d ≤ smallN e ∧ dictSize e ≤ dictSize d + its.length := by
  intro its
  induction its with
  | nil =>
    intro d hwp hb e he
    injection he with he
    subst he
    exact ⟨hwp, le_refl _, by omega⟩
  | cons it rest ih =>
    intro d hwp hb e he
    rw [List.length_cons] at hb
    cases it with
    | reh =>
      rw [runItems] at he
      split at he
      · cases he
      · rename_i d1 b hp
        obtain ⟨hwp1, hsm, hperm⟩ := dictRehash_wfp f hwp hp
        have hsz : dictSize d1 = dictSize d := by
          rw [dictSize_eq_entries f hwp1.1, dictSize_eq_entries f hwp.1, hperm.length_eq]
        obtain ⟨hwpe, hsme, hsize⟩ := ih hwp1 (by omega) he
        refine ⟨hwpe, le_trans hsm hsme, ?_⟩
        simp only [List.length_cons]
        omega
    | op o =>
      rw [runItems] at he
      split at he
      · cases he
      · rename_i d1 r hstep
        dsimp only at he
        obtain ⟨hwp1, hsm, hsize⟩ := stepOp_wfp f cr a hwp (by omega) hstep
        obtain ⟨hwpe, hsme, hsizee⟩ := ih hwp1 (by omega) he
        refine ⟨hwpe, le_trans hsm hsme, ?_⟩
        simp only [List.length_cons]
        omega

theorem dictScanLoopT1_spec (t1 : dictht) (a b : Nat) (hab : a < b) (hb : b ≤ 63)
    (low : Nat) (hlow : low < 2 ^ a) :
    ∀ (fuel mid : Nat) (acc : List (Nat × Nat)), mid < 2 ^ (b - a) →
      2 ^ (b - a) - mid ≤ fuel →
      dictScanLoopT1 t1 (2 ^ a - 1) (2 ^ b - 1) (low + mid * 2 ^ a) fuel acc =
        (acc ++ ((List.range' mid (2 ^ (b - a) - mid)).map
          (fun j => t1.table.getD (low + j * 2 ^ a) [])).flatten, low + 2 ^ b) := by
  have hba : 2 ^ a * 2 ^ (b - a) = 2 ^ b := by
    rw [← pow_add]
    congr 1
    omega
  intro fuel
  induction fuel with
  | zero =>
    intro mid acc hmid hfuel
    omega
  | succ fuel ih =>
    intro mid acc hmid hfuel
    have hvlt : low + mid * 2 ^ a < 2 ^ b := by
      have h1 : mid * 2 ^ a + 2 ^ a ≤ 2 ^ (b - a) * 2 ^ a := by
        have := Nat.succ_le_of_lt hmid
        have h2 : (mid + 1) * 2 ^ a ≤ 2 ^ (b - a) * 2 ^ a :=
          Nat.mul_le_mul_right _ this
        rw [Nat.add_mul, one_mul] at h2
        exact h2
      rw [mul_comm (2 ^ (b - a))] at h1
      omega
    have hvm1 : (low + mid * 2 ^ a) &&& (2 ^ b - 1) = low + mid * 2 ^ a := by
      rw [Nat.and_pow_two_sub_one_eq_mod, Nat.mod_eq_of_lt hvlt]
    rw [dictScanLoopT1]
    rw [hvm1, scanStep_mid a b low mid hab hb hlow (by omega)]
    by_cases hwrap : mid + 1 = 2 ^ (b - a)
    · rw [if_neg (by
        rw [Ne, scanTest_mid a b low (mid + 1) hab hlow (by omega) (by omega)]
        simp [hwrap])]
      rw [show 2 ^ (b - a) - mid = 1 from by omega]
      rw [show low + (mid + 1) * 2 ^ a = low + 2 ^ b from by
        rw [hwrap, mul_comm, hba]]
      simp [List.range']
    · rw [if_pos (by
        rw [Ne, scanTest_mid a b low (mid + 1) hab hlow (by omega) (by omega)]
        omega)]
      rw [ih (mid + 1) _ (by omega) (by omega)]
      rw [show 2 ^ (b - a) - mid = (2 ^ (b - a) - (mid + 1)) + 1 from by omega]
      rw [List.range'_succ, List.map_cons, List.flatten_cons, List.append_assoc]

theorem mem_home_bucket {f : Nat → Nat} {t : List (List (Nat × Nat))} (hwf : tableWF f t)
    {k v : Nat} (hmem : (k, v) ∈ t.flatten) :
    (k, v) ∈ t.getD (f k &&& (t.length - 1)) [] := by
  rcases List.mem_flatten.mp hmem with ⟨bkt, hbkt, hin⟩
  rcases List.mem_iff_getElem.mp hbkt with ⟨i, hi, rfl⟩
  have hhome := hwf i hi (k, v) hin
  rw [show f k &&& (t.length - 1) = i from hhome, List.getD_eq_getElem t [] hi]
  exact hin

theorem dictScan_spec (f : Nat → Nat) {d : dict} (hwp : dictWFP f d) (k : Nat)
    (hk : (dictModel d k).isSome = true) {w : Nat} (hsm : smallN d = 2 ^ w)
    (hw61 : w ≤ 61) {c : Nat} (hc : c < 2 ^ w) :
    (dictScan d c).2 = bitRev w ((bitRev w c + 1) % 2 ^ w) ∧
    (f k &&& (2 ^ w - 1) = c → k ∈ ((dictScan d c).1.map Prod.fst)) := by
  obtain ⟨v, hv⟩ := Option.isSome_iff_exists.mp hk
  have hmem : (k, v) ∈ dictEntries d := (model_some_iff hwp.1).mp hv
  have hsize : ¬ dictSize d = 0 := by
    rw [dictSize_eq_entries f hwp.1]
    intro hlen
    rw [List.length_eq_zero.mp hlen] at hmem
    cases hmem
  by_cases hreh : dictIsRehashing d
  · -- rehashing: table 1 is the bigger table
    obtain ⟨r, hr⟩ := Option.isSome_iff_exists.mp hreh
    obtain ⟨hpos0, hpos1, _⟩ := hwp.1.rehash_bounds r hr
    rcases hwp.2.pow0 with h0 | ⟨A, hA61, hA⟩
    · omega
    obtain ⟨⟨B, hB61, hB⟩, hlt⟩ := hwp.2.pow1 r hr
    have hAB : A < B := by
      rw [hA, hB] at hlt
      exact (Nat.pow_lt_pow_iff_right (by norm_num)).mp hlt
    have hwA : w = A := by
      rw [smallN, if_pos hreh, hA, hB] at hsm
      have : min (2 ^ A) (2 ^ B) = 2 ^ A :=
        Nat.min_eq_left (Nat.pow_le_pow_right (by norm_num) (by omega))
      rw [this] at hsm
      exact (Nat.pow_right_injective (by norm_num) hsm.symm)
    subst hwA
    have hswap : ¬ d.ht1.size < d.ht0.size := by
      rw [hA, hB]
      exact Nat.not_lt.mpr (Nat.pow_le_pow_right (by norm_num) (by omega))
    have hm0 : d.ht0.sizemask = 2 ^ w - 1 := by
      rw [dictht.sizemask, hA]
    have hm1 : d.ht1.sizemask = 2 ^ B - 1 := by
      rw [dictht.sizemask, hB]
    have heq : dictScan d c =
        (d.ht0.table.getD (c &&& d.ht0.sizemask) [] ++
          (dictScanLoopT1 d.ht1 d.ht0.sizemask d.ht1.sizemask c (d.ht1.size + 1) []).1,
         rev ((rev ((dictScanLoopT1 d.ht1 d.ht0.sizemask d.ht1.sizemask c
             (d.ht1.size + 1) []).2 |||
           ((2 ^ 64 - 1) ^^^ d.ht0.sizemask)) + 1) % 2 ^ 64)) := by
      rw [dictScan, if_neg hsize, if_neg (by simpa using hreh)]
      rw [if_neg hswap]
    rw [hm0, hm1] at heq
    have hfuel : 2 ^ (B - w) - 0 ≤ d.ht1.size + 1 := by
      rw [hB]
      have : (2 : Nat) ^ (B - w) ≤ 2 ^ B := Nat.pow_le_pow_right (by norm_num) (by omega)
      omega
    have hloop := dictScanLoopT1_spec d.ht1 w B hAB (by omega) c hc
      (d.ht1.size + 1) 0 [] (pow_pos (by norm_num) _) hfuel
    rw [Nat.zero_mul, Nat.add_zero] at hloop
    constructor
    · rw [heq]
      show rev ((rev ((dictScanLoopT1 _ _ _ c _ []).2 ||| _) + 1) % 2 ^ 64) = _
      rw [hloop]
      show rev ((rev ((c + 2 ^ B) ||| ((2 ^ 64 - 1) ^^^ (2 ^ w - 1))) + 1) % 2 ^ 64) = _
      rw [or_not_mask_high w B c (by omega) (by omega) hc,
        nextCursor_eq w c (by omega) hc]
    · intro hhome
      rw [heq]
      rcases List.mem_append.mp (show (k, v) ∈ d.ht0.table.flatten ++ d.ht1.table.flatten
          from hmem) with hmem0 | hmem1
      · -- home bucket of table 0 is the one emitted first
        have hb0 := mem_home_bucket hwp.1.wf0 hmem0
        rw [show d.ht0.table.length - 1 = 2 ^ w - 1 from by rw [← hA]; rfl] at hb0
        rw [hhome] at hb0
        have hcc : c &&& (2 ^ w - 1) = c := by
          rw [Nat.and_pow_two_sub_one_eq_mod, Nat.mod_eq_of_lt hc]
        rw [hcc]
        apply List.mem_map.mpr
        refine ⟨(k, v), ?_, rfl⟩
        exact List.mem_append.mpr (Or.inl hb0)
      · -- table 1: the loop visits the expanded home bucket
        have hb1 := mem_home_bucket hwp.1.wf1 hmem1
        rw [show d.ht1.table.length - 1 = 2 ^ B - 1 from by rw [← hB]; rfl] at hb1
        set u := f k &&& (2 ^ B - 1) with hu
        have hult : u < 2 ^ B := by
          rw [hu, Nat.and_pow_two_sub_one_eq_mod]
          exact Nat.mod_lt _ (pow_pos (by norm_num) _)
        have humod : u % 2 ^ w = c := by
          rw [hu, Nat.and_pow_two_sub_one_eq_mod, Nat.mod_mod_of_dvd _
            (pow_dvd_pow 2 (by omega : w ≤ B))]
          rw [← Nat.and_pow_two_sub_one_eq_mod]
          exact hhome
        have hudecomp : u = c + (u / 2 ^ w) * 2 ^ w := by
          conv_lhs => rw [← Nat.mod_add_div u (2 ^ w)]
          rw [humod]
          ring
        have hjlt : u / 2 ^ w < 2 ^ (B - w) := by
          rw [Nat.div_lt_iff_lt_mul (pow_pos (by norm_num) w)]
          have : (2 : Nat) ^ (B - w) * 2 ^ w = 2 ^ B := by
            rw [← pow_add]
            congr 1
            omega
          omega
        rw [hloop]
        apply List.mem_map.mpr
        refine ⟨(k, v), ?_, rfl⟩
        apply List.mem_append.mpr
        right
        apply List.mem_flatten.mpr
        refine ⟨d.ht1.table.getD (c + (u / 2 ^ w) * 2 ^ w) [], ?_, ?_⟩
        · apply List.mem_map.mpr
          refine ⟨u / 2 ^ w, ?_, rfl⟩
          apply List.mem_range'_1.mpr
          exact ⟨Nat.zero_le _, by simpa using hjlt⟩
        · rw [← hudecomp]
          exact hb1
  · -- not rehashing: single table
    have hrxn : d.rehashidx = none := by
      rcases hx : d.rehashidx with _ | r
      · rfl
      · exact absurd (by rw [dictIsRehashing, hx]; rfl) hreh
    have hidle := hwp.1.idle hrxn
    have hsm0 : d.ht0.size = 2 ^ w := by
      rw [smallN, if_neg hreh] at hsm
      exact hsm
    have hm0 : d.ht0.sizemask = 2 ^ w - 1 := by
      rw [dictht.sizemask, hsm0]
    have heq : dictScan d c =
        (d.ht0.table.getD (c &&& d.ht0.sizemask) [],
         rev ((rev (c ||| ((2 ^ 64 - 1) ^^^ d.ht0.sizemask)) + 1) % 2 ^ 64)) := by
      rw [dictScan, if_neg hsize, if_pos (by simpa using hreh)]
    rw [hm0] at heq
    constructor
    · rw [heq]
      show rev ((rev (c ||| ((2 ^ 64 - 1) ^^^ (2 ^ w - 1))) + 1) % 2 ^ 64) = _
      rw [or_not_mask w c (by omega) hc, nextCursor_eq w c (by omega) hc]
    · intro hhome
      rw [heq]
      have hmem0 : (k, v) ∈ d.ht0.table.flatten := by
        rcases List.mem_append.mp (show (k, v) ∈ d.ht0.table.flatten ++ d.ht1.table.flatten
            from hmem) with hmem0 | hmem1
        · exact hmem0
        · rw [hidle] at hmem1
          cases hmem1
      have hb0 := mem_home_bucket hwp.1.wf0 hmem0
      rw [show d.ht0.table.length - 1 = 2 ^ w - 1 from by rw [← hsm0]; rfl] at hb0
      rw [hhome] at hb0
      have hcc : c &&& (2 ^ w - 1) = c := by
        rw [Nat.and_pow_two_sub_one_eq_mod, Nat.mod_eq_of_lt hc]
      rw [hcc]
      apply List.mem_map.mpr
      exact ⟨(k, v), hb0, rfl⟩

/-- A scan session: the dictionary states at the successive `dictScan` calls,
with a batch of interleaved operations/rehash steps run between consecutive
calls.  `none` when one of the batches crashes. -/
def scanStates (f : Nat → Nat) (cr : Bool) (a : Nat) :
    dict → List (List DItem) → Option (List dict)
  | d, [] => some [d]
  | d, batch :: rest =>
    match (runItems f cr a d batch).2 with
    | none => none
    | some d1 => (scanStates f cr a d1 rest).map (fun l => d :: l)

/-- Fold `dictScan` over the call states: the per-call emissions and the final
cursor. -/
def scanCalls : Nat → List dict → List (List (Nat × Nat)) × Nat
  | v, [] => ([], v)
  | v, d :: rest =>
    let p := dictScan d v
    let q := scanCalls p.2 rest
    (p.1 :: q.1, q.2)

theorem scanStates_head (f : Nat → Nat) (cr : Bool) (a : Nat) :
    ∀ {batches : List (List DItem)} {d : dict} {ds : List dict},
    scanStates f cr a d batches = some ds → ∃ t, ds = d :: t := by
  intro batches d ds h
  cases batches with
  | nil =>
    injection h with h
    exact ⟨[], h.symm⟩
  | cons b rest =>
    rw [scanStates] at h
    split at h
    · cases h
    · rcases Option.map_eq_some'.mp h with ⟨l, _, hl⟩
      exact ⟨l, hl.symm⟩

theorem smallN_pow (f : Nat → Nat) {d : dict} (hwp : dictWFP f d) {k : Nat}
    (hk : (dictModel d k).isSome = true) : ∃ i, i ≤ 61 ∧ smallN d = 2 ^ i := by
  obtain ⟨v, hv⟩ := Option.isSome_iff_exists.mp hk
  have hmem : (k, v) ∈ dictEntries d := (model_some_iff hwp.1).mp hv
  by_cases hreh : dictIsRehashing d
  · obtain ⟨r, hr⟩ := Option.isSome_iff_exists.mp hreh
    obtain ⟨hpos0, _, _⟩ := hwp.1.rehash_bounds r hr
    rcases hwp.2.pow0 with h0 | ⟨A, hA61, hA⟩
    · omega
    obtain ⟨⟨B, hB61, hB⟩, hlt⟩ := hwp.2.pow1 r hr
    refine ⟨A, hA61, ?_⟩
    rw [smallN, if_pos hreh, hA, hB,
      Nat.min_eq_left (le_of_lt (by rw [← hA, ← hB]; exact hlt))]
  · have hrxn : d.rehashidx = none := by
      rcases hx : d.rehashidx with _ | r
      · rfl
      · exact absurd (by rw [dictIsRehashing, hx]; rfl) hreh
    have hidle := hwp.1.idle hrxn
    have hmem0 : (k, v) ∈ d.ht0.table.flatten := by
      rcases List.mem_append.mp (show (k, v) ∈ d.ht0.table.flatten ++ d.ht1.table.flatten
          from hmem) with h | h
      · exact h
      · rw [hidle] at h
        cases h
    have hpos0 : 0 < d.ht0.size := by
      rcases List.mem_flatten.mp hmem0 with ⟨bkt, hbkt, _⟩
      rcases List.mem_iff_getElem.mp hbkt with ⟨i, hi, _⟩
      show 0 < d.ht0.table.length
      omega
    rcases hwp.2.pow0 with h0 | ⟨A, hA61, hA⟩
    · omega
    refine ⟨A, hA61, ?_⟩
    rw [smallN, if_neg hreh, hA]

theorem scanCover (f : Nat → Nat) (cr : Bool) (a : Nat) (k : Nat) :
    ∀ (batches : List (List DItem)) (d : dict) (ds : List dict),
    scanStates f cr a d batches = some ds →
    dictWFP f d →
    dictSize d + (batches.map List.length).sum ≤ 2 ^ 60 →
    (∀ x ∈ ds, (dictModel x k).isSome = true) →
    ∀ (c w : Nat), smallN d = 2 ^ w → w ≤ 61 → c < 2 ^ w →
    bitRev w c ≤ bitRev w (f k &&& (2 ^ w - 1)) →
    (scanCalls c ds).2 = 0 →
    k ∈ ((scanCalls c ds).1.flatten.map Prod.fst) := by
  intro batches
  induction batches with
  | nil =>
    intro d ds hds hwp hbud hpres c w hsm hw61 hc hinv hdone
    injection hds with hds
    subst hds
    have hpres0 : (dictModel d k).isSome = true := hpres d (by simp)
    obtain ⟨hcur, hemit⟩ := dictScan_spec f hwp k hpres0 hsm hw61 hc
    have hd2 : (scanCalls c [d]).2 = (dictScan d c).2 := rfl
    rw [hd2, hcur] at hdone
    have hpw : (0 : Nat) < 2 ^ w := pow_pos (by norm_num) w
    have hn : (bitRev w c + 1) % 2 ^ w = 0 :=
      bitRev_eq_zero w _ (Nat.mod_lt _ hpw) hdone
    have hblt := bitRev_lt w c
    have hcmax : bitRev w c = 2 ^ w - 1 := by
      rcases Nat.lt_or_ge (bitRev w c + 1) (2 ^ w) with hlt | hge
      · rw [Nat.mod_eq_of_lt hlt] at hn
        omega
      · omega
    have hhomelt : f k &&& (2 ^ w - 1) < 2 ^ w := by
      rw [Nat.and_pow_two_sub_one_eq_mod]
      exact Nat.mod_lt _ hpw
    have hmax : bitRev w (f k &&& (2 ^ w - 1)) = 2 ^ w - 1 := by
      have := bitRev_lt w (f k &&& (2 ^ w - 1))
      omega
    have hhc : f k &&& (2 ^ w - 1) = c := by
      have h1 := bitRev_max w _ hhomelt hmax
      have h2 := bitRev_max w c hc hcmax
      rw [h1, h2]
    have hk2 := hemit hhc
    have h1 : (scanCalls c [d]).1 = [(dictScan d c).1] := rfl
    rw [h1]
    simpa using hk2
  | cons batch rest ih =>
    intro d ds hds hwp hbud hpres c w hsm hw61 hc hinv hdone
    rw [scanStates] at hds
    split at hds
    · cases hds
    · rename_i d1 hrun
      rcases Option.map_eq_some'.mp hds with ⟨ds', hds', hcons⟩
      subst hcons
      have hpres0 : (dictModel d k).isSome = true := hpres d (by simp)
      obtain ⟨hcur, hemit⟩ := dictScan_spec f hwp k hpres0 hsm hw61 hc
      have hsplit1 : (scanCalls c (d :: ds')).1 =
          (dictScan d c).1 :: (scanCalls (dictScan d c).2 ds').1 := rfl
      have hsplit2 : (scanCalls c (d :: ds')).2 =
          (scanCalls (dictScan d c).2 ds').2 := rfl
      by_cases hhc : f k &&& (2 ^ w - 1) = c
      · have hk2 := hemit hhc
        rw [hsplit1, List.flatten_cons, List.map_append]
        exact List.mem_append.mpr (Or.inl hk2)
      · -- not emitted at this call: carry the counter invariant to the next one
        rw [List.map_cons, List.sum_cons] at hbud
        obtain ⟨hwp1, hsm1le, hsize1⟩ :=
          runItems_wfp f cr a batch hwp (by omega) hrun
        obtain ⟨tl, htl⟩ := scanStates_head f cr a hds'
        have hpres1 : (dictModel d1 k).isSome = true := by
          apply hpres
          rw [htl]
          simp
        obtain ⟨w', hw61', hsm1⟩ := smallN_pow f hwp1 hpres1
        have hww' : w ≤ w' := by
          have h1 : (2 : Nat) ^ w ≤ 2 ^ w' := by
            rw [← hsm, ← hsm1]
            exact hsm1le
          exact (Nat.pow_le_pow_iff_right (by norm_num)).mp h1
        have hpw : (0 : Nat) < 2 ^ w := pow_pos (by norm_num) w
        have hhomelt : f k &&& (2 ^ w - 1) < 2 ^ w := by
          rw [Nat.and_pow_two_sub_one_eq_mod]
          exact Nat.mod_lt _ hpw
        have hstrict : bitRev w c < bitRev w (f k &&& (2 ^ w - 1)) := by
          rcases Nat.lt_or_ge (bitRev w c) (bitRev w (f k &&& (2 ^ w - 1))) with h | h
          · exact h
          · have heq : bitRev w (f k &&& (2 ^ w - 1)) = bitRev w c := by omega
            exact absurd (bitRev_inj w _ _ hhomelt hc heq) hhc
        have hnowrap : (bitRev w c + 1) % 2 ^ w = bitRev w c + 1 := by
          have := bitRev_lt w (f k &&& (2 ^ w - 1))
          exact Nat.mod_eq_of_lt (by omega)
        have hc1lt : (dictScan d c).2 < 2 ^ w := by
          rw [hcur]
          exact bitRev_lt _ _
        have hcnt1 : bitRev w (dictScan d c).2 = bitRev w c + 1 := by
          rw [hcur, hnowrap, bitRev_bitRev w _ (by
            have := bitRev_lt w (f k &&& (2 ^ w - 1))
            omega)]
        have hinv' : bitRev w' (dictScan d c).2 ≤ bitRev w' (f k &&& (2 ^ w' - 1)) := by
          obtain ⟨dd, rfl⟩ := Nat.exists_eq_add_of_le hww'
          have hmm : (f k &&& (2 ^ (w + dd) - 1)) % 2 ^ w = f k &&& (2 ^ w - 1) := by
            rw [Nat.and_pow_two_sub_one_eq_mod, Nat.and_pow_two_sub_one_eq_mod,
              Nat.mod_mod_of_dvd _ (pow_dvd_pow 2 (by omega))]
          apply bitRev_le_scale w dd _ _ hc1lt
          rw [hmm]
          omega
        rw [hsplit1, List.flatten_cons, List.map_append]
        apply List.mem_append.mpr
        right
        exact ih d1 ds' hds' hwp1 (by omega) (fun x hx => hpres x (by rw [htl]; right; rw [← htl]; exact hx))
          (dictScan d c).2 w' hsm1 hw61' (lt_of_lt_of_le hc1lt
            (Nat.pow_le_pow_right (by norm_num) hww')) hinv' (by rw [← hsplit2]; exact hdone)

theorem scanStates_wfp (f : Nat → Nat) (cr : Bool) (a : Nat) :
    ∀ {batches : List (List DItem)} {d : dict} {ds : List dict},
    scanStates f cr a d batches = some ds → dictWFP f d →
    dictSize d + (batches.map List.length).sum ≤ 2 ^ 60 →
    ∀ x ∈ ds, dictWFP f x := by
  intro batches
  induction batches with
  | nil =>
    intro d ds hds hwp hbud x hx
    injection hds with hds
    subst hds
    rcases List.mem_singleton.mp hx with rfl
    exact hwp
  | cons batch rest ih =>
    intro d ds hds hwp hbud x hx
    rw [scanStates] at hds
    split at hds
    · cases hds
    · rename_i d1 hrun
      rcases Option.map_eq_some'.mp hds with ⟨ds', hds', hcons⟩
      subst hcons
      rw [List.map_cons, List.sum_cons] at hbud
      obtain ⟨hwp1, _, hsize1⟩ := runItems_wfp f cr a batch hwp (by omega) hrun
      rcases List.mem_cons.mp hx with rfl | hx
      · exact hwp
      · exact ih hds' hwp1 (by omega) x hx

theorem dictWFP_create (f : Nat → Nat) : dictWFP f dictCreate :=
  ⟨dictWF_create f, ⟨Or.inl rfl, fun r hr => nomatch hr⟩⟩

/-- C4: starting `dictScan` with cursor 0 and repeatedly calling it with the
cursor returned by the previous call, with arbitrary crash-free batches of
`dictAdd`/`dictDelete`/`dictFind` operations and `dictRehash` steps run between
consecutive calls, once a call returns cursor 0 every key present in the
dictionary at every call of the session has been passed to the callback
(emitted) at least once; moreover at every visited state each table's size is
zero or a power of two.  The size-budget hypothesis keeps the session inside
the range where `_dictNextPower` never hits its `LONG_MAX` clamp. -/
theorem claim_C4 (f : Nat → Nat) (cr : Bool) (a k : Nat)
    (batches : List (List DItem)) (d0 : dict) (ds : List dict)
    (hds : scanStates f cr a d0 batches = some ds)
    (hwp : dictWFP f d0)
    (hbud : dictSize d0 + (batches.map List.length).sum ≤ 2 ^ 60)
    (hpres : ∀ x ∈ ds, (dictModel x k).isSome = true)
    (hdone : (scanCalls 0 ds).2 = 0) :
    k ∈ ((scanCalls 0 ds).1.flatten.map Prod.fst) ∧
    ∀ x ∈ ds, (x.ht0.size = 0 ∨ ∃ i, x.ht0.size = 2 ^ i) ∧
      (x.ht1.size = 0 ∨ ∃ i, x.ht1.size = 2 ^ i) := by
  have hall := scanStates_wfp f cr a hds hwp hbud
  constructor
  · obtain ⟨t, ht⟩ := scanStates_head f cr a hds
    have hd0 : d0 ∈ ds := by
      rw [ht]
      simp
    obtain ⟨w, hw61, hsm⟩ := smallN_pow f hwp (hpres d0 hd0)
    exact scanCover f cr a k batches d0 ds hds hwp hbud hpres 0 w hsm hw61
      (pow_pos (by norm_num) w) (by rw [bitRev_zero]; exact Nat.zero_le _) hdone
  · intro x hx
    have hwx := hall x hx
    constructor
    · rcases hwx.2.pow0 with h | ⟨i, _, hi⟩
      · exact Or.inl h
      · exact Or.inr ⟨i, hi⟩
    · rcases hr : x.rehashidx with _ | r
      · left
        have h1 := hwx.1.idle hr
        rw [dictht.size, h1]
        rfl
      · rcases (hwx.2.pow1 r hr).1 with ⟨i, _, hi⟩
        exact Or.inr ⟨i, hi⟩

/-- Single operation batch allocating the table: one insert of key 3. -/
def c4add : List DItem := [DItem.op (DOp.add 3 0)]

/-- Identity-hashed dictionary holding key 3 in a size-4 table. -/
def c4d0 : dict := ((runItems (fun x => x) true 100 dictCreate c4add).2).getD dictCreate

theorem c4d0_wfp : dictWFP (fun x => x) c4d0 :=
  (runItems_wfp (fun x => x) true 100 c4add (dictWFP_create (fun x => x))
    (by decide) rfl).1

set_option maxRecDepth 100000

theorem claim_C4_witness :
    3 ∈ ((scanCalls 0 [c4d0, c4d0, c4d0, c4d0]).1.flatten.map Prod.fst) ∧
    ∀ x ∈ [c4d0, c4d0, c4d0, c4d0],
      (x.ht0.size = 0 ∨ ∃ i, x.ht0.size = 2 ^ i) ∧
      (x.ht1.size = 0 ∨ ∃ i, x.ht1.size = 2 ^ i) :=
  claim_C4 (fun x => x) true 100 3 [[], [], []] c4d0 [c4d0, c4d0, c4d0, c4d0]
    rfl c4d0_wfp (by decide) (by decide) (by decide)
